import Mathlib

/-!
Radix-2 Cooley-Tukey FFT (`fft.c`): embedding and verified properties.

The C program works on `double complex` arrays.  The embedding keeps the control
flow and index arithmetic of `fft.c` and abstracts the numeric types:

* `R` stands for `double`, `C` for `double complex`;
* the constant `PI`, the libm functions `cos`, `sin`, `cabs`, the conversion
  `double → double complex` and the imaginary unit `I` are the fields of a
  `CMath R C` record, so every definition below is executable for executable
  `R`, `C`;
* an array is a `List C`; every `x[i]` goes through `load`/`store`, which fail
  (`none`) outside the allocated cells, so a result `some y` means that the run
  returned and stayed inside its arrays;
* `int` loop counters and indices only take non-negative values and are `Nat`;
  the length argument `n` of the entry points is an `Int` (every loop bound by a
  negative `n` runs zero times, like the loop bound by `n.toNat`);
* `int` is unbounded in the transforms (no wrap-around), which is what the C code
  computes as long as every `int` result fits in 32 bits.  The 32-bit range is checked
  on a separate copy of the loops that drops the array contents
  (`fft_cooley_tukey_int32`, `reverse_bits_int32`): everything fits for `n = 2 ^ k` with
  `k ≤ 29` and for `log2n ≤ 31`, while `len <<= 1` overflows for `n = 2 ^ 30` and
  `result << 1` for `log2n = 32`.  The theorems on `fft_cooley_tukey` for `n = 2 ^ k` and
  on the value of `reverse_bits` are therefore stated inside these ranges;
* `malloc` always succeeds, with zero-initialised cells.

"Exact arithmetic" is the instance `R = ℝ`, `C = ℂ` with the real `π`, `cos`,
`sin` and the complex modulus (predicate `ExactArith`).
-/

namespace FFT

open Finset

/-! ## Numeric environment -/

/-- The numeric primitives `fft.c` takes from `<math.h>` / `<complex.h>` and its
`#define PI`. -/
structure CMath (R C : Type) where
  PI : R
  cos : R → R
  sin : R → R
  ofReal : R → C
  I : C
  cabs : C → R

/-- The environment is the exact one: real `π`, real `cos`/`sin`, the complex
unit and the complex modulus. -/
def ExactArith (E : CMath ℝ ℂ) : Prop :=
  E.PI = Real.pi ∧ E.cos = Real.cos ∧ E.sin = Real.sin ∧
    E.ofReal = Complex.ofReal ∧ E.I = Complex.I ∧ E.cabs = (fun z => Complex.abs z)

/-- The C expression `cos(angle) + I * sin(angle)`. -/
def cis {R C : Type} [Add C] [Mul C] (E : CMath R C) (angle : R) : C :=
  E.ofReal (E.cos angle) + E.I * E.ofReal (E.sin angle)

/-! ## Memory access and counted loops -/

/-- Read of `x[i]`; `none` when `i` is outside the array. -/
def load {C : Type} (x : List C) (i : Nat) : Option C := x[i]?

/-- Write `x[i] = v`; `none` when `i` is outside the array. -/
def store {C : Type} (x : List C) (i : Nat) (v : C) : Option (List C) :=
  if i < x.length then some (x.set i v) else none

/-- The loop `for (int i = 0; i < n; i++) body(i)`: runs `body 0`, …,
`body (n-1)` in this order on the state, stopping at the first failure. -/
def forLoop {σ : Type} (body : Nat → σ → Option σ) : Nat → σ → Option σ
  | 0, s => some s
  | n + 1, s => (forLoop body n s).bind (body n)

/-! ## `reverse_bits` and `bit_reverse` -/

/-- The loop of `reverse_bits` with `iters` iterations left.  `result << 1` is taken on
unbounded naturals; it is the `int` result of the C code while it fits in 32 bits, which
holds for `log2n ≤ 31` (see `reverse_bits_int32`, the same loop with the range
checked). -/
def reverse_bits_loop : Nat → Nat → Nat → Nat
  | 0, result, _ => result
  | iters + 1, result, num =>
      reverse_bits_loop iters ((result <<< 1) ||| (num &&& 1)) (num >>> 1)

/-- `int reverse_bits(int num, int log2n)`. -/
def reverse_bits (num log2n : Nat) : Nat := reverse_bits_loop log2n 0 num

/-- The loop `while (temp > 1) { log2n++; temp >>= 1; }` of `bit_reverse`. -/
def log2_loop (temp log2n : Nat) : Nat :=
  if 1 < temp then log2_loop (temp >>> 1) (log2n + 1) else log2n
termination_by temp
decreasing_by
  simp only [Nat.shiftRight_one]
  omega

/-- Body of the swap loop of `bit_reverse` at index `i`. -/
def bit_reverse_step {C : Type} (log2n : Nat) (i : Nat) (x : List C) : Option (List C) :=
  let j := reverse_bits i log2n
  if i < j then
    (load x i).bind fun temp =>
    (load x j).bind fun xj =>
    (store x i xj).bind fun x1 =>
    store x1 j temp
  else some x

/-- `void bit_reverse(Complex* x, int n)`. -/
def bit_reverse {C : Type} (x : List C) (n : Int) : Option (List C) :=
  let log2n := log2_loop n.toNat 0
  forLoop (bit_reverse_step log2n) n.toNat x

/-! ## Iterative transform -/

/-- Body of the innermost loop of `fft_cooley_tukey` (one butterfly); the state
is the array together with the running factor `w`. -/
def butterfly_step {C : Type} [Add C] [Sub C] [Mul C] (len i : Nat) (wlen : C) (j : Nat)
    (s : List C × C) : Option (List C × C) :=
  (load s.1 (i + j)).bind fun u =>
  (load s.1 (i + j + len / 2)).bind fun t =>
  let v := t * s.2
  (store s.1 (i + j) (u + v)).bind fun x1 =>
  (store x1 (i + j + len / 2) (u - v)).bind fun x2 =>
  some (x2, s.2 * wlen)

/-- The loop `for (int i = 0; i < n; i += len)` of `fft_cooley_tukey`, from
offset `i`. -/
def block_loop {C : Type} [Add C] [Sub C] [Mul C] [One C] (n len : Nat) (hlen : 0 < len)
    (wlen : C) (i : Nat) (x : List C) : Option (List C) :=
  if i < n then
    match forLoop (butterfly_step len i wlen) (len / 2) (x, 1) with
    | none => none
    | some s => block_loop n len hlen wlen (i + len) s.1
  else some x
termination_by n - i
decreasing_by omega

/-- The loop `for (int len = 2; len <= n; len <<= 1)` of `fft_cooley_tukey`, from
the current `len`.  `len <<= 1` is taken on unbounded naturals; it is the `int` result
of the C code while it fits in 32 bits, i.e. for `n < 2 ^ 30` (for `n = 2 ^ 30` the last
shift gives `2 ^ 31`; see `pass_loop_int32`, the same loop with the range checked). -/
def pass_loop {R C : Type} [Field R] [CommRing C] (E : CMath R C) (n len : Nat)
    (hlen : 0 < len) (x : List C) : Option (List C) :=
  if len ≤ n then
    let angle : R := -2 * E.PI / (len : R)
    let wlen : C := cis E angle
    match block_loop n len hlen wlen 0 x with
    | none => none
    | some x1 =>
        pass_loop E n (len <<< 1) (by rw [Nat.shiftLeft_eq]; omega) x1
  else some x
termination_by n + 1 - len
decreasing_by
  rw [Nat.shiftLeft_eq]
  omega

/-- `void fft_cooley_tukey(Complex* x, int n)`, with unbounded `int`s (exact for
`n < 2 ^ 30`, see `pass_loop`). -/
def fft_cooley_tukey {R C : Type} [Field R] [CommRing C] (E : CMath R C) (x : List C)
    (n : Int) : Option (List C) :=
  match bit_reverse x n with
  | none => none
  | some x1 => pass_loop E n.toNat 2 (by decide) x1

/-! ## Recursive transform -/

/-- Body of the "divide" loop of `fft_recursive`; the state is `(even, odd)`. -/
def split_step {C : Type} (x : List C) (i : Nat) (s : List C × List C) :
    Option (List C × List C) :=
  (load x (2 * i)).bind fun a =>
  (store s.1 i a).bind fun even1 =>
  (load x (2 * i + 1)).bind fun b =>
  (store s.2 i b).bind fun odd1 =>
  some (even1, odd1)

/-- Body of the "combine" loop of `fft_recursive`. -/
def combine_step {R C : Type} [Field R] [CommRing C] (E : CMath R C) (n : Nat)
    (even odd : List C) (k : Nat) (x : List C) : Option (List C) :=
  let angle : R := -2 * E.PI * (k : R) / (n : R)
  let w : C := cis E angle
  (load odd k).bind fun o =>
  let t := w * o
  (load even k).bind fun e =>
  (store x k (e + t)).bind fun x1 =>
  (load even k).bind fun e1 =>
  store x1 (k + n / 2) (e1 - t)

/-- `fft_recursive` on a length `n ≥ 0`.  The two `malloc`ed buffers have `n/2`
cells (written before they are read; their initial content is modelled as `0`). -/
def fft_recursive_nat {R C : Type} [Field R] [CommRing C] (E : CMath R C) (x : List C)
    (n : Nat) : Option (List C) :=
  if n ≤ 1 then some x
  else
    match forLoop (split_step x) (n / 2)
        (List.replicate (n / 2) 0, List.replicate (n / 2) 0) with
    | none => none
    | some s =>
      match fft_recursive_nat E s.1 (n / 2) with
      | none => none
      | some even =>
        match fft_recursive_nat E s.2 (n / 2) with
        | none => none
        | some odd => forLoop (combine_step E n even odd) (n / 2) x
termination_by n
decreasing_by all_goals omega

/-- `void fft_recursive(Complex* x, int n)`. -/
def fft_recursive {R C : Type} [Field R] [CommRing C] (E : CMath R C) (x : List C)
    (n : Int) : Option (List C) :=
  fft_recursive_nat E x n.toNat


/-! ## Test signals and the diagnostics of `verify_fft` -/

/-- `Complex* generate_test_signal(int n, int type)` for the deterministic waveforms:
impulse (0), sine (1), cosine (2), complex exponential (3).  The `malloc`ed buffer
has `n` cells, initially modelled as `0`.  Type 4 fills the buffer from `rand()`,
which is outside the embedding (`none`); any other type returns the buffer as
allocated. -/
def generate_test_signal {R C : Type} [Field R] [CommRing C] (E : CMath R C) (n : Int)
    (type : Int) : Option (List C) :=
  let signal : List C := List.replicate n.toNat 0
  if type = 0 then
    forLoop (fun i s => store s i (E.ofReal (if i = 0 then 1 else 0))) n.toNat signal
  else if type = 1 then
    forLoop (fun i s => store s i (E.ofReal (E.sin (2 * E.PI * (i : R) / (n : R)))))
      n.toNat signal
  else if type = 2 then
    forLoop (fun i s => store s i (E.ofReal (E.cos (2 * E.PI * (i : R) / (n : R)))))
      n.toNat signal
  else if type = 3 then
    forLoop (fun i s => store s i (cis E (2 * E.PI * (i : R) / (n : R)))) n.toNat signal
  else if type = 4 then none
  else some signal

/-- Read of `x[i]` for an `int` index expression. -/
def loadInt {C : Type} (x : List C) (i : Int) : Option C :=
  if 0 ≤ i then load x i.toNat else none

/-- The loop `for (i = 0; i < n; i++) total_energy += cabs(x[i]) * cabs(x[i])` of
`verify_fft`. -/
def total_energy_loop {R C : Type} [Field R] (E : CMath R C) (x : List C) (n : Nat) :
    Option R :=
  forLoop (fun i total => (load x i).bind fun z => some (total + E.cabs z * E.cabs z)) n 0

/-- What `void verify_fft(int n)` computes and prints after the transform of the sine
test signal: the magnitude at bin 1, the magnitude at bin `n-1`, and the energy
concentration in percent.  (Printing, timing and the unused copy `signal2` are left
out.) -/
def verify_fft {R C : Type} [Field R] [CommRing C] (E : CMath R C) (n : Int) :
    Option (R × R × R) :=
  (generate_test_signal E n 1).bind fun signal1 =>
  (fft_cooley_tukey E signal1 n).bind fun y =>
  (load y 1).bind fun y1 =>
  (loadInt y (n - 1)).bind fun yn1 =>
  let magnitude1 := E.cabs y1
  let magnitude_n1 := E.cabs yn1
  let peak_energy := magnitude1 * magnitude1 + magnitude_n1 * magnitude_n1
  (total_energy_loop E y n.toNat).bind fun total_energy =>
  some (magnitude1, magnitude_n1, (peak_energy / total_energy) * 100)

/-! ## Prefix of the pass loop -/

/-- The first `count` iterations of the loop `for (len = ...; len <= n; len <<= 1)` of
`fft_cooley_tukey`, started at `len`: the array after these passes (after fewer passes
when the exit test fails earlier). -/
def pass_loop_first {R C : Type} [Field R] [CommRing C] (E : CMath R C) (n : Nat) :
    Nat → (len : Nat) → 0 < len → List C → Option (List C)
  | 0, _, _, x => some x
  | count + 1, len, hlen, x =>
    if len ≤ n then
      let angle : R := -2 * E.PI / (len : R)
      let wlen : C := cis E angle
      match block_loop n len hlen wlen 0 x with
      | none => none
      | some x1 =>
          pass_loop_first E n count (len <<< 1) (by rw [Nat.shiftLeft_eq]; omega) x1
    else some x

/-! ## The `int` computations against the 32-bit range

The loops of `reverse_bits`, `bit_reverse` and `fft_cooley_tukey` once more, on their
`int` variables only.  The results of `result << 1`, `i + j`, `i + j + len/2`,
`i += len` and `len <<= 1` are checked; the remaining `int` operations (`>>`, `&`, `|`
with one bit, `/ 2`, and the counters bounded by an `int` loop bound) cannot leave the
range of non-negative `int`s. -/

/-- The largest value of a 32-bit `int`. -/
def INT_MAX : Nat := 2147483647

/-- A computed (non-negative) `int` value: `none` when it does not fit in 32 bits. -/
def int32 (v : Nat) : Option Nat := if v ≤ INT_MAX then some v else none

/-- The loop of `reverse_bits`, with `result << 1` checked against the `int` range. -/
def reverse_bits_int32 : Nat → Nat → Nat → Option Nat
  | 0, result, _ => some result
  | iters + 1, result, num =>
      (int32 (result <<< 1)).bind fun r =>
        reverse_bits_int32 iters (r ||| (num &&& 1)) (num >>> 1)

/-- The index computations of `bit_reverse(x, n)`: every call of `reverse_bits` made by
the swap loop, checked. -/
def bit_reverse_int32 (n : Nat) : Option Unit :=
  forLoop (fun i _ => (reverse_bits_int32 (log2_loop n 0) 0 i).bind fun _ => some ()) n ()

/-- The index computations `i + j` and `i + j + len/2` of one butterfly, checked. -/
def butterfly_int32 (len i j : Nat) (_ : Unit) : Option Unit :=
  (int32 (i + j)).bind fun ij => (int32 (ij + len / 2)).bind fun _ => some ()

/-- The loop `for (int i = 0; i < n; i += len)` on its `int` variables, with the
butterfly indices and `i += len` checked. -/
def block_loop_int32 (n len : Nat) (hlen : 0 < len) (i : Nat) : Option Unit :=
  if i < n then
    match forLoop (butterfly_int32 len i) (len / 2) () with
    | none => none
    | some _ =>
        if i + len ≤ INT_MAX then block_loop_int32 n len hlen (i + len) else none
  else some ()
termination_by n - i
decreasing_by omega

/-- The loop `for (int len = 2; len <= n; len <<= 1)` on its `int` variables, with
`len <<= 1` checked; the result is the number of passes executed when the loop exits. -/
def pass_loop_int32 (n len : Nat) (hlen : 0 < len) (passes : Nat) : Option Nat :=
  if len ≤ n then
    match block_loop_int32 n len hlen 0 with
    | none => none
    | some _ =>
        if len <<< 1 ≤ INT_MAX then
          pass_loop_int32 n (len <<< 1) (by rw [Nat.shiftLeft_eq]; omega) (passes + 1)
        else none
  else some passes
termination_by n + 1 - len
decreasing_by
  rw [Nat.shiftLeft_eq]
  omega

/-- The `int` computations of `fft_cooley_tukey(x, n)` (the array contents are left
out): `none` as soon as one of `result << 1`, `i + j`, `i + j + len/2`, `i += len`,
`len <<= 1` leaves the 32-bit range, otherwise the number of passes executed. -/
def fft_cooley_tukey_int32 (n : Nat) : Option Nat :=
  (bit_reverse_int32 n).bind fun _ => pass_loop_int32 n 2 (by decide) 0

/-! ## Specification-level definitions used by the proofs -/

/-- The element-wise combination `a·S1 + b·S2` of two sequences. -/
def lincomb {C : Type} [CommRing C] (a b : C) (S1 S2 : List C) : List C :=
  List.zipWith (fun u v => a * u + b * v) S1 S2


/-- Closed recurrence behind `reverse_bits`: the lowest bit of `num` becomes the
highest of the `k` result bits. -/
def revBits : Nat → Nat → Nat
  | 0, _ => 0
  | k + 1, num => (num % 2) * 2 ^ k + revBits k (num / 2)

/-- Loop invariant of the swap loop, after the indices below `i` were visited. -/
def SwapInv {C : Type} (k : Nat) (x : List C) (i : Nat) (a : List C) : Prop :=
  a.length = 2 ^ k ∧
    ∀ p, p < 2 ^ k → a[p]? = if p < i ∨ revBits k p < i then x[revBits k p]? else x[p]?

/-- The `N`-point DFT sum of `f` at bin `m`, for the root `w`:
`∑ t < N, f t * w ^ (t * m)`. -/
def dftSum {C : Type} [CommRing C] (w : C) (N : Nat) (f : Nat → C) (m : Nat) : C :=
  ∑ t in range N, f t * w ^ (t * m)

/-- Value at position `p` after the pass with half block size `half` and principal
factor `wlen`, in terms of the array `a` before the pass. -/
def passFn {C : Type} [CommRing C] (half : Nat) (wlen : C) (a : Nat → C) (p : Nat) : C :=
  if p % (2 * half) < half then a p + wlen ^ (p % (2 * half)) * a (p + half)
  else a (p - half) - wlen ^ (p % (2 * half) - half) * a p

/-- Invariant of a pass over `a0`: the blocks before offset `i`, and the first `J`
butterflies of the block at `i`, are done; everything else is untouched. -/
def PassInv {C : Type} [CommRing C] (half : Nat) (wlen : C) (a0 : List C) (i J : Nat)
    (a : List C) : Prop :=
  a.length = a0.length ∧
    ∀ p, p < a0.length → a.getD p 0 =
      if p < i ∨ (i ≤ p ∧ p < i + J) ∨ (i + half ≤ p ∧ p < i + half + J) then
        passFn half wlen (fun q => a0.getD q 0) p
      else a0.getD p 0

/-- What the transforms need from the environment: `W s` is the value computed
for the principal factor of length `2 ^ s`, the factor of the recursive transform is its
power, and `W (s+1)` is a square root of `W s` with `W (s+1) ^ (2 ^ s) = -1`. -/
structure TwiddleSpec {R C : Type} [Field R] [CommRing C] (E : CMath R C) (W : Nat → C) :
    Prop where
  iter : ∀ s : Nat, cis E (-2 * E.PI / ((2 ^ s : Nat) : R)) = W s
  recur : ∀ s k : Nat, cis E (-2 * E.PI * (k : R) / ((2 ^ s : Nat) : R)) = W s ^ k
  sq : ∀ s : Nat, W (s + 1) ^ 2 = W s
  neg : ∀ s : Nat, W (s + 1) ^ (2 ^ s) = -1

/-- Stage invariant: after the passes up to `len = 2 ^ s` (with `2 ^ j` blocks), block
`b` holds the `2 ^ s`-point DFT of the decimated input `t ↦ x[rev_j b + 2^j t]`. -/
def StageInv {C : Type} [CommRing C] (W : Nat → C) (x : List C) (j s : Nat) (a : List C) :
    Prop :=
  a.length = 2 ^ (s + j) ∧
    ∀ b m, b < 2 ^ j → m < 2 ^ s →
      a.getD (2 ^ s * b + m) 0 =
        dftSum (W s) (2 ^ s) (fun t => x.getD (revBits j b + 2 ^ j * t) 0) m

/-! # Lemmas -/

/-! ## Basic facts on memory access and counted loops -/

theorem load_eq_getElem? {C : Type} (x : List C) (i : Nat) : load x i = x[i]? := rfl

theorem load_getD {C : Type} (x : List C) (i : Nat) (d : C) (h : i < x.length) :
    load x i = some (x.getD i d) := by
  simp [load, List.getD, List.getElem?_eq_getElem h]

theorem store_of_lt {C : Type} (x : List C) (i : Nat) (v : C) (h : i < x.length) :
    store x i v = some (x.set i v) := by
  simp [store, h]

theorem getD_set {C : Type} (x : List C) (i j : Nat) (v d : C) (h : i < x.length) :
    (x.set i v).getD j d = if j = i then v else x.getD j d := by
  by_cases hji : j = i
  · subst hji; simp [List.getD, h]
  · have : i ≠ j := fun e => hji e.symm
    simp [List.getD, List.getElem?_set_ne this, hji]

/-- Invariant rule for `forLoop`: an invariant that every iteration re-establishes
(without failing) holds after the loop, and the loop does not fail. -/
theorem forLoop_inv {σ : Type} (body : Nat → σ → Option σ) (P : Nat → σ → Prop) (n : Nat)
    (s0 : σ) (h0 : P 0 s0)
    (hstep : ∀ i, i < n → ∀ s, P i s → ∃ s1, body i s = some s1 ∧ P (i + 1) s1) :
    ∃ s1, forLoop body n s0 = some s1 ∧ P n s1 := by
  induction n with
  | zero => exact ⟨s0, rfl, h0⟩
  | succ n ih =>
    obtain ⟨s1, h1, hP⟩ := ih (fun i hi s hs => hstep i (by omega) s hs)
    obtain ⟨s2, h2, hP2⟩ := hstep n (by omega) s1 hP
    exact ⟨s2, by simp [forLoop, h1, h2], hP2⟩

/-! ## `reverse_bits` -/

theorem revBits_lt (k num : Nat) : revBits k num < 2 ^ k := by
  induction k generalizing num with
  | zero => simp [revBits]
  | succ k ih =>
    have h1 := ih (num / 2)
    have h2 : num % 2 < 2 := Nat.mod_lt _ (by decide)
    simp only [revBits, pow_succ]
    nlinarith

theorem shl_or_bit (r b : Nat) : (r <<< 1) ||| (b &&& 1) = 2 * r + b % 2 := by
  rw [Nat.shiftLeft_eq, Nat.and_one_is_mod, pow_one, Nat.mul_comm]
  have h : b % 2 < 2 ^ 1 := by simpa using Nat.mod_lt b (by decide : 0 < 2)
  have := Nat.mul_add_lt_is_or h r
  simpa using this.symm

theorem reverse_bits_loop_eq (k r num : Nat) :
    reverse_bits_loop k r num = r * 2 ^ k + revBits k num := by
  induction k generalizing r num with
  | zero => simp [reverse_bits_loop, revBits]
  | succ k ih =>
    simp only [reverse_bits_loop, revBits, shl_or_bit, Nat.shiftRight_one, ih, pow_succ]
    ring

theorem reverse_bits_eq (num k : Nat) : reverse_bits num k = revBits k num := by
  simp [reverse_bits, reverse_bits_loop_eq]

theorem revBits_even (k b : Nat) : revBits (k + 1) (2 * b) = revBits k b := by
  simp [revBits]

theorem revBits_odd (k b : Nat) : revBits (k + 1) (2 * b + 1) = 2 ^ k + revBits k b := by
  have h1 : (2 * b + 1) % 2 = 1 := by omega
  have h2 : (2 * b + 1) / 2 = b := by omega
  simp [revBits, h1, h2]

theorem revBits_high (k b c : Nat) (hb : b < 2 ^ k) (hc : c < 2) :
    revBits (k + 1) (b + 2 ^ k * c) = 2 * revBits k b + c := by
  induction k generalizing b with
  | zero =>
    have : b = 0 := by simpa using hb
    subst this
    have : c % 2 = c := Nat.mod_eq_of_lt hc
    simp [revBits, this]
  | succ k ih =>
    have hq : 2 ^ (k + 1) * c = 2 * (2 ^ k * c) := by ring
    have h1 : (b + 2 ^ (k + 1) * c) % 2 = b % 2 := by
      rw [hq]; omega
    have h2 : (b + 2 ^ (k + 1) * c) / 2 = b / 2 + 2 ^ k * c := by
      rw [hq]; omega
    have hb2 : b / 2 < 2 ^ k := by
      rw [pow_succ] at hb; omega
    have e := ih (b / 2) hb2
    calc revBits (k + 1 + 1) (b + 2 ^ (k + 1) * c)
        = (b % 2) * 2 ^ (k + 1) + revBits (k + 1) (b / 2 + 2 ^ k * c) := by
          rw [revBits, h1, h2]
      _ = (b % 2) * 2 ^ (k + 1) + (2 * revBits k (b / 2) + c) := by rw [e]
      _ = 2 * revBits (k + 1) b + c := by
          rw [revBits, pow_succ]; ring

theorem revBits_revBits (k b : Nat) (hb : b < 2 ^ k) : revBits k (revBits k b) = b := by
  induction k generalizing b with
  | zero =>
    have : b = 0 := by simpa using hb
    simp [revBits, this]
  | succ k ih =>
    have hb2 : b / 2 < 2 ^ k := by
      rw [pow_succ] at hb; omega
    have h := revBits_high k (revBits k (b / 2)) (b % 2) (revBits_lt _ _)
      (Nat.mod_lt _ (by decide))
    have e : revBits (k + 1) b = revBits k (b / 2) + 2 ^ k * (b % 2) := by
      rw [revBits]; ring
    rw [e, h, ih _ hb2]
    omega

theorem log2_loop_pow (k a : Nat) : log2_loop (2 ^ k) a = a + k := by
  induction k generalizing a with
  | zero => rw [log2_loop]; simp
  | succ k ih =>
    rw [log2_loop]
    have h1 : 1 < 2 ^ (k + 1) := Nat.one_lt_two_pow (by omega)
    have h2 : 2 ^ (k + 1) >>> 1 = 2 ^ k := by
      rw [Nat.shiftRight_one, pow_succ]; omega
    rw [if_pos h1, h2, ih]
    omega

/-! ## `bit_reverse` computes the bit-reversal permutation -/

theorem getElem?_set_set {C : Type} (a : List C) (i j p : Nat) (u v : C)
    (hi : i < a.length) (hj : j < a.length) :
    ((a.set i u).set j v)[p]? = if p = j then some v else if p = i then some u else a[p]? := by
  by_cases h1 : p = j
  · subst h1; simp [hj]
  · have h1' : j ≠ p := fun e => h1 e.symm
    rw [if_neg h1, List.getElem?_set_ne h1']
    by_cases h2 : p = i
    · subst h2; simp [hi]
    · have h2' : i ≠ p := fun e => h2 e.symm
      rw [if_neg h2, List.getElem?_set_ne h2']

theorem bit_reverse_step_inv {C : Type} (k : Nat) (x : List C) (hx : x.length = 2 ^ k)
    (i : Nat) (hi : i < 2 ^ k) (a : List C) (ha : SwapInv k x i a) :
    ∃ a1, bit_reverse_step k i a = some a1 ∧ SwapInv k x (i + 1) a1 := by
  obtain ⟨hlen, hval⟩ := ha
  have hj : revBits k i < 2 ^ k := revBits_lt k i
  have hrr : revBits k (revBits k i) = i := revBits_revBits k i hi
  unfold bit_reverse_step
  rw [reverse_bits_eq]
  have hix : i < x.length := by omega
  have hjx : revBits k i < x.length := by omega
  obtain ⟨vi, hvi⟩ : ∃ v, x[i]? = some v := ⟨x[i], List.getElem?_eq_getElem hix⟩
  obtain ⟨vj, hvj⟩ : ∃ v, x[revBits k i]? = some v :=
    ⟨x[revBits k i], List.getElem?_eq_getElem hjx⟩
  by_cases hij : i < revBits k i
  · have hai : a[i]? = some vi := by
      rw [hval i hi, if_neg (by omega), hvi]
    have haj : a[revBits k i]? = some vj := by
      rw [hval _ hj, hrr, if_neg (by omega), hvj]
    simp only [hij, if_true, load_eq_getElem?, hai, haj, Option.some_bind]
    rw [store_of_lt _ _ _ (by omega)]
    simp only [Option.some_bind]
    rw [store_of_lt _ _ _ (by simp; omega)]
    refine ⟨_, rfl, by simp [hlen], ?_⟩
    intro p hp
    rw [getElem?_set_set _ _ _ _ _ _ (by omega) (by omega)]
    by_cases h1 : p = revBits k i
    · rw [if_pos h1, h1, hrr, if_pos (Or.inr (Nat.lt_succ_self i)), hvi]
    · rw [if_neg h1]
      by_cases h2 : p = i
      · rw [if_pos h2, h2, if_pos (Or.inl (Nat.lt_succ_self i)), hvj]
      · rw [if_neg h2, hval p hp]
        have h3 : revBits k p ≠ i := by
          intro e
          apply h1
          rw [← e, revBits_revBits k p hp]
        have : (p < i + 1 ∨ revBits k p < i + 1) ↔ (p < i ∨ revBits k p < i) := by omega
        simp only [this]
  · simp only [hij, if_false]
    refine ⟨a, rfl, hlen, ?_⟩
    intro p hp
    rw [hval p hp]
    by_cases h2 : p = i
    · rw [h2, if_pos (Or.inl (Nat.lt_succ_self i))]
      by_cases h4 : revBits k i < i
      · rw [if_pos (Or.inr h4)]
      · have h5 : revBits k i = i := by omega
        rw [h5]
        simp
    · have h3 : revBits k p = i → p < i := by
        intro e
        have : p = revBits k i := by rw [← e, revBits_revBits k p hp]
        omega
      have : (p < i + 1 ∨ revBits k p < i + 1) ↔ (p < i ∨ revBits k p < i) := by omega
      simp only [this]

theorem bit_reverse_spec {C : Type} (k : Nat) (x : List C) (hx : x.length = 2 ^ k) :
    ∃ y, bit_reverse x ((2 ^ k : Nat) : Int) = some y ∧ y.length = 2 ^ k ∧
      ∀ p, p < 2 ^ k → y[p]? = x[revBits k p]? := by
  unfold bit_reverse
  simp only [Int.toNat_ofNat, log2_loop_pow, Nat.zero_add]
  obtain ⟨y, hy, hlen, hval⟩ := forLoop_inv (bit_reverse_step k) (SwapInv k x) (2 ^ k) x
    ⟨hx, fun p _ => by simp⟩ (fun i hi a ha => bit_reverse_step_inv k x hx i hi a ha)
  refine ⟨y, hy, hlen, fun p hp => ?_⟩
  rw [hval p hp, if_pos (Or.inl hp)]

/-! ## The DFT sum and its radix-2 splitting -/

theorem sum_range_even_odd {C : Type} [AddCommMonoid C] (g : Nat → C) (N : Nat) :
    ∑ t in range (2 * N), g t = ∑ t in range N, g (2 * t) + ∑ t in range N, g (2 * t + 1) := by
  induction N with
  | zero => simp
  | succ N ih =>
    have e : 2 * (N + 1) = 2 * N + 1 + 1 := by ring
    rw [e, sum_range_succ, sum_range_succ, ih, sum_range_succ, sum_range_succ]
    abel

theorem dftSum_low {C : Type} [CommRing C] (w2 w : C) (hsq : w2 ^ 2 = w) (N : Nat)
    (f : Nat → C) (m : Nat) :
    dftSum w2 (2 * N) f m =
      dftSum w N (fun t => f (2 * t)) m + w2 ^ m * dftSum w N (fun t => f (2 * t + 1)) m := by
  unfold dftSum
  rw [sum_range_even_odd, mul_sum]
  congr 1
  · apply sum_congr rfl
    intro t _
    rw [← hsq, ← pow_mul]
    congr 2
    ring
  · apply sum_congr rfl
    intro t _
    rw [← hsq, ← pow_mul]
    have : (2 * t + 1) * m = m + 2 * (t * m) := by ring
    rw [this, pow_add]
    ring

theorem dftSum_high {C : Type} [CommRing C] (w2 w : C) (hsq : w2 ^ 2 = w) (N : Nat)
    (hneg : w2 ^ N = -1) (f : Nat → C) (m : Nat) :
    dftSum w2 (2 * N) f (m + N) =
      dftSum w N (fun t => f (2 * t)) m - w2 ^ m * dftSum w N (fun t => f (2 * t + 1)) m := by
  unfold dftSum
  rw [sum_range_even_odd, mul_sum, sub_eq_add_neg, ← sum_neg_distrib]
  congr 1
  · apply sum_congr rfl
    intro t _
    rw [← hsq, ← pow_mul]
    have : 2 * t * (m + N) = 2 * (t * m) + N * (2 * t) := by ring
    rw [this, pow_add, pow_mul w2 N, hneg]
    simp [pow_mul]
  · apply sum_congr rfl
    intro t _
    rw [← hsq, ← pow_mul]
    have : (2 * t + 1) * (m + N) = m + 2 * (t * m) + N * (2 * t) + N := by ring
    rw [this, pow_add, pow_add, pow_add, pow_mul w2 N, hneg]
    simp only [pow_mul, even_two, Even.mul_right, Even.neg_pow, one_pow, mul_one, mul_neg,
      neg_inj]
    ring

/-! ## One butterfly pass -/

theorem butterfly_step_inv {C : Type} [CommRing C] (half : Nat) (wlen : C) (a0 : List C)
    (b J : Nat) (hJ : J < half) (hb : 2 * half * b + 2 * half ≤ a0.length)
    (s : List C × C) (hs : PassInv half wlen a0 (2 * half * b) J s.1 ∧ s.2 = wlen ^ J) :
    ∃ s1, butterfly_step (2 * half) (2 * half * b) wlen J s = some s1 ∧
      (PassInv half wlen a0 (2 * half * b) (J + 1) s1.1 ∧ s1.2 = wlen ^ (J + 1)) := by
  obtain ⟨⟨hlen, hval⟩, hw⟩ := hs
  have hhalf : 2 * half / 2 = half := by omega
  have hm1 : (2 * half * b + J) % (2 * half) = J := by
    rw [Nat.mul_add_mod, Nat.mod_eq_of_lt (by omega)]
  have hm2 : (2 * half * b + J + half) % (2 * half) = J + half := by
    rw [Nat.add_assoc, Nat.mul_add_mod, Nat.mod_eq_of_lt (by omega)]
  generalize hi : 2 * half * b = i at *
  have hu : s.1.getD (i + J) 0 = a0.getD (i + J) 0 := by
    rw [hval _ (by omega), if_neg (by omega)]
  have ht : s.1.getD (i + J + half) 0 = a0.getD (i + J + half) 0 := by
    rw [hval _ (by omega), if_neg (by omega)]
  unfold butterfly_step
  rw [hhalf, load_getD _ _ 0 (by omega), load_getD _ _ 0 (by omega)]
  simp only [Option.some_bind]
  rw [store_of_lt _ _ _ (by omega)]
  simp only [Option.some_bind]
  rw [store_of_lt _ _ _ (by simp; omega)]
  refine ⟨_, rfl, ⟨by simp [hlen], ?_⟩, by simp [hw, pow_succ]⟩
  intro p hp
  simp only []
  rw [getD_set _ _ _ _ _ (by simp; omega), getD_set _ _ _ _ _ (by omega)]
  by_cases h1 : p = i + J + half
  · rw [if_pos h1, if_pos (by omega), h1]
    unfold passFn
    rw [hm2, if_neg (by omega), hu, ht, hw]
    have e1 : i + J + half - half = i + J := by omega
    have e2 : J + half - half = J := by omega
    rw [e1, e2]
    ring
  · rw [if_neg h1]
    by_cases h2 : p = i + J
    · rw [if_pos h2, if_pos (by omega), h2]
      unfold passFn
      rw [hm1, if_pos hJ, hu, ht, hw]
      ring
    · rw [if_neg h2, hval p hp]
      have : (p < i ∨ (i ≤ p ∧ p < i + (J + 1)) ∨ (i + half ≤ p ∧ p < i + half + (J + 1))) ↔
          (p < i ∨ (i ≤ p ∧ p < i + J) ∨ (i + half ≤ p ∧ p < i + half + J)) := by omega
      simp only [this]

theorem block_loop_inv {C : Type} [CommRing C] (half : Nat) (hhalf : 0 < half) (wlen : C)
    (a0 : List C) (B : Nat) (hB : a0.length = 2 * half * B) (c : Nat) :
    ∀ (b : Nat) (a : List C), b + c = B → PassInv half wlen a0 (2 * half * b) 0 a →
      ∃ y, block_loop a0.length (2 * half) (by omega) wlen (2 * half * b) a = some y ∧
        PassInv half wlen a0 a0.length 0 y := by
  induction c with
  | zero =>
    intro b a hbc ha
    have hb : b = B := by omega
    subst hb
    rw [block_loop, if_neg (by omega)]
    exact ⟨a, rfl, by rw [hB]; exact ha⟩
  | succ c ih =>
    intro b a hbc ha
    have hlt : 2 * half * b + 2 * half ≤ a0.length := by
      rw [hB, ← hbc]
      have : 2 * half * (b + (c + 1)) = 2 * half * b + 2 * half + 2 * half * c := by ring
      omega
    rw [block_loop, if_pos (by omega)]
    obtain ⟨s, hs, hinv, _⟩ := forLoop_inv (butterfly_step (2 * half) (2 * half * b) wlen)
      (fun J s => PassInv half wlen a0 (2 * half * b) J s.1 ∧ s.2 = wlen ^ J) half (a, 1)
      ⟨ha, by simp⟩ (fun J hJ s hs => butterfly_step_inv half wlen a0 b J hJ hlt s hs)
    have hhalf2 : 2 * half / 2 = half := by omega
    rw [hhalf2, hs]
    simp only []
    have e : 2 * half * b + 2 * half = 2 * half * (b + 1) := by ring
    rw [e]
    apply ih (b + 1) s.1 (by omega)
    refine ⟨hinv.1, fun p hp => ?_⟩
    rw [hinv.2 p hp, ← e]
    have : (p < 2 * half * b ∨ (2 * half * b ≤ p ∧ p < 2 * half * b + half) ∨
        (2 * half * b + half ≤ p ∧ p < 2 * half * b + half + half)) ↔
        (p < 2 * half * b + 2 * half ∨
          (2 * half * b + 2 * half ≤ p ∧ p < 2 * half * b + 2 * half + 0) ∨
          (2 * half * b + 2 * half + half ≤ p ∧ p < 2 * half * b + 2 * half + half + 0)) := by
      omega
    simp only [this]

/-- A whole pass: every position gets its `passFn` value. -/
theorem block_loop_spec {C : Type} [CommRing C] (half : Nat) (hhalf : 0 < half) (wlen : C)
    (a0 : List C) (B : Nat) (hB : a0.length = 2 * half * B) :
    ∃ y, block_loop a0.length (2 * half) (by omega) wlen 0 a0 = some y ∧
      y.length = a0.length ∧
      ∀ p, p < a0.length → y.getD p 0 = passFn half wlen (fun q => a0.getD q 0) p := by
  have h0 : PassInv half wlen a0 (2 * half * 0) 0 a0 :=
    ⟨rfl, fun p _ => by rw [if_neg (by omega)]⟩
  obtain ⟨y, hy, hlen, hval⟩ := block_loop_inv half hhalf wlen a0 B hB B 0 a0 (by omega) h0
  refine ⟨y, by simpa using hy, hlen, fun p hp => ?_⟩
  rw [hval p hp, if_pos (Or.inl hp)]

/-! ## The iterative transform computes the DFT -/

theorem stageInv_step {C : Type} [CommRing C] (W : Nat → C)
    (hsq : ∀ s : Nat, W (s + 1) ^ 2 = W s) (hneg : ∀ s : Nat, W (s + 1) ^ (2 ^ s) = -1)
    (x : List C) (j s : Nat) (a y : List C) (ha : StageInv W x (j + 1) s a)
    (hlen : y.length = a.length)
    (hy : ∀ p, p < a.length → y.getD p 0 = passFn (2 ^ s) (W (s + 1)) (fun q => a.getD q 0) p) :
    StageInv W x j (s + 1) y := by
  obtain ⟨halen, hval⟩ := ha
  have hn : a.length = 2 ^ (s + 1 + j) := by rw [halen]; congr 1; omega
  refine ⟨by rw [hlen, hn], ?_⟩
  intro b m hb hm
  have hpos : 0 < 2 ^ s := Nat.two_pow_pos _
  have hps : 2 ^ (s + 1) = 2 * 2 ^ s := by rw [pow_succ]; ring
  have hpj : 2 ^ (j + 1) = 2 * 2 ^ j := by rw [pow_succ]; ring
  have hplt : 2 ^ (s + 1) * b + m < a.length := by
    rw [hn, pow_add 2 (s + 1) j]
    calc 2 ^ (s + 1) * b + m < 2 ^ (s + 1) * b + 2 ^ (s + 1) := by omega
      _ = 2 ^ (s + 1) * (b + 1) := by ring
      _ ≤ 2 ^ (s + 1) * 2 ^ j := Nat.mul_le_mul_left _ (by omega)
  have hmod : (2 ^ (s + 1) * b + m) % (2 * 2 ^ s) = m := by
    rw [← hps, Nat.mul_add_mod, Nat.mod_eq_of_lt hm]
  -- the decimated input of block `b` and the two half blocks
  have he : ∀ m1, m1 < 2 ^ s → a.getD (2 ^ (s + 1) * b + m1) 0 =
      dftSum (W s) (2 ^ s) (fun t => x.getD (revBits j b + 2 ^ j * (2 * t)) 0) m1 := by
    intro m1 hm1
    have e : 2 ^ (s + 1) * b + m1 = 2 ^ s * (2 * b) + m1 := by rw [hps]; ring
    rw [e, hval (2 * b) m1 (by omega) hm1]
    congr 1
    funext t
    rw [revBits_even, hpj]
    congr 1
    ring
  have ho : ∀ m1, m1 < 2 ^ s → a.getD (2 ^ (s + 1) * b + m1 + 2 ^ s) 0 =
      dftSum (W s) (2 ^ s) (fun t => x.getD (revBits j b + 2 ^ j * (2 * t + 1)) 0) m1 := by
    intro m1 hm1
    have e : 2 ^ (s + 1) * b + m1 + 2 ^ s = 2 ^ s * (2 * b + 1) + m1 := by rw [hps]; ring
    rw [e, hval (2 * b + 1) m1 (by omega) hm1]
    congr 1
    funext t
    rw [revBits_odd, hpj]
    congr 1
    ring
  rw [hy _ hplt]
  unfold passFn
  rw [hmod]
  beta_reduce
  by_cases hlow : m < 2 ^ s
  · rw [if_pos hlow, he m hlow, ho m hlow, hps]
    exact (dftSum_low (W (s + 1)) (W s) (hsq s) (2 ^ s)
      (fun t => x.getD (revBits j b + 2 ^ j * t) 0) m).symm
  · rw [if_neg hlow]
    obtain ⟨m1, rfl⟩ : ∃ m1, m = m1 + 2 ^ s := ⟨m - 2 ^ s, by omega⟩
    have hm1 : m1 < 2 ^ s := by omega
    have e1 : 2 ^ (s + 1) * b + (m1 + 2 ^ s) - 2 ^ s = 2 ^ (s + 1) * b + m1 := by omega
    have e2 : 2 ^ (s + 1) * b + (m1 + 2 ^ s) = 2 ^ (s + 1) * b + m1 + 2 ^ s := by omega
    have e3 : m1 + 2 ^ s - 2 ^ s = m1 := by omega
    rw [e1, e3, he m1 hm1, e2, ho m1 hm1, hps]
    exact (dftSum_high (W (s + 1)) (W s) (hsq s) (2 ^ s) (hneg s)
      (fun t => x.getD (revBits j b + 2 ^ j * t) 0) m1).symm

theorem pass_loop_congr {R C : Type} [Field R] [CommRing C] (E : CMath R C)
    (n n1 len len1 : Nat) (h : 0 < len) (h1 : 0 < len1) (hn : n = n1) (hl : len = len1)
    (x : List C) : pass_loop E n len h x = pass_loop E n1 len1 h1 x := by
  subst hn; subst hl; rfl

theorem block_loop_congr {C : Type} [CommRing C] (n n1 len len1 : Nat) (h : 0 < len)
    (h1 : 0 < len1) (hn : n = n1) (hl : len = len1) (wlen : C) (i : Nat) (x : List C) :
    block_loop n len h wlen i x = block_loop n1 len1 h1 wlen i x := by
  subst hn; subst hl; rfl

theorem pass_loop_spec {R C : Type} [Field R] [CommRing C] (E : CMath R C) (W : Nat → C)
    (hW : TwiddleSpec E W) (x : List C) (j : Nat) :
    ∀ (s : Nat) (a : List C), StageInv W x j s a →
      ∃ y, pass_loop E (2 ^ (s + j)) (2 ^ (s + 1)) (Nat.two_pow_pos _) a = some y ∧
        StageInv W x 0 (s + j) y := by
  induction j with
  | zero =>
    intro s a ha
    rw [pass_loop, if_neg]
    · exact ⟨a, rfl, ha⟩
    · show ¬ 2 ^ (s + 1) ≤ 2 ^ s
      have : 0 < 2 ^ s := Nat.two_pow_pos _
      rw [pow_succ]
      omega
  | succ j ih =>
    intro s a ha
    have hle : 2 ^ (s + 1) ≤ 2 ^ (s + (j + 1)) := Nat.pow_le_pow_right (by decide) (by omega)
    have hpos : 0 < 2 ^ s := Nat.two_pow_pos _
    have hps : 2 ^ (s + 1) = 2 * 2 ^ s := by rw [pow_succ]; ring
    have hB : a.length = 2 * 2 ^ s * 2 ^ j := by
      rw [ha.1, pow_add, pow_succ]; ring
    obtain ⟨y1, hy1, hlen1, hval1⟩ := block_loop_spec (2 ^ s) hpos (W (s + 1)) a (2 ^ j) hB
    have hst : StageInv W x j (s + 1) y1 :=
      stageInv_step W hW.sq hW.neg x j s a y1 ha hlen1 hval1
    obtain ⟨y, hy, hfin⟩ := ih (s + 1) y1 hst
    rw [pass_loop, if_pos hle]
    simp only []
    rw [hW.iter (s + 1),
      block_loop_congr _ a.length _ (2 * 2 ^ s) _ (by omega) ha.1.symm hps, hy1]
    simp only []
    rw [pass_loop_congr E _ (2 ^ (s + 1 + j)) _ (2 ^ (s + 1 + 1)) _ (Nat.two_pow_pos _)
      (by congr 1; omega) (by rw [Nat.shiftLeft_eq]; ring), hy]
    refine ⟨y, rfl, ?_⟩
    have e : s + (j + 1) = s + 1 + j := by omega
    rw [e]
    exact hfin

/-- The iterative transform on a sequence of length `2 ^ k` returns, without leaving
the array, the sequence of DFT sums for the root `W k`. -/
theorem fft_cooley_tukey_dftSum {R C : Type} [Field R] [CommRing C] (E : CMath R C)
    (W : Nat → C) (hW : TwiddleSpec E W) (k : Nat) (x : List C) (hx : x.length = 2 ^ k) :
    ∃ y, fft_cooley_tukey E x ((2 ^ k : Nat) : Int) = some y ∧ y.length = 2 ^ k ∧
      ∀ m, m < 2 ^ k → y.getD m 0 = dftSum (W k) (2 ^ k) (fun t => x.getD t 0) m := by
  obtain ⟨y0, hy0, hlen0, hval0⟩ := bit_reverse_spec k x hx
  have h0 : StageInv W x k 0 y0 := by
    refine ⟨by simpa using hlen0, fun b m hb hm => ?_⟩
    have hm0 : m = 0 := by simpa using hm
    subst hm0
    have e : y0.getD b 0 = x.getD (revBits k b) 0 := by
      simp only [List.getD_eq_getElem?_getD, hval0 b hb]
    simp only [dftSum, pow_zero, one_mul, zero_add, range_one, sum_singleton, mul_zero,
      add_zero, mul_one, e]
  obtain ⟨y, hy, hlen, hval⟩ := pass_loop_spec E W hW x k 0 y0 h0
  refine ⟨y, ?_, by simpa using hlen, fun m hm => ?_⟩
  · unfold fft_cooley_tukey
    rw [hy0]
    simp only [Int.toNat_ofNat]
    rw [← hy]
    exact pass_loop_congr E _ _ _ _ _ _ (by simp) (by simp) _
  · have := hval 0 m (by simp) (by simpa using hm)
    simpa [revBits] using this

/-! ## The recursive transform computes the DFT -/

theorem dftSum_congr {C : Type} [CommRing C] (w : C) (N : Nat) (f g : Nat → C) (m : Nat)
    (h : ∀ t, t < N → f t = g t) : dftSum w N f m = dftSum w N g m := by
  unfold dftSum
  apply sum_congr rfl
  intro t ht
  rw [h t (mem_range.mp ht)]

/-- The "divide" loop fills `even`, `odd` with the entries of `x` at the even and
odd positions; it needs `2 * h` readable cells of `x`. -/
theorem split_loop_spec {C : Type} [Zero C] (x : List C) (h : Nat) (hx : 2 * h ≤ x.length)
    (e0 o0 : List C) (he0 : e0.length = h) (ho0 : o0.length = h) :
    ∃ s, forLoop (split_step x) h (e0, o0) = some s ∧ s.1.length = h ∧ s.2.length = h ∧
      ∀ i, i < h → s.1.getD i 0 = x.getD (2 * i) 0 ∧ s.2.getD i 0 = x.getD (2 * i + 1) 0 := by
  obtain ⟨s, hs, h1, h2, h3⟩ := forLoop_inv (split_step x)
    (fun I s => s.1.length = h ∧ s.2.length = h ∧
      ∀ i, i < I → s.1.getD i 0 = x.getD (2 * i) 0 ∧ s.2.getD i 0 = x.getD (2 * i + 1) 0)
    h (e0, o0) ⟨he0, ho0, fun i hi => absurd hi (Nat.not_lt_zero i)⟩
    (by
      intro I hI s ⟨hl1, hl2, hval⟩
      unfold split_step
      rw [load_getD x _ 0 (by omega), load_getD x _ 0 (by omega)]
      simp only [Option.some_bind]
      rw [store_of_lt _ _ _ (by omega)]
      simp only [Option.some_bind]
      rw [store_of_lt _ _ _ (by omega)]
      refine ⟨_, rfl, by simp [hl1], by simp [hl2], ?_⟩
      intro i hi
      simp only []
      rw [getD_set _ _ _ _ _ (by omega), getD_set _ _ _ _ _ (by omega)]
      by_cases hiI : i = I
      · simp [hiI]
      · rw [if_neg hiI, if_neg hiI]
        exact hval i (by omega))
  exact ⟨s, hs, h1, h2, h3⟩

/-- The "combine" loop writes `even[p] ± w_p * odd[p]` at `p` and `p + h`. -/
theorem combine_loop_spec {R C : Type} [Field R] [CommRing C] (E : CMath R C) (n h : Nat)
    (hn : n / 2 = h) (even odd x : List C) (he : even.length = h) (ho : odd.length = h)
    (hx : 2 * h ≤ x.length) :
    ∃ y, forLoop (combine_step E n even odd) h x = some y ∧ y.length = x.length ∧
      ∀ p, p < h →
        y.getD p 0 = even.getD p 0 +
          cis E (-2 * E.PI * (p : R) / (n : R)) * odd.getD p 0 ∧
        y.getD (p + h) 0 = even.getD p 0 -
          cis E (-2 * E.PI * (p : R) / (n : R)) * odd.getD p 0 := by
  obtain ⟨y, hy, h1, h2⟩ := forLoop_inv (combine_step E n even odd)
    (fun K a => a.length = x.length ∧ ∀ p, p < K →
        a.getD p 0 = even.getD p 0 +
          cis E (-2 * E.PI * (p : R) / (n : R)) * odd.getD p 0 ∧
        a.getD (p + h) 0 = even.getD p 0 -
          cis E (-2 * E.PI * (p : R) / (n : R)) * odd.getD p 0)
    h x ⟨rfl, fun p hp => absurd hp (Nat.not_lt_zero p)⟩
    (by
      intro K hK a ⟨hl, hval⟩
      unfold combine_step
      rw [hn, load_getD odd _ 0 (by omega), load_getD even _ 0 (by omega)]
      simp only [Option.some_bind]
      rw [store_of_lt _ _ _ (by omega)]
      simp only [Option.some_bind]
      rw [store_of_lt _ _ _ (by simp; omega)]
      refine ⟨_, rfl, by simp [hl], ?_⟩
      intro p hp
      rw [getD_set _ _ _ _ _ (by simp; omega), getD_set _ _ _ _ _ (by omega),
        getD_set _ _ _ _ _ (by simp; omega), getD_set _ _ _ _ _ (by omega)]
      by_cases hpK : p = K
      · subst hpK
        have h1 : ¬ p = p + h := by omega
        simp [h1]
      · have h1 : ¬ p = K + h := by omega
        have h2 : ¬ p + h = K + h := by omega
        have h3 : ¬ p + h = K := by omega
        rw [if_neg h1, if_neg hpK, if_neg h2, if_neg h3]
        exact hval p (by omega))
  exact ⟨y, hy, h1, h2⟩

/-- The recursive transform on a sequence of length `2 ^ k` returns, without leaving
its arrays, the sequence of DFT sums for the root `W k`. -/
theorem fft_recursive_nat_dftSum {R C : Type} [Field R] [CommRing C] (E : CMath R C)
    (W : Nat → C) (hW : TwiddleSpec E W) (k : Nat) :
    ∀ x : List C, x.length = 2 ^ k →
      ∃ y, fft_recursive_nat E x (2 ^ k) = some y ∧ y.length = 2 ^ k ∧
        ∀ m, m < 2 ^ k → y.getD m 0 = dftSum (W k) (2 ^ k) (fun t => x.getD t 0) m := by
  induction k with
  | zero =>
    intro x hx
    rw [fft_recursive_nat, if_pos (by simp)]
    refine ⟨x, rfl, hx, fun m hm => ?_⟩
    have hm0 : m = 0 := by simpa using hm
    subst hm0
    simp [dftSum]
  | succ k ih =>
    intro x hx
    have hpos : 0 < 2 ^ k := Nat.two_pow_pos _
    have hps : 2 ^ (k + 1) = 2 * 2 ^ k := by rw [pow_succ]; ring
    have hhalf : 2 ^ (k + 1) / 2 = 2 ^ k := by omega
    obtain ⟨s, hs, hl1, hl2, hsv⟩ := split_loop_spec x (2 ^ k) (by omega)
      (List.replicate (2 ^ k) 0) (List.replicate (2 ^ k) 0) (by simp) (by simp)
    obtain ⟨ev, hev, hevl, hevv⟩ := ih s.1 hl1
    obtain ⟨od, hod, hodl, hodv⟩ := ih s.2 hl2
    obtain ⟨y, hy, hyl, hyv⟩ := combine_loop_spec E (2 ^ (k + 1)) (2 ^ k) hhalf ev od x
      hevl hodl (by omega)
    rw [fft_recursive_nat, if_neg (by omega), hhalf, hs]
    simp only []
    rw [hev]
    simp only []
    rw [hod]
    simp only []
    refine ⟨y, hy, by omega, fun m hm => ?_⟩
    have hE : ∀ m1, m1 < 2 ^ k → ev.getD m1 0 =
        dftSum (W k) (2 ^ k) (fun t => x.getD (2 * t) 0) m1 := by
      intro m1 hm1
      rw [hevv m1 hm1]
      exact dftSum_congr _ _ _ _ _ (fun t ht => (hsv t ht).1)
    have hO : ∀ m1, m1 < 2 ^ k → od.getD m1 0 =
        dftSum (W k) (2 ^ k) (fun t => x.getD (2 * t + 1) 0) m1 := by
      intro m1 hm1
      rw [hodv m1 hm1]
      exact dftSum_congr _ _ _ _ _ (fun t ht => (hsv t ht).2)
    by_cases hlow : m < 2 ^ k
    · rw [(hyv m hlow).1, hW.recur (k + 1) m, hE m hlow, hO m hlow, hps]
      exact (dftSum_low (W (k + 1)) (W k) (hW.sq k) (2 ^ k) (fun t => x.getD t 0) m).symm
    · obtain ⟨m1, rfl⟩ : ∃ m1, m = m1 + 2 ^ k := ⟨m - 2 ^ k, by omega⟩
      have hm1 : m1 < 2 ^ k := by omega
      rw [(hyv m1 hm1).2, hW.recur (k + 1) m1, hE m1 hm1, hO m1 hm1, hps]
      exact (dftSum_high (W (k + 1)) (W k) (hW.sq k) (2 ^ k) (hW.neg k)
        (fun t => x.getD t 0) m1).symm

theorem fft_recursive_dftSum {R C : Type} [Field R] [CommRing C] (E : CMath R C)
    (W : Nat → C) (hW : TwiddleSpec E W) (k : Nat) (x : List C) (hx : x.length = 2 ^ k) :
    ∃ y, fft_recursive E x ((2 ^ k : Nat) : Int) = some y ∧ y.length = 2 ^ k ∧
      ∀ m, m < 2 ^ k → y.getD m 0 = dftSum (W k) (2 ^ k) (fun t => x.getD t 0) m := by
  unfold fft_recursive
  rw [Int.toNat_ofNat]
  exact fft_recursive_nat_dftSum E W hW k x hx

/-! ## Exact arithmetic -/

theorem cis_exact (E : CMath ℝ ℂ) (hE : ExactArith E) (a : ℝ) :
    cis E a = Complex.exp ((a : ℂ) * Complex.I) := by
  obtain ⟨_, hc, hs, ho, hI, _⟩ := hE
  unfold cis
  rw [hc, hs, ho, hI, Complex.exp_mul_I, Complex.ofReal_cos, Complex.ofReal_sin]
  ring

/-- The principal `2 ^ s`-th root of unity `e^(-2πi/2^s)` used by both transforms. -/
theorem twiddleSpec_exact (E : CMath ℝ ℂ) (hE : ExactArith E) :
    TwiddleSpec E (fun s => Complex.exp (-2 * Real.pi * Complex.I / (2 : ℂ) ^ s)) := by
  have hpi : E.PI = Real.pi := hE.1
  have h2 : ∀ s : Nat, ((2 : ℂ) ^ s) ≠ 0 := fun s => pow_ne_zero _ (by norm_num)
  refine ⟨?_, ?_, ?_, ?_⟩
  · intro s
    rw [cis_exact E hE, hpi]
    congr 1
    push_cast
    ring
  · intro s k
    rw [cis_exact E hE, hpi, ← Complex.exp_nat_mul]
    congr 1
    push_cast
    ring
  · intro s
    show Complex.exp _ ^ 2 = Complex.exp _
    rw [← Complex.exp_nat_mul]
    congr 1
    have := h2 s
    push_cast
    field_simp
    ring
  · intro s
    show Complex.exp _ ^ (2 ^ s) = -1
    rw [← Complex.exp_nat_mul]
    have e : ((2 ^ s : Nat) : ℂ) * (-2 * Real.pi * Complex.I / (2 : ℂ) ^ (s + 1)) =
        -(Real.pi * Complex.I) := by
      have := h2 s
      push_cast
      field_simp
      ring
    rw [e, Complex.exp_neg, Complex.exp_pi_mul_I]
    norm_num

theorem dftSum_exact (k : Nat) (f : Nat → ℂ) (m : Nat) :
    dftSum (Complex.exp (-2 * Real.pi * Complex.I / (2 : ℂ) ^ k)) (2 ^ k) f m =
      ∑ j in range (2 ^ k),
        f j * Complex.exp (-2 * Real.pi * Complex.I * j * m / (2 : ℂ) ^ k) := by
  unfold dftSum
  apply sum_congr rfl
  intro j _
  rw [← Complex.exp_nat_mul]
  congr 2
  push_cast
  ring

theorem getElem?_of_getD {C : Type} (y : List C) (m : Nat) (d v : C) (hm : m < y.length)
    (h : y.getD m d = v) : y[m]? = some v := by
  rw [List.getElem?_eq_getElem hm, ← h, List.getD_eq_getElem _ _ hm]

theorem list_eq_of_getD {C : Type} (y z : List C) (d : C) (hl : y.length = z.length)
    (h : ∀ m, m < y.length → y.getD m d = z.getD m d) : y = z := by
  apply List.ext_getElem hl
  intro m h1 h2
  have := h m h1
  rwa [List.getD_eq_getElem _ _ h1, List.getD_eq_getElem _ _ h2] at this

theorem exp_cast_pow (k j m : Nat) :
    Complex.exp (-2 * Real.pi * Complex.I * j * m / ((2 ^ k : Nat) : ℂ)) =
      Complex.exp (-2 * Real.pi * Complex.I * j * m / (2 : ℂ) ^ k) := by
  push_cast
  rfl

/-! ## Lengths that are not validated -/

theorem fft_cooley_tukey_of_lt_one {R C : Type} [Field R] [CommRing C] (E : CMath R C)
    (x : List C) (n : Int) (hn : n < 1) : fft_cooley_tukey E x n = some x := by
  have h0 : n.toNat = 0 := by omega
  unfold fft_cooley_tukey bit_reverse
  simp only [h0, forLoop]
  rw [pass_loop, if_neg (by omega)]

theorem fft_recursive_of_le_one {R C : Type} [Field R] [CommRing C] (E : CMath R C)
    (x : List C) (n : Int) (hn : n ≤ 1) : fft_recursive E x n = some x := by
  unfold fft_recursive
  rw [fft_recursive_nat, if_pos (by omega)]

/-- The recursive transform returns normally for every length `n ≥ 0`, power of two
or not, when `x` has `n` cells; the result has `n` cells. -/
theorem fft_recursive_nat_total {R C : Type} [Field R] [CommRing C] (E : CMath R C)
    (n : Nat) : ∀ x : List C, x.length = n →
      ∃ y, fft_recursive_nat E x n = some y ∧ y.length = n := by
  induction n using Nat.strong_induction_on with
  | _ n ih =>
    intro x hx
    by_cases h1 : n ≤ 1
    · rw [fft_recursive_nat, if_pos h1]
      exact ⟨x, rfl, hx⟩
    · obtain ⟨s, hs, hl1, hl2, _⟩ := split_loop_spec x (n / 2) (by omega)
        (List.replicate (n / 2) 0) (List.replicate (n / 2) 0) (by simp) (by simp)
      obtain ⟨ev, hev, hevl⟩ := ih (n / 2) (by omega) s.1 hl1
      obtain ⟨od, hod, hodl⟩ := ih (n / 2) (by omega) s.2 hl2
      obtain ⟨y, hy, hyl, _⟩ := combine_loop_spec E n (n / 2) rfl ev od x hevl hodl
        (by omega)
      rw [fft_recursive_nat, if_neg h1, hs]
      simp only []
      rw [hev]
      simp only []
      rw [hod]
      simp only []
      exact ⟨y, hy, by omega⟩

/-! ## Linearity of the DFT sum -/

theorem getD_lincomb {C : Type} [CommRing C] (a b : C) (S1 S2 : List C)
    (hl : S1.length = S2.length) (t : Nat) :
    (lincomb a b S1 S2).getD t 0 = a * S1.getD t 0 + b * S2.getD t 0 := by
  unfold lincomb
  by_cases ht : t < S1.length
  · have ht2 : t < S2.length := by omega
    have ht3 : t < (List.zipWith (fun u v => a * u + b * v) S1 S2).length := by
      simp; omega
    rw [List.getD_eq_getElem _ _ ht, List.getD_eq_getElem _ _ ht2,
      List.getD_eq_getElem _ _ ht3, List.getElem_zipWith]
  · have ht3 : (List.zipWith (fun u v => a * u + b * v) S1 S2).length ≤ t := by
      simp; omega
    rw [List.getD_eq_default _ _ ht3, List.getD_eq_default _ _ (by omega),
      List.getD_eq_default _ _ (by omega)]
    simp

theorem length_lincomb {C : Type} [CommRing C] (a b : C) (S1 S2 : List C)
    (hl : S1.length = S2.length) : (lincomb a b S1 S2).length = S1.length := by
  unfold lincomb
  simp [hl]

theorem dftSum_lincomb {C : Type} [CommRing C] (w : C) (N : Nat) (a b : C)
    (f g h : Nat → C) (hh : ∀ t, h t = a * f t + b * g t) (m : Nat) :
    dftSum w N h m = a * dftSum w N f m + b * dftSum w N g m := by
  unfold dftSum
  rw [mul_sum, mul_sum, ← sum_add_distrib]
  apply sum_congr rfl
  intro t _
  rw [hh t]
  ring

/-- Any map `T` that returns the DFT sums on sequences of length `N` is linear. -/
theorem linear_of_dftSum {C : Type} [CommRing C] (T : List C → Option (List C)) (w : C)
    (N : Nat)
    (hT : ∀ x : List C, x.length = N → ∃ y, T x = some y ∧ y.length = N ∧
      ∀ m, m < N → y.getD m 0 = dftSum w N (fun t => x.getD t 0) m)
    (a b : C) (S1 S2 : List C) (h1 : S1.length = N) (h2 : S2.length = N) :
    ∃ y1 y2, T S1 = some y1 ∧ T S2 = some y2 ∧
      T (lincomb a b S1 S2) = some (lincomb a b y1 y2) := by
  obtain ⟨y1, hy1, hl1, hv1⟩ := hT S1 h1
  obtain ⟨y2, hy2, hl2, hv2⟩ := hT S2 h2
  obtain ⟨y, hy, hl, hv⟩ := hT (lincomb a b S1 S2)
    (by rw [length_lincomb a b S1 S2 (by omega), h1])
  refine ⟨y1, y2, hy1, hy2, ?_⟩
  rw [hy]
  congr 1
  apply list_eq_of_getD y _ 0 (by rw [length_lincomb a b y1 y2 (by omega)]; omega)
  intro m hm
  rw [hv m (by omega), getD_lincomb a b y1 y2 (by omega), hv1 m (by omega),
    hv2 m (by omega)]
  exact dftSum_lincomb w N a b _ _ _ (fun t => getD_lincomb a b S1 S2 (by omega) t) m

/-! ## Filling a buffer in a counted loop; known inputs -/

theorem fill_loop_spec {C : Type} [Zero C] (g : Nat → C) (n : Nat) (s0 : List C)
    (hs0 : s0.length = n) :
    ∃ s, forLoop (fun i s => store s i (g i)) n s0 = some s ∧ s.length = n ∧
      ∀ p, p < n → s.getD p 0 = g p := by
  obtain ⟨s, hs, hl, hv⟩ := forLoop_inv (fun i s => store s i (g i))
    (fun I s => s.length = n ∧ ∀ p, p < I → s.getD p 0 = g p) n s0
    ⟨hs0, fun p hp => absurd hp (Nat.not_lt_zero p)⟩
    (by
      intro I hI s ⟨hl, hv⟩
      beta_reduce
      rw [store_of_lt _ _ _ (by omega)]
      refine ⟨_, rfl, by simp [hl], fun p hp => ?_⟩
      rw [getD_set _ _ _ _ _ (by omega)]
      by_cases hpI : p = I
      · rw [if_pos hpI, hpI]
      · rw [if_neg hpI]
        exact hv p (by omega))
  exact ⟨s, hs, hl, hv⟩

theorem dftSum_impulse {C : Type} [CommRing C] (w : C) (N : Nat) (hN : 0 < N)
    (f : Nat → C) (hf : ∀ t, t < N → f t = if t = 0 then 1 else 0) (m : Nat) :
    dftSum w N f m = 1 := by
  unfold dftSum
  rw [sum_eq_single 0]
  · rw [hf 0 hN]; simp
  · intro t ht ht0
    rw [hf t (mem_range.mp ht), if_neg ht0, zero_mul]
  · intro h
    exact absurd (mem_range.mpr hN) h

theorem eq_replicate_of_getD {C : Type} (y : List C) (n : Nat) (d v : C)
    (hl : y.length = n) (h : ∀ m, m < n → y.getD m d = v) : y = List.replicate n v := by
  apply list_eq_of_getD y _ d (by simp [hl])
  intro m hm
  rw [h m (by omega), List.getD_eq_getElem _ _ (by simp; omega)]
  simp

theorem dftSum_ones4 {C : Type} [CommRing C] (w : C) (hw : w ^ 2 = -1) (m : Nat)
    (hm : m < 4) :
    dftSum w 4 (fun t => ([1, 1, 1, 1] : List C).getD t 0) m =
      ([4, 0, 0, 0] : List C).getD m 0 := by
  unfold dftSum
  interval_cases m
  · simp [sum_range_succ]
    norm_num
  · simp [sum_range_succ]
    linear_combination (1 + w) * hw
  · simp [sum_range_succ]
    linear_combination (1 + w ^ 4) * hw
  · simp [sum_range_succ]
    linear_combination (1 + w ^ 3) * (1 - w ^ 2 + w ^ 4) * hw

theorem transform_ones4 {C : Type} [CommRing C] (w : C) (hw : w ^ 2 = -1) (y : List C)
    (hl : y.length = 2 ^ 2)
    (hv : ∀ m, m < 2 ^ 2 → y.getD m 0 =
      dftSum w (2 ^ 2) (fun t => ([1, 1, 1, 1] : List C).getD t 0) m) :
    y = [4, 0, 0, 0] := by
  apply list_eq_of_getD y _ 0 (by simp [hl])
  intro m hm
  have hm4 : m < 4 := by rw [hl] at hm; simpa using hm
  rw [hv m (by simpa using hm4)]
  exact dftSum_ones4 w hw m hm4

/-! ## Energy (Parseval) -/

theorem normSq_add_sub (a c : ℂ) :
    Complex.normSq (a + c) + Complex.normSq (a - c) =
      2 * (Complex.normSq a + Complex.normSq c) := by
  simp only [Complex.normSq_apply, Complex.add_re, Complex.add_im, Complex.sub_re,
    Complex.sub_im]
  ring

theorem normSq_dftSum (W : Nat → ℂ) (hsq : ∀ s : Nat, W (s + 1) ^ 2 = W s)
    (hneg : ∀ s : Nat, W (s + 1) ^ (2 ^ s) = -1) (hun : ∀ s : Nat, Complex.normSq (W s) = 1)
    (k : Nat) : ∀ f : Nat → ℂ,
      ∑ m in range (2 ^ k), Complex.normSq (dftSum (W k) (2 ^ k) f m) =
        (2 : ℝ) ^ k * ∑ t in range (2 ^ k), Complex.normSq (f t) := by
  induction k with
  | zero =>
    intro f
    simp [dftSum]
  | succ k ih =>
    intro f
    have hps : 2 ^ (k + 1) = 2 * 2 ^ k := by rw [pow_succ]; ring
    have hadd : 2 * 2 ^ k = 2 ^ k + 2 ^ k := by ring
    have hterm : ∀ m, Complex.normSq (dftSum (W (k + 1)) (2 * 2 ^ k) f m) +
        Complex.normSq (dftSum (W (k + 1)) (2 * 2 ^ k) f (2 ^ k + m)) =
        2 * (Complex.normSq (dftSum (W k) (2 ^ k) (fun t => f (2 * t)) m) +
          Complex.normSq (dftSum (W k) (2 ^ k) (fun t => f (2 * t + 1)) m)) := by
      intro m
      rw [Nat.add_comm (2 ^ k) m, dftSum_low (W (k + 1)) (W k) (hsq k),
        dftSum_high (W (k + 1)) (W k) (hsq k) (2 ^ k) (hneg k), normSq_add_sub]
      congr 2
      rw [Complex.normSq_mul, map_pow, hun (k + 1), one_pow, one_mul]
    rw [hps, sum_range_even_odd (fun t => Complex.normSq (f t))]
    nth_rewrite 1 [hadd]
    rw [sum_range_add, ← sum_add_distrib]
    simp only [hterm]
    rw [← mul_sum, sum_add_distrib, ih, ih]
    rw [pow_succ]
    ring

theorem normSq_twiddle_exact (s : Nat) :
    Complex.normSq (Complex.exp (-2 * Real.pi * Complex.I / (2 : ℂ) ^ s)) = 1 := by
  have e : (-2 * Real.pi * Complex.I / (2 : ℂ) ^ s) =
      ((-2 * Real.pi / (2 : ℝ) ^ s : ℝ) : ℂ) * Complex.I := by
    push_cast
    ring
  rw [e, Complex.normSq_eq_abs, Complex.abs_exp_ofReal_mul_I]
  norm_num

/-- The energy loop of `verify_fft` returns the sum of the squared magnitudes. -/
theorem total_energy_loop_spec {R C : Type} [Field R] [Zero C] (E : CMath R C) (x : List C)
    (n : Nat) (hn : n ≤ x.length) :
    total_energy_loop E x n =
      some (∑ i in range n, E.cabs (x.getD i 0) * E.cabs (x.getD i 0)) := by
  unfold total_energy_loop
  obtain ⟨r, hr, hv⟩ := forLoop_inv
    (fun i total => (load x i).bind fun z => some (total + E.cabs z * E.cabs z))
    (fun I (total : R) => total = ∑ i in range I, E.cabs (x.getD i 0) * E.cabs (x.getD i 0))
    n 0 (by simp)
    (by
      intro I hI total ht
      beta_reduce
      rw [load_getD x I 0 (by omega), Option.some_bind]
      exact ⟨_, rfl, by rw [sum_range_succ, ht]⟩)
  rw [hr, hv]

/-! ## Impulse -/

theorem generate_impulse (E : CMath ℝ ℂ) (hE : ExactArith E) (n : Nat) :
    ∃ sig, generate_test_signal E (n : Int) 0 = some sig ∧ sig.length = n ∧
      ∀ i, i < n → sig.getD i 0 = if i = 0 then 1 else 0 := by
  have ho : E.ofReal = Complex.ofReal := hE.2.2.2.1
  obtain ⟨s, hs, hl, hv⟩ := fill_loop_spec
    (fun i => E.ofReal (if i = 0 then 1 else 0)) n (List.replicate n (0 : ℂ)) (by simp)
  refine ⟨s, ?_, hl, fun i hi => ?_⟩
  · unfold generate_test_signal
    simp only [Int.toNat_ofNat, if_true]
    exact hs
  · rw [hv i hi, ho]
    by_cases h0 : i = 0 <;> simp [h0]

/-! ## The sine test signal -/

theorem twiddle_pow_eq_one_iff (n : Nat) (hn : n ≠ 0) (r : Nat) :
    Complex.exp (-2 * Real.pi * Complex.I / (n : ℂ)) ^ r = 1 ↔ n ∣ r := by
  have hp := (Complex.isPrimitiveRoot_exp n hn).inv
  rw [← Complex.exp_neg] at hp
  have e : -(2 * Real.pi * Complex.I / (n : ℂ)) = -2 * Real.pi * Complex.I / (n : ℂ) := by
    ring
  rw [e] at hp
  exact hp.pow_eq_one_iff_dvd r

/-- Orthogonality: the geometric sum of the powers of `w ^ r` over a full period. -/
theorem geom_sum_root (w : ℂ) (n : Nat) (hroot : ∀ r : Nat, w ^ r = 1 ↔ n ∣ r) (r : Nat) :
    ∑ j in range n, w ^ (j * r) = if n ∣ r then (n : ℂ) else 0 := by
  have hpow : ∀ j : Nat, w ^ (j * r) = (w ^ r) ^ j := fun j => by
    rw [← pow_mul, Nat.mul_comm]
  simp only [hpow]
  by_cases hd : n ∣ r
  · rw [if_pos hd, (hroot r).mpr hd]
    simp
  · rw [if_neg hd]
    have hne : w ^ r - 1 ≠ 0 := fun h => hd ((hroot r).mp (sub_eq_zero.mp h))
    have h1 : (w ^ r) ^ n = 1 := by
      rw [← pow_mul, Nat.mul_comm, pow_mul, (hroot n).mpr (dvd_refl n), one_pow]
    have h2 := geom_sum_mul (w ^ r) n
    rw [h1, sub_self] at h2
    exact (mul_eq_zero.mp h2).resolve_right hne

theorem sin_sample_eq (n : Nat) (hn : n ≠ 0) (j : Nat) :
    ((Real.sin (2 * Real.pi * (j : ℝ) / (n : ℝ)) : ℝ) : ℂ) =
      (Complex.exp (-2 * Real.pi * Complex.I / (n : ℂ)) ^ j -
        Complex.exp (-2 * Real.pi * Complex.I / (n : ℂ)) ^ (j * (n - 1))) *
          Complex.I / 2 := by
  have hroot := twiddle_pow_eq_one_iff n hn
  set w := Complex.exp (-2 * Real.pi * Complex.I / (n : ℂ)) with hw
  have hinv : w ^ (j * (n - 1)) = (w ^ j)⁻¹ := by
    apply eq_inv_of_mul_eq_one_left
    rw [← pow_add]
    have : j * (n - 1) + j = n * j := by
      have : 1 ≤ n := Nat.one_le_iff_ne_zero.mpr hn
      calc j * (n - 1) + j = j * (n - 1 + 1) := by ring
        _ = n * j := by rw [Nat.sub_add_cancel this]; ring
    rw [this]
    exact (hroot _).mpr (dvd_mul_right n j)
  have hn0 : (n : ℂ) ≠ 0 := Nat.cast_ne_zero.mpr hn
  rw [hinv, Complex.ofReal_sin, Complex.sin, hw, ← Complex.exp_nat_mul, ← Complex.exp_neg]
  congr 3
  · congr 1
    push_cast
    field_simp
    left
    ring
  · congr 1
    push_cast
    field_simp
    ring

/-- DFT of the sine samples: `(I/2)·(G(m+1) − G(m+n−1))` with the orthogonality sums. -/
theorem dftSum_sine (n : Nat) (hn : n ≠ 0) (f : Nat → ℂ)
    (hf : ∀ j, j < n → f j = ((Real.sin (2 * Real.pi * (j : ℝ) / (n : ℝ)) : ℝ) : ℂ))
    (m : Nat) :
    dftSum (Complex.exp (-2 * Real.pi * Complex.I / (n : ℂ))) n f m =
      Complex.I / 2 * ((if n ∣ m + 1 then (n : ℂ) else 0) -
        (if n ∣ m + (n - 1) then (n : ℂ) else 0)) := by
  have hroot := twiddle_pow_eq_one_iff n hn
  rw [← geom_sum_root _ n hroot (m + 1), ← geom_sum_root _ n hroot (m + (n - 1)),
    ← sum_sub_distrib, mul_sum]
  unfold dftSum
  apply sum_congr rfl
  intro j hj
  rw [hf j (mem_range.mp hj), sin_sample_eq n hn j]
  have e1 : j * (m + 1) = j + j * m := by ring
  have e2 : j * (m + (n - 1)) = j * (n - 1) + j * m := by ring
  rw [e1, e2, pow_add, pow_add]
  ring

theorem dvd_lt_two_mul (n r : Nat) (hd : n ∣ r) (hr : r < 2 * n) : r = 0 ∨ r = n := by
  obtain ⟨c, rfl⟩ := hd
  have hc : c < 2 := by
    by_contra h
    have : 2 ≤ c := by omega
    have : n * 2 ≤ n * c := Nat.mul_le_mul_left n this
    omega
  interval_cases c
  · left; simp
  · right; simp

theorem generate_sine (E : CMath ℝ ℂ) (hE : ExactArith E) (n : Nat) :
    ∃ sig, generate_test_signal E (n : Int) 1 = some sig ∧ sig.length = n ∧
      ∀ i, i < n →
        sig.getD i 0 = ((Real.sin (2 * Real.pi * (i : ℝ) / (n : ℝ)) : ℝ) : ℂ) := by
  obtain ⟨hpi, _, hs, ho, _, _⟩ := hE
  obtain ⟨s, hs1, hl, hv⟩ := fill_loop_spec
    (fun i => E.ofReal (E.sin (2 * E.PI * (i : ℝ) / ((n : Int) : ℝ)))) n
    (List.replicate n (0 : ℂ)) (by simp)
  refine ⟨s, ?_, hl, fun i hi => ?_⟩
  · unfold generate_test_signal
    rw [if_neg (by decide), if_pos rfl]
    simp only [Int.toNat_ofNat]
    exact hs1
  · rw [hv i hi, ho, hs, hpi]
    simp

/-! ## Bits of `reverse_bits` -/

theorem revBits_testBit (k : Nat) : ∀ num b : Nat,
    (revBits k num).testBit b = (decide (b < k) && num.testBit (k - 1 - b)) := by
  induction k with
  | zero =>
    intro num b
    simp [revBits]
  | succ k ih =>
    intro num b
    have e : revBits (k + 1) num = 2 ^ k * (num % 2) + revBits k (num / 2) := by
      rw [revBits]; ring
    rw [e, Nat.testBit_mul_pow_two_add (num % 2) (revBits_lt k (num / 2)) b]
    by_cases h1 : b < k
    · have h2 : b < k + 1 := by omega
      have h3 : k + 1 - 1 - b = (k - 1 - b) + 1 := by omega
      rw [if_pos h1, ih, h3, Nat.testBit_add_one]
      simp [h1, h2]
    · rw [if_neg h1]
      by_cases h4 : b = k
      · subst h4
        simp
      · have h5 : ¬ b < k + 1 := by omega
        have h6 : num % 2 < 2 ^ (b - k) := by
          have : 2 ^ 1 ≤ 2 ^ (b - k) := Nat.pow_le_pow_right (by decide) (by omega)
          have := Nat.mod_lt num (by decide : 0 < 2)
          omega
        rw [Nat.testBit_lt_two_pow h6]
        simp [h5]

/-! ## The swap loop, pair by pair -/

theorem bit_reverse_step_of_not_lt {C : Type} (log2n i : Nat) (a : List C)
    (h : ¬ i < reverse_bits i log2n) : bit_reverse_step log2n i a = some a := by
  unfold bit_reverse_step
  simp only [h, if_false]

theorem bit_reverse_step_of_lt {C : Type} (log2n i : Nat) (a : List C)
    (h : i < reverse_bits i log2n) (hj : reverse_bits i log2n < a.length) :
    ∃ u v, a[i]? = some u ∧ a[reverse_bits i log2n]? = some v ∧
      bit_reverse_step log2n i a = some ((a.set i v).set (reverse_bits i log2n) u) := by
  have hi : i < a.length := by omega
  refine ⟨a[i], a[reverse_bits i log2n], List.getElem?_eq_getElem hi,
    List.getElem?_eq_getElem hj, ?_⟩
  unfold bit_reverse_step
  simp only [h, if_true, load_eq_getElem?, List.getElem?_eq_getElem hi,
    List.getElem?_eq_getElem hj, Option.some_bind]
  rw [store_of_lt _ _ _ hi]
  simp only [Option.some_bind]
  rw [store_of_lt _ _ _ (by simp; omega)]

theorem swap_once (k i : Nat) (hi : i < 2 ^ k) (hne : reverse_bits i k ≠ i) :
    ((range (2 ^ k)).filter
      (fun p => p < reverse_bits p k ∧ (p = i ∨ p = reverse_bits i k))).card = 1 := by
  have hj : reverse_bits i k < 2 ^ k := by rw [reverse_bits_eq]; exact revBits_lt k i
  have hrr : reverse_bits (reverse_bits i k) k = i := by
    rw [reverse_bits_eq, reverse_bits_eq]; exact revBits_revBits k i hi
  rw [card_eq_one]
  by_cases hlt : i < reverse_bits i k
  · refine ⟨i, ?_⟩
    ext p
    simp only [mem_filter, mem_range, mem_singleton]
    constructor
    · rintro ⟨_, hp, rfl | rfl⟩
      · rfl
      · rw [hrr] at hp; omega
    · rintro rfl
      exact ⟨hi, hlt, Or.inl rfl⟩
  · refine ⟨reverse_bits i k, ?_⟩
    ext p
    simp only [mem_filter, mem_range, mem_singleton]
    constructor
    · rintro ⟨_, hp, rfl | rfl⟩
      · omega
      · rfl
    · rintro rfl
      exact ⟨hj, by rw [hrr]; omega, Or.inr rfl⟩

/-! ## Length one -/

theorem log2_loop_one : log2_loop 1 0 = 0 := by
  rw [log2_loop, if_neg (by decide)]

theorem bit_reverse_one {C : Type} (x : List C) : bit_reverse x 1 = some x := by
  have h1 : (1 : Int).toNat = 1 := rfl
  unfold bit_reverse
  rw [h1, log2_loop_one]
  simp only [forLoop, Option.some_bind]
  exact bit_reverse_step_of_not_lt 0 0 x (by decide)

/-! ## Conjugate symmetry for real input -/

theorem twiddle_pow_two_pow (k : Nat) :
    Complex.exp (-2 * Real.pi * Complex.I / (2 : ℂ) ^ k) ^ (2 ^ k) = 1 := by
  have h := (twiddle_pow_eq_one_iff (2 ^ k) (by positivity) (2 ^ k)).mpr (dvd_refl _)
  have e : (((2 ^ k : Nat)) : ℂ) = (2 : ℂ) ^ k := by push_cast; rfl
  rwa [e] at h

theorem dftSum_conj (w : ℂ) (N : Nat) (hN : w ^ N = 1) (hun : Complex.normSq w = 1)
    (f : Nat → ℂ) (hf : ∀ t, (f t).im = 0) (m : Nat) (hm : m ≤ N) :
    dftSum w N f (N - m) = (starRingEnd ℂ) (dftSum w N f m) := by
  unfold dftSum
  rw [map_sum]
  apply sum_congr rfl
  intro t _
  rw [map_mul, map_pow, Complex.conj_eq_iff_im.mpr (hf t)]
  congr 1
  have hw : (starRingEnd ℂ) w * w = 1 := by
    rw [← Complex.normSq_eq_conj_mul_self, hun]
    simp
  have hne : w ^ (t * m) ≠ 0 := by
    intro h0
    have h1 : (starRingEnd ℂ) w ^ (t * m) * w ^ (t * m) = 1 := by
      rw [← mul_pow, hw, one_pow]
    rw [h0, mul_zero] at h1
    exact zero_ne_one h1
  apply mul_right_cancel₀ hne
  rw [← pow_add, ← mul_pow, hw, one_pow]
  have e : t * (N - m) + t * m = N * t := by
    rw [← Nat.mul_add, Nat.sub_add_cancel hm, Nat.mul_comm]
  rw [e, pow_mul, hN, one_pow]

theorem getD_im_zero (x : List ℂ) (hreal : ∀ z ∈ x, z.im = 0) (t : Nat) :
    (x.getD t 0).im = 0 := by
  by_cases ht : t < x.length
  · rw [List.getD_eq_getElem _ _ ht]
    exact hreal _ (List.getElem_mem ht)
  · rw [List.getD_eq_default _ _ (by omega)]
    simp

/-! ## Index safety of the iterative transform -/

theorem reverse_bits_lt (i log2n : Nat) : reverse_bits i log2n < 2 ^ log2n := by
  rw [reverse_bits_eq]
  exact revBits_lt log2n i

theorem log2_loop_eq (temp : Nat) : ∀ acc : Nat, log2_loop temp acc = acc + Nat.log2 temp := by
  induction temp using Nat.strong_induction_on with
  | _ temp ih =>
    intro acc
    rw [log2_loop, Nat.log2]
    by_cases h : 1 < temp
    · rw [if_pos h, if_pos (by omega), Nat.shiftRight_one, ih (temp / 2) (by omega)]
      omega
    · rw [if_neg h, if_neg (by omega)]
      rfl

/-- The swap loop stays inside an array of `n` cells for every `n`, power of two or
not, and keeps its length. -/
theorem bit_reverse_total {C : Type} (n : Nat) (x : List C) (hx : x.length = n) :
    ∃ y, bit_reverse x (n : Int) = some y ∧ y.length = n := by
  unfold bit_reverse
  simp only [Int.toNat_ofNat]
  obtain ⟨y, hy, hl⟩ := forLoop_inv (bit_reverse_step (log2_loop n 0))
    (fun _ a => a.length = n) n x hx
    (by
      intro i hi a ha
      have hj : reverse_bits i (log2_loop n 0) < n := by
        have h1 := reverse_bits_lt i (log2_loop n 0)
        have h2 : 2 ^ log2_loop n 0 ≤ n := by
          rw [log2_loop_eq, Nat.zero_add]
          exact Nat.log2_self_le (by omega)
        omega
      by_cases hlt : i < reverse_bits i (log2_loop n 0)
      · obtain ⟨u, v, _, _, hs⟩ := bit_reverse_step_of_lt (log2_loop n 0) i a hlt (by omega)
        exact ⟨_, hs, by simp [ha]⟩
      · exact ⟨a, bit_reverse_step_of_not_lt _ i a hlt, ha⟩)
  exact ⟨y, hy, hl⟩

/-- The butterflies of one complete block stay inside the array. -/
theorem butterfly_loop_length {C : Type} [CommRing C] (half i : Nat) (wlen w : C)
    (a : List C) (hi : i + 2 * half ≤ a.length) :
    ∃ s, forLoop (butterfly_step (2 * half) i wlen) half (a, w) = some s ∧
      s.1.length = a.length := by
  have hh : 2 * half / 2 = half := by omega
  obtain ⟨s, hs, hl⟩ := forLoop_inv (butterfly_step (2 * half) i wlen)
    (fun _ s => s.1.length = a.length) half (a, w) rfl
    (by
      intro J hJ s hs
      unfold butterfly_step
      rw [hh, load_getD _ _ 0 (by omega), load_getD _ _ 0 (by omega)]
      simp only [Option.some_bind]
      rw [store_of_lt _ _ _ (by omega)]
      simp only [Option.some_bind]
      rw [store_of_lt _ _ _ (by simp; omega)]
      exact ⟨_, rfl, by simp [hs]⟩)
  exact ⟨s, hs, hl⟩

/-- A pass whose block size divides the array length stays inside the array. -/
theorem block_loop_length {C : Type} [CommRing C] (n half B : Nat) (hhalf : 0 < half)
    (wlen : C) (x : List C) (hx : x.length = n) (hn : n = 2 * half * B) :
    ∃ y, block_loop n (2 * half) (by omega) wlen 0 x = some y ∧ y.length = n := by
  obtain ⟨y, hy, hl, _⟩ := block_loop_spec half hhalf wlen x B (by omega)
  refine ⟨y, ?_, by omega⟩
  rw [← hy]
  exact block_loop_congr _ _ _ _ _ _ hx.symm rfl _ _ _

theorem pass_loop_length {R C : Type} [Field R] [CommRing C] (E : CMath R C) (j : Nat) :
    ∀ (s : Nat) (a : List C), a.length = 2 ^ (s + j) →
      ∃ y, pass_loop E (2 ^ (s + j)) (2 ^ (s + 1)) (Nat.two_pow_pos _) a = some y ∧
        y.length = 2 ^ (s + j) := by
  induction j with
  | zero =>
    intro s a ha
    rw [pass_loop, if_neg]
    · exact ⟨a, rfl, ha⟩
    · show ¬ 2 ^ (s + 1) ≤ 2 ^ s
      have : 0 < 2 ^ s := Nat.two_pow_pos _
      rw [pow_succ]
      omega
  | succ j ih =>
    intro s a ha
    have hle : 2 ^ (s + 1) ≤ 2 ^ (s + (j + 1)) := Nat.pow_le_pow_right (by decide) (by omega)
    have hpos : 0 < 2 ^ s := Nat.two_pow_pos _
    have hps : 2 ^ (s + 1) = 2 * 2 ^ s := by rw [pow_succ]; ring
    have hn : 2 ^ (s + (j + 1)) = 2 * 2 ^ s * 2 ^ j := by
      rw [pow_add, pow_succ]; ring
    obtain ⟨y1, hy1, hl1⟩ := block_loop_length (2 ^ (s + (j + 1))) (2 ^ s) (2 ^ j) hpos
      (cis E (-2 * E.PI / ((2 ^ (s + 1) : Nat) : R))) a ha hn
    have he : s + (j + 1) = s + 1 + j := by omega
    obtain ⟨y, hy, hl⟩ := ih (s + 1) y1 (by rw [hl1, he])
    rw [pass_loop, if_pos hle]
    simp only []
    rw [block_loop_congr _ _ _ (2 * 2 ^ s) _ (by omega) rfl hps, hy1]
    simp only []
    rw [pass_loop_congr E _ (2 ^ (s + 1 + j)) _ (2 ^ (s + 1 + 1)) _ (Nat.two_pow_pos _)
      (by rw [he]) (by rw [Nat.shiftLeft_eq]; ring), hy]
    exact ⟨y, rfl, by rw [he]; exact hl⟩

theorem butterfly_index_lt (k s b j : Nat) (hs : s ≤ k) (hb : 2 ^ s * b < 2 ^ k)
    (hj : j < 2 ^ s / 2) : 2 ^ s * b + j + 2 ^ s / 2 < 2 ^ k := by
  obtain ⟨d, rfl⟩ : ∃ d, k = s + d := ⟨k - s, by omega⟩
  rw [pow_add] at hb ⊢
  have hb1 : b < 2 ^ d := Nat.lt_of_mul_lt_mul_left hb
  have h1 : 2 ^ s * (b + 1) ≤ 2 ^ s * 2 ^ d := Nat.mul_le_mul_left _ hb1
  have h2 : 2 ^ s * (b + 1) = 2 ^ s * b + 2 ^ s := by ring
  omega

/-! ## Lengths that are not powers of two: the iterative transform leaves the array -/

theorem forLoop_none_of_first {σ : Type} (body : Nat → σ → Option σ) (s : σ)
    (h : body 0 s = none) : ∀ m : Nat, forLoop body (m + 1) s = none := by
  intro m
  induction m with
  | zero => simp [forLoop, h]
  | succ m ih =>
    rw [forLoop, ih]
    rfl

/-- A pass whose last block has only `half` cells left reads the cell just behind the
array in the first butterfly of that block. -/
theorem block_loop_fail {C : Type} [CommRing C] (n half B : Nat) (hhalf : 0 < half)
    (hn : n = 2 * half * B + half) (wlen : C) (c : Nat) :
    ∀ (b : Nat) (a : List C), b + c = B → a.length = n →
      block_loop n (2 * half) (by omega) wlen (2 * half * b) a = none := by
  induction c with
  | zero =>
    intro b a hb ha
    have hbB : b = B := by omega
    subst hbB
    have hh : 2 * half / 2 = half := by omega
    have hfirst : butterfly_step (2 * half) (2 * half * b) wlen 0 (a, 1) = none := by
      unfold butterfly_step
      dsimp only
      have h2 : load a (2 * half * b + 0 + 2 * half / 2) = none := by
        rw [load_eq_getElem?, List.getElem?_eq_none (by omega)]
      rw [load_getD a _ 0 (by omega), h2]
      rfl
    obtain ⟨h1, hh1⟩ : ∃ h1, half = h1 + 1 := ⟨half - 1, by omega⟩
    have hf := forLoop_none_of_first _ _ hfirst h1
    rw [← hh1] at hf
    rw [block_loop, if_pos (by omega), hh, hf]
  | succ c ih =>
    intro b a hb ha
    have hlt : 2 * half * b + 2 * half ≤ n := by
      rw [hn, ← hb]
      have : 2 * half * (b + (c + 1)) = 2 * half * b + 2 * half + 2 * half * c := by ring
      omega
    obtain ⟨s, hs, hl⟩ := butterfly_loop_length half (2 * half * b) wlen 1 a (by omega)
    have hh : 2 * half / 2 = half := by omega
    rw [block_loop, if_pos (by omega), hh, hs]
    simp only []
    have e : 2 * half * b + 2 * half = 2 * half * (b + 1) := by ring
    rw [e]
    exact ih (b + 1) s.1 (by omega) (by omega)

theorem pass_loop_fail {R C : Type} [Field R] [CommRing C] (E : CMath R C) (a q : Nat)
    (hq : 3 ≤ q) (hodd : q % 2 = 1) (d : Nat) :
    ∀ (s : Nat) (x : List C), s + d = a → x.length = 2 ^ a * q →
      pass_loop E (2 ^ a * q) (2 ^ (s + 1)) (Nat.two_pow_pos _) x = none := by
  induction d with
  | zero =>
    intro s x hs hx
    have hsa : s = a := by omega
    subst hsa
    have hpos : 0 < 2 ^ s := Nat.two_pow_pos _
    have hps : 2 ^ (s + 1) = 2 * 2 ^ s := by rw [pow_succ]; ring
    have hle : 2 ^ (s + 1) ≤ 2 ^ s * q := by
      rw [hps, Nat.mul_comm 2]
      exact Nat.mul_le_mul_left _ (by omega)
    have hn : 2 ^ s * q = 2 * 2 ^ s * (q / 2) + 2 ^ s := by
      have : q = 2 * (q / 2) + 1 := by omega
      calc 2 ^ s * q = 2 ^ s * (2 * (q / 2) + 1) := by rw [← this]
        _ = 2 * 2 ^ s * (q / 2) + 2 ^ s := by ring
    have hf := block_loop_fail (2 ^ s * q) (2 ^ s) (q / 2) hpos hn
      (cis E (-2 * E.PI / ((2 ^ (s + 1) : Nat) : R))) (q / 2) 0 x (by omega) hx
    rw [pass_loop, if_pos hle]
    simp only []
    rw [block_loop_congr _ _ _ (2 * 2 ^ s) _ (by omega) rfl hps]
    rw [Nat.mul_zero] at hf
    rw [hf]
  | succ d ih =>
    intro s x hs hx
    have hpos : 0 < 2 ^ s := Nat.two_pow_pos _
    have hps : 2 ^ (s + 1) = 2 * 2 ^ s := by rw [pow_succ]; ring
    have hn : 2 ^ a * q = 2 * 2 ^ s * (2 ^ d * q) := by
      rw [← hs, pow_add, pow_succ]; ring
    have hle : 2 ^ (s + 1) ≤ 2 ^ a * q := by
      rw [hn, hps]
      have : 0 < 2 ^ d * q := Nat.mul_pos (Nat.two_pow_pos _) (by omega)
      exact Nat.le_mul_of_pos_right _ this
    obtain ⟨y1, hy1, hl1⟩ := block_loop_length (2 ^ a * q) (2 ^ s) (2 ^ d * q) hpos
      (cis E (-2 * E.PI / ((2 ^ (s + 1) : Nat) : R))) x hx hn
    rw [pass_loop, if_pos hle]
    simp only []
    rw [block_loop_congr _ _ _ (2 * 2 ^ s) _ (by omega) rfl hps, hy1]
    simp only []
    rw [pass_loop_congr E _ (2 ^ a * q) _ (2 ^ (s + 1 + 1)) _ (Nat.two_pow_pos _) rfl
      (by rw [Nat.shiftLeft_eq]; ring)]
    exact ih (s + 1) y1 (by omega) hl1

theorem two_pow_mul_odd (n : Nat) (hn : 3 ≤ n) (hnp : ∀ k : Nat, n ≠ 2 ^ k) :
    ∃ a q : Nat, 3 ≤ q ∧ q % 2 = 1 ∧ n = 2 ^ a * q := by
  obtain ⟨a, q, hodd, hnq⟩ := Nat.exists_eq_two_pow_mul_odd (n := n) (by omega)
  have hq1 : q % 2 = 1 := Nat.odd_iff.mp hodd
  refine ⟨a, q, ?_, hq1, hnq⟩
  by_contra h
  have : q = 1 := by omega
  subst this
  exact hnp a (by simpa using hnq)

/-! ## The array between two passes -/

theorem shiftLeft_pos (len c : Nat) (h : 0 < len) : 0 < len <<< c := by
  rw [Nat.shiftLeft_eq]
  exact Nat.mul_pos h (Nat.two_pow_pos c)

theorem pass_loop_first_congr {R C : Type} [Field R] [CommRing C] (E : CMath R C)
    (n n1 c len len1 : Nat) (h : 0 < len) (h1 : 0 < len1) (hn : n = n1) (hl : len = len1)
    (x : List C) : pass_loop_first E n c len h x = pass_loop_first E n1 c len1 h1 x := by
  subst hn; subst hl; rfl

theorem pass_loop_of_lt {R C : Type} [Field R] [CommRing C] (E : CMath R C)
    (n len : Nat) (h : 0 < len) (hlt : n < len) (x : List C) :
    pass_loop E n len h x = some x := by
  rw [pass_loop, if_neg (by omega)]

/-- The pass loop is its first `c` iterations followed by the pass loop resumed at
`len << c`. -/
theorem pass_loop_split {R C : Type} [Field R] [CommRing C] (E : CMath R C) (n c : Nat) :
    ∀ (len : Nat) (h : 0 < len) (x : List C),
      pass_loop E n len h x =
        (pass_loop_first E n c len h x).bind
          (fun a => pass_loop E n (len <<< c) (shiftLeft_pos len c h) a) := by
  induction c with
  | zero =>
    intro len h x
    simp only [pass_loop_first, Option.some_bind]
    exact pass_loop_congr E _ _ _ _ _ _ rfl (by simp) _
  | succ c ih =>
    intro len h x
    rw [pass_loop_first]
    by_cases hle : len ≤ n
    · rw [pass_loop, if_pos hle, if_pos hle]
      simp only []
      cases hb : block_loop n len h (cis E (-2 * E.PI / (len : R))) 0 x with
      | none => rfl
      | some x1 =>
        simp only []
        rw [ih (len <<< 1) _ x1]
        congr 1
    · rw [if_neg hle, Option.some_bind, pass_loop_of_lt E n len h (by omega),
        pass_loop_of_lt E n _ _ _ x]
      have : len ≤ len <<< (c + 1) := by
        rw [Nat.shiftLeft_eq]
        exact Nat.le_mul_of_pos_right _ (Nat.two_pow_pos _)
      omega

theorem pass_loop_first_stage {R C : Type} [Field R] [CommRing C] (E : CMath R C)
    (W : Nat → C) (hW : TwiddleSpec E W) (x : List C) (j c : Nat) :
    ∀ (s : Nat) (a0 : List C), StageInv W x (j + c) s a0 →
      ∃ a, pass_loop_first E (2 ^ (s + (j + c))) c (2 ^ (s + 1)) (Nat.two_pow_pos _) a0
          = some a ∧ StageInv W x j (s + c) a := by
  induction c with
  | zero =>
    intro s a0 h0
    exact ⟨a0, rfl, h0⟩
  | succ c ih =>
    intro s a0 h0
    have hle : 2 ^ (s + 1) ≤ 2 ^ (s + (j + (c + 1))) :=
      Nat.pow_le_pow_right (by decide) (by omega)
    have hpos : 0 < 2 ^ s := Nat.two_pow_pos _
    have hps : 2 ^ (s + 1) = 2 * 2 ^ s := by rw [pow_succ]; ring
    have hB : a0.length = 2 * 2 ^ s * 2 ^ (j + c) := by
      rw [h0.1, pow_add 2 s, ← Nat.add_assoc, pow_succ 2 (j + c)]; ring
    obtain ⟨y1, hy1, hlen1, hval1⟩ :=
      block_loop_spec (2 ^ s) hpos (W (s + 1)) a0 (2 ^ (j + c)) hB
    have hst : StageInv W x (j + c) (s + 1) y1 :=
      stageInv_step W hW.sq hW.neg x (j + c) s a0 y1 h0 hlen1 hval1
    obtain ⟨a, ha, hfin⟩ := ih (s + 1) y1 hst
    rw [pass_loop_first, if_pos hle]
    simp only []
    rw [hW.iter (s + 1),
      block_loop_congr _ a0.length _ (2 * 2 ^ s) _ (by omega) h0.1.symm hps, hy1]
    simp only []
    rw [pass_loop_first_congr E _ (2 ^ (s + 1 + (j + c))) c _ (2 ^ (s + 1 + 1)) _
      (Nat.two_pow_pos _) (by congr 1; omega) (by rw [Nat.shiftLeft_eq]; ring), ha]
    refine ⟨a, rfl, ?_⟩
    have e : s + (c + 1) = s + 1 + c := by omega
    rw [e]
    exact hfin

/-! ## The recursive transform on an arbitrary length -/

/-- The "combine" loop leaves the cells from `2 * h` on untouched. -/
theorem combine_loop_tail {R C : Type} [Field R] [CommRing C] (E : CMath R C) (n h : Nat)
    (hn : n / 2 = h) (even odd x : List C) (he : even.length = h) (ho : odd.length = h)
    (hx : 2 * h ≤ x.length) (y : List C)
    (hy : forLoop (combine_step E n even odd) h x = some y) :
    ∀ q, 2 * h ≤ q → y.getD q 0 = x.getD q 0 := by
  obtain ⟨y2, hy2, _, h2⟩ := forLoop_inv (combine_step E n even odd)
    (fun _ a => a.length = x.length ∧ ∀ q, 2 * h ≤ q → a.getD q 0 = x.getD q 0)
    h x ⟨rfl, fun _ _ => rfl⟩
    (by
      intro K hK a ⟨hl, hval⟩
      unfold combine_step
      rw [hn, load_getD odd _ 0 (by omega), load_getD even _ 0 (by omega)]
      simp only [Option.some_bind]
      rw [store_of_lt _ _ _ (by omega)]
      simp only [Option.some_bind]
      rw [store_of_lt _ _ _ (by simp; omega)]
      refine ⟨_, rfl, by simp [hl], ?_⟩
      intro q hq
      rw [getD_set _ _ _ _ _ (by simp; omega), getD_set _ _ _ _ _ (by omega),
        if_neg (by omega), if_neg (by omega)]
      exact hval q hq)
  rw [hy] at hy2
  rw [Option.some.inj hy2]
  exact h2

/-- The recursive transform returns normally whenever `x` has at least `2 * (n / 2)`
cells, and keeps the length of `x`. -/
theorem fft_recursive_nat_total_of_le {R C : Type} [Field R] [CommRing C] (E : CMath R C)
    (n : Nat) : ∀ x : List C, 2 * (n / 2) ≤ x.length →
      ∃ y, fft_recursive_nat E x n = some y ∧ y.length = x.length := by
  induction n using Nat.strong_induction_on with
  | _ n ih =>
    intro x hx
    by_cases h1 : n ≤ 1
    · rw [fft_recursive_nat, if_pos h1]
      exact ⟨x, rfl, rfl⟩
    · obtain ⟨s, hs, hl1, hl2, _⟩ := split_loop_spec x (n / 2) hx
        (List.replicate (n / 2) 0) (List.replicate (n / 2) 0) (by simp) (by simp)
      obtain ⟨ev, hev, hevl⟩ := ih (n / 2) (by omega) s.1 (by omega)
      obtain ⟨od, hod, hodl⟩ := ih (n / 2) (by omega) s.2 (by omega)
      obtain ⟨y, hy, hyl, _⟩ := combine_loop_spec E n (n / 2) rfl ev od x (by omega)
        (by omega) hx
      rw [fft_recursive_nat, if_neg h1, hs]
      simp only []
      rw [hev]
      simp only []
      rw [hod]
      simp only []
      exact ⟨y, hy, hyl⟩

/-- One level of the recursion, for `n > 1`: the result in terms of the transformed
halves, which are determined by the first `2 * (n / 2)` cells of `x`. -/
theorem fft_recursive_nat_unfold {R C : Type} [Field R] [CommRing C] (E : CMath R C)
    (n : Nat) (hn : 1 < n) (x : List C) (hx : 2 * (n / 2) ≤ x.length) :
    ∃ (s : List C × List C) (ev od y : List C), s.1.length = n / 2 ∧ s.2.length = n / 2 ∧
      (∀ i, i < n / 2 →
        s.1.getD i 0 = x.getD (2 * i) 0 ∧ s.2.getD i 0 = x.getD (2 * i + 1) 0) ∧
      fft_recursive_nat E s.1 (n / 2) = some ev ∧
      fft_recursive_nat E s.2 (n / 2) = some od ∧
      fft_recursive_nat E x n = some y ∧ y.length = x.length ∧
      (∀ p, p < n / 2 →
        y.getD p 0 = ev.getD p 0 + cis E (-2 * E.PI * (p : R) / (n : R)) * od.getD p 0 ∧
        y.getD (p + n / 2) 0 =
          ev.getD p 0 - cis E (-2 * E.PI * (p : R) / (n : R)) * od.getD p 0) ∧
      ∀ q, 2 * (n / 2) ≤ q → y.getD q 0 = x.getD q 0 := by
  obtain ⟨s, hs, hl1, hl2, hsv⟩ := split_loop_spec x (n / 2) hx
    (List.replicate (n / 2) 0) (List.replicate (n / 2) 0) (by simp) (by simp)
  obtain ⟨ev, hev, hevl⟩ := fft_recursive_nat_total_of_le E (n / 2) s.1 (by omega)
  obtain ⟨od, hod, hodl⟩ := fft_recursive_nat_total_of_le E (n / 2) s.2 (by omega)
  obtain ⟨y, hy, hyl, hyv⟩ := combine_loop_spec E n (n / 2) rfl ev od x (by omega)
    (by omega) hx
  have htail := combine_loop_tail E n (n / 2) rfl ev od x (by omega) (by omega) hx y hy
  refine ⟨s, ev, od, y, hl1, hl2, hsv, hev, hod, ?_, hyl, hyv, htail⟩
  rw [fft_recursive_nat, if_neg (by omega), hs]
  simp only []
  rw [hev]
  simp only []
  rw [hod]
  exact hy

theorem getD_of_getElem? {C : Type} (x y : List C) (p q : Nat) (d : C)
    (h : x[p]? = y[q]?) : x.getD p d = y.getD q d := by
  simp only [List.getD_eq_getElem?_getD, h]

theorem getElem?_eq_of_getD {C : Type} (x y : List C) (p : Nat) (d : C)
    (hx : p < x.length) (hy : p < y.length) (h : x.getD p d = y.getD p d) :
    x[p]? = y[p]? := by
  rw [List.getD_eq_getElem _ _ hx, List.getD_eq_getElem _ _ hy] at h
  rw [List.getElem?_eq_getElem hx, List.getElem?_eq_getElem hy, h]

/-! ## The `int` computations fit in 32 bits up to `n = 2 ^ 29` -/

theorem int32_of_le (v : Nat) (h : v ≤ 2147483647) : int32 v = some v := by
  unfold int32 INT_MAX
  rw [if_pos h]

theorem two_pow_le_int (k : Nat) (hk : k ≤ 30) : 2 ^ k ≤ 1073741824 := by
  have h : 2 ^ k ≤ 2 ^ 30 := Nat.pow_le_pow_right (by decide) hk
  have e : (2 : Nat) ^ 30 = 1073741824 := by norm_num
  omega

theorem reverse_bits_int32_eq (iters : Nat) : ∀ (j result num : Nat),
    j + iters ≤ 31 → result < 2 ^ j →
      reverse_bits_int32 iters result num = some (reverse_bits_loop iters result num) := by
  induction iters with
  | zero =>
    intro j result num _ _
    rfl
  | succ iters ih =>
    intro j result num hj hr
    have h1 : 2 ^ (j + 1) ≤ 2 ^ 31 := Nat.pow_le_pow_right (by decide) (by omega)
    have e31 : (2 : Nat) ^ 31 = 2147483648 := by norm_num
    have hsh : result <<< 1 = 2 * result := by rw [Nat.shiftLeft_eq]; ring
    have hps : 2 ^ (j + 1) = 2 * 2 ^ j := by rw [pow_succ]; ring
    rw [reverse_bits_int32, reverse_bits_loop, int32_of_le _ (by omega), Option.some_bind]
    apply ih (j + 1) _ _ (by omega)
    rw [shl_or_bit]
    have := Nat.mod_lt num (by decide : 0 < 2)
    omega

theorem bit_reverse_int32_ok (k : Nat) (hk : k ≤ 31) : bit_reverse_int32 (2 ^ k) = some () := by
  unfold bit_reverse_int32
  rw [log2_loop_pow, Nat.zero_add]
  obtain ⟨u, hu, _⟩ := forLoop_inv
    (fun i (_ : Unit) => (reverse_bits_int32 k 0 i).bind fun _ => some ())
    (fun _ _ => True) (2 ^ k) () trivial
    (by
      intro i _ s _
      beta_reduce
      rw [reverse_bits_int32_eq k 0 0 i (by omega) (by simp)]
      exact ⟨(), rfl, trivial⟩)
  exact hu

theorem butterfly_loop_int32_ok (half i : Nat) (hi : i + 2 * half ≤ 2147483647) :
    forLoop (butterfly_int32 (2 * half) i) half () = some () := by
  have hh : 2 * half / 2 = half := by omega
  obtain ⟨u, hu, _⟩ := forLoop_inv (butterfly_int32 (2 * half) i) (fun _ _ => True) half ()
    trivial
    (by
      intro j hj s _
      unfold butterfly_int32
      rw [hh, int32_of_le _ (by omega), Option.some_bind, int32_of_le _ (by omega)]
      exact ⟨(), rfl, trivial⟩)
  exact hu

theorem block_loop_int32_ok (n half B : Nat) (hhalf : 0 < half) (hn : n = 2 * half * B)
    (hmax : n ≤ 2147483647) (c : Nat) :
    ∀ b : Nat, b + c = B →
      block_loop_int32 n (2 * half) (by omega) (2 * half * b) = some () := by
  induction c with
  | zero =>
    intro b hb
    have : b = B := by omega
    subst this
    rw [block_loop_int32, if_neg (by omega)]
  | succ c ih =>
    intro b hb
    have hlt : 2 * half * b + 2 * half ≤ n := by
      rw [hn, ← hb]
      have : 2 * half * (b + (c + 1)) = 2 * half * b + 2 * half + 2 * half * c := by ring
      omega
    have hh : 2 * half / 2 = half := by omega
    rw [block_loop_int32, if_pos (by omega), hh,
      butterfly_loop_int32_ok half (2 * half * b) (by omega)]
    simp only []
    unfold INT_MAX
    rw [if_pos (by omega)]
    have e : 2 * half * b + 2 * half = 2 * half * (b + 1) := by ring
    rw [e]
    exact ih (b + 1) (by omega)

theorem block_loop_int32_congr (n len len1 : Nat) (h : 0 < len) (h1 : 0 < len1)
    (hl : len = len1) (i : Nat) :
    block_loop_int32 n len h i = block_loop_int32 n len1 h1 i := by
  subst hl; rfl

theorem pass_loop_int32_congr (n len len1 : Nat) (h : 0 < len) (h1 : 0 < len1)
    (hl : len = len1) (p : Nat) :
    pass_loop_int32 n len h p = pass_loop_int32 n len1 h1 p := by
  subst hl; rfl

/-- Every pass `len = 2 ^ (s+1) ≤ n = 2 ^ k ≤ 2 ^ 30` keeps its indices and `i += len`
in range. -/
theorem block_pass_int32_ok (k s : Nat) (hk : k ≤ 30) (hs : s + 1 ≤ k) :
    block_loop_int32 (2 ^ k) (2 ^ (s + 1)) (Nat.two_pow_pos _) 0 = some () := by
  have hpos : 0 < 2 ^ s := Nat.two_pow_pos _
  have hps : 2 ^ (s + 1) = 2 * 2 ^ s := by rw [pow_succ]; ring
  obtain ⟨d, rfl⟩ : ∃ d, k = s + 1 + d := ⟨k - (s + 1), by omega⟩
  have hn : 2 ^ (s + 1 + d) = 2 * 2 ^ s * 2 ^ d := by rw [pow_add, hps]
  have h := block_loop_int32_ok (2 ^ (s + 1 + d)) (2 ^ s) (2 ^ d) hpos hn
    (by have := two_pow_le_int (s + 1 + d) hk; omega) (2 ^ d) 0 (by omega)
  rw [Nat.mul_zero] at h
  rw [← h]
  exact block_loop_int32_congr _ _ _ _ _ hps _

theorem pass_loop_int32_count (k : Nat) (hk : k ≤ 29) (d : Nat) :
    ∀ s p : Nat, s + d = k →
      pass_loop_int32 (2 ^ k) (2 ^ (s + 1)) (Nat.two_pow_pos _) p = some (p + d) := by
  induction d with
  | zero =>
    intro s p hs
    have : s = k := by omega
    subst this
    rw [pass_loop_int32, if_neg]
    · rfl
    · have : 0 < 2 ^ s := Nat.two_pow_pos _
      rw [pow_succ]
      omega
  | succ d ih =>
    intro s p hs
    have hle : 2 ^ (s + 1) ≤ 2 ^ k := Nat.pow_le_pow_right (by decide) (by omega)
    have hsh : 2 ^ (s + 1) <<< 1 = 2 ^ (s + 1 + 1) := by rw [Nat.shiftLeft_eq]; ring
    have hfit : 2 ^ (s + 1) <<< 1 ≤ INT_MAX := by
      rw [hsh]
      unfold INT_MAX
      have := two_pow_le_int (s + 1 + 1) (by omega)
      omega
    rw [pass_loop_int32, if_pos hle, block_pass_int32_ok k s (by omega) (by omega)]
    simp only []
    rw [if_pos hfit, pass_loop_int32_congr _ _ (2 ^ (s + 1 + 1)) _ (Nat.two_pow_pos _) hsh,
      ih (s + 1) (p + 1) (by omega)]
    congr 1
    omega

theorem pass_loop_int32_overflow (d : Nat) :
    ∀ s p : Nat, s + 1 + d = 30 →
      pass_loop_int32 (2 ^ 30) (2 ^ (s + 1)) (Nat.two_pow_pos _) p = none := by
  induction d with
  | zero =>
    intro s p hs
    have : s = 29 := by omega
    subst this
    have hno : ¬ (2 ^ (29 + 1) <<< 1 ≤ INT_MAX) := by
      unfold INT_MAX
      rw [Nat.shiftLeft_eq]
      norm_num
    rw [pass_loop_int32, if_pos (le_refl _),
      block_pass_int32_ok 30 29 (by decide) (by decide)]
    simp only []
    rw [if_neg hno]
  | succ d ih =>
    intro s p hs
    have hle : 2 ^ (s + 1) ≤ 2 ^ 30 := Nat.pow_le_pow_right (by decide) (by omega)
    have hsh : 2 ^ (s + 1) <<< 1 = 2 ^ (s + 1 + 1) := by rw [Nat.shiftLeft_eq]; ring
    have hfit : 2 ^ (s + 1) <<< 1 ≤ INT_MAX := by
      rw [hsh]
      unfold INT_MAX
      have := two_pow_le_int (s + 1 + 1) (by omega)
      omega
    rw [pass_loop_int32, if_pos hle, block_pass_int32_ok 30 s (by decide) (by omega)]
    simp only []
    rw [if_pos hfit, pass_loop_int32_congr _ _ (2 ^ (s + 1 + 1)) _ (Nat.two_pow_pos _) hsh]
    exact ih (s + 1) (p + 1) (by omega)

/-! ## The range in which the unbounded `int`s are exact -/

/-- For `n = 2 ^ k` with `k ≤ 29` every checked `int` result of the iterative transform
fits in 32 bits, and the pass loop runs `k` times. -/
theorem fft_cooley_tukey_int32_ok (k : Nat) (hk : k ≤ 29) :
    fft_cooley_tukey_int32 (2 ^ k) = some k := by
  unfold fft_cooley_tukey_int32
  rw [bit_reverse_int32_ok k (by omega), Option.some_bind]
  have h := pass_loop_int32_count k hk k 0 0 (by omega)
  rw [Nat.zero_add k] at h
  rw [← h]
  exact pass_loop_int32_congr _ _ _ _ _ (by simp) _

/-- For `n = 2 ^ 30` the last `len <<= 1` of the pass loop leaves the 32-bit range. -/
theorem fft_cooley_tukey_int32_overflow : fft_cooley_tukey_int32 (2 ^ 30) = none := by
  unfold fft_cooley_tukey_int32
  rw [bit_reverse_int32_ok 30 (by decide), Option.some_bind]
  have h := pass_loop_int32_overflow 29 0 0 (by decide)
  rw [← h]
  exact pass_loop_int32_congr _ _ _ _ _ (by simp) _

theorem fft_cooley_tukey_int32_ne_some (p : Nat) : fft_cooley_tukey_int32 (2 ^ 30) ≠ some p := by
  rw [fft_cooley_tukey_int32_overflow]
  exact fun h => Option.noConfusion h

/-- For `log2n ≤ 31` no `result << 1` of `reverse_bits` leaves the 32-bit range, and the
checked loop returns the value of the unbounded one. -/
theorem reverse_bits_int32_of_le (i log2n : Nat) (hl : log2n ≤ 31) :
    reverse_bits_int32 log2n 0 i = some (reverse_bits i log2n) := by
  unfold reverse_bits
  exact reverse_bits_int32_eq log2n 0 0 i (by omega) (by simp)

theorem reverse_bits_int32_one_32 : reverse_bits_int32 32 0 1 = none := by
  decide

theorem reverse_bits_int32_five_32 : reverse_bits_int32 32 0 5 = none := by
  decide

theorem reverse_bits_one_32 : reverse_bits 1 32 = 2147483648 := by
  decide

/-! # The claims -/

/-- C1 (counterexample): the claim for every `k` fails at `k = 30`.  For `n = 2 ^ 30` the
run of `fft_cooley_tukey` ends its last pass with `len <<= 1 = 2 ^ 31`, which is outside
the 32-bit `int`; so it is not the case that the call on the all-zero sequence of length
`2 ^ 30` completes its `int` computations in range and leaves the DFT coefficients. -/
theorem fft_cooley_tukey_is_dft_fails_at_30 :
    ¬ (fft_cooley_tukey_int32 (2 ^ 30) = some 30 ∧
      ∃ y, fft_cooley_tukey (CMath.mk Real.pi Real.cos Real.sin Complex.ofReal Complex.I
          (fun z => Complex.abs z)) (List.replicate (2 ^ 30) (0 : ℂ))
          ((2 ^ 30 : Nat) : Int) = some y ∧ y.length = 2 ^ 30 ∧
        ∀ m : Nat, m < 2 ^ 30 → y[m]? = some (∑ j in range (2 ^ 30),
          (List.replicate (2 ^ 30) (0 : ℂ)).getD j 0 *
            Complex.exp (-2 * Real.pi * Complex.I * j * m / ((2 ^ 30 : Nat) : ℂ)))) :=
  fun h => fft_cooley_tukey_int32_ne_some 30 h.1

/-- C1 (amended): for `n = 2 ^ k` with `0 ≤ k ≤ 29` and a complex sequence `x` of length
`n`, no `int` computation of the iterative transform leaves the 32-bit range, and over
exact arithmetic the transform returns normally with position `m < n` of its result
holding the unnormalised forward DFT coefficient `∑ j < n, x[j] * e^(-2πi·j·m/n)`, in
natural order. -/
theorem fft_cooley_tukey_is_dft (E : CMath ℝ ℂ) (hE : ExactArith E) (k : Nat)
    (hk : k ≤ 29) (x : List ℂ) (hx : x.length = 2 ^ k) :
    fft_cooley_tukey_int32 (2 ^ k) = some k ∧
    ∃ y, fft_cooley_tukey E x ((2 ^ k : Nat) : Int) = some y ∧ y.length = 2 ^ k ∧
      ∀ m : Nat, m < 2 ^ k → y[m]? = some (∑ j in range (2 ^ k),
        x.getD j 0 * Complex.exp (-2 * Real.pi * Complex.I * j * m / ((2 ^ k : Nat) : ℂ))) := by
  refine ⟨fft_cooley_tukey_int32_ok k hk, ?_⟩
  obtain ⟨y, hy, hlen, hval⟩ := fft_cooley_tukey_dftSum E _ (twiddleSpec_exact E hE) k x hx
  refine ⟨y, hy, hlen, fun m hm => ?_⟩
  apply getElem?_of_getD y m 0 _ (by omega)
  rw [hval m hm, dftSum_exact]
  simp only [exp_cast_pow]

theorem fft_cooley_tukey_is_dft_witness :
    ExactArith (CMath.mk Real.pi Real.cos Real.sin Complex.ofReal Complex.I
      (fun z => Complex.abs z)) ∧ 1 ≤ 29 ∧ ([3, 5] : List ℂ).length = 2 ^ 1 ∧
    fft_cooley_tukey_int32 (2 ^ 1) = some 1 ∧
    ∃ y, fft_cooley_tukey (CMath.mk Real.pi Real.cos Real.sin Complex.ofReal Complex.I
        (fun z => Complex.abs z)) [3, 5] ((2 ^ 1 : Nat) : Int) = some y ∧
      y.length = 2 ^ 1 ∧
      ∀ m : Nat, m < 2 ^ 1 → y[m]? = some (∑ j in range (2 ^ 1),
        ([3, 5] : List ℂ).getD j 0 *
          Complex.exp (-2 * Real.pi * Complex.I * j * m / ((2 ^ 1 : Nat) : ℂ))) :=
  ⟨⟨rfl, rfl, rfl, rfl, rfl, rfl⟩, by decide, rfl,
    fft_cooley_tukey_is_dft _ ⟨rfl, rfl, rfl, rfl, rfl, rfl⟩ 1 (by decide) [3, 5] rfl⟩

/-- C2 (counterexample): the claim for every `k` fails at `k = 30`.  For `n = 2 ^ 30` the
last `len <<= 1` of `fft_cooley_tukey` leaves the 32-bit `int`; so it is not the case
that, on the all-zero sequence of length `2 ^ 30`, the iterative call completes its
`int` computations in range and returns the output of `fft_recursive`. -/
theorem fft_cooley_tukey_eq_fft_recursive_fails_at_30 :
    ¬ (fft_cooley_tukey_int32 (2 ^ 30) = some 30 ∧
      ∃ y, fft_cooley_tukey (CMath.mk Real.pi Real.cos Real.sin Complex.ofReal Complex.I
          (fun z => Complex.abs z)) (List.replicate (2 ^ 30) (0 : ℂ))
          ((2 ^ 30 : Nat) : Int) = some y ∧
        fft_recursive (CMath.mk Real.pi Real.cos Real.sin Complex.ofReal Complex.I
          (fun z => Complex.abs z)) (List.replicate (2 ^ 30) (0 : ℂ))
          ((2 ^ 30 : Nat) : Int) = some y) :=
  fun h => fft_cooley_tukey_int32_ne_some 30 h.1

/-- C2 (amended): for `n = 2 ^ k` with `0 ≤ k ≤ 29` and a complex sequence `x` of length
`n`, no `int` computation of the iterative transform leaves the 32-bit range, and over
exact arithmetic `fft_cooley_tukey(x, n)` and `fft_recursive(x, n)` both return normally
and produce the same output sequence, element for element. -/
theorem fft_cooley_tukey_eq_fft_recursive (E : CMath ℝ ℂ) (hE : ExactArith E) (k : Nat)
    (hk : k ≤ 29) (x : List ℂ) (hx : x.length = 2 ^ k) :
    fft_cooley_tukey_int32 (2 ^ k) = some k ∧
    ∃ y, fft_cooley_tukey E x ((2 ^ k : Nat) : Int) = some y ∧
      fft_recursive E x ((2 ^ k : Nat) : Int) = some y := by
  refine ⟨fft_cooley_tukey_int32_ok k hk, ?_⟩
  have hW := twiddleSpec_exact E hE
  obtain ⟨y, hy, hlen, hval⟩ := fft_cooley_tukey_dftSum E _ hW k x hx
  obtain ⟨z, hz, hzlen, hzval⟩ := fft_recursive_dftSum E _ hW k x hx
  have hyz : y = z := by
    apply list_eq_of_getD y z 0 (by omega)
    intro m hm
    rw [hval m (by omega), hzval m (by omega)]
  exact ⟨y, hy, hyz ▸ hz⟩

theorem fft_cooley_tukey_eq_fft_recursive_witness :
    ExactArith (CMath.mk Real.pi Real.cos Real.sin Complex.ofReal Complex.I
      (fun z => Complex.abs z)) ∧ 2 ≤ 29 ∧ ([3, 5, 7, 11] : List ℂ).length = 2 ^ 2 ∧
    fft_cooley_tukey_int32 (2 ^ 2) = some 2 ∧
    ∃ y, fft_cooley_tukey (CMath.mk Real.pi Real.cos Real.sin Complex.ofReal Complex.I
        (fun z => Complex.abs z)) [3, 5, 7, 11] ((2 ^ 2 : Nat) : Int) = some y ∧
      fft_recursive (CMath.mk Real.pi Real.cos Real.sin Complex.ofReal Complex.I
        (fun z => Complex.abs z)) [3, 5, 7, 11] ((2 ^ 2 : Nat) : Int) = some y :=
  ⟨⟨rfl, rfl, rfl, rfl, rfl, rfl⟩, by decide, rfl,
    fft_cooley_tukey_eq_fft_recursive _ ⟨rfl, rfl, rfl, rfl, rfl, rfl⟩ 2 (by decide)
      [3, 5, 7, 11] rfl⟩

/-- C3: for `n = 2 ^ k` and a complex sequence `x` of length `n`, the recursive
transform over exact arithmetic returns normally with a sequence of the same length
`n` whose position `m < n` holds `∑ j < n, x[j] * e^(-2πi·j·m/n)`, the natural-order
DFT. -/
theorem fft_recursive_is_dft (E : CMath ℝ ℂ) (hE : ExactArith E) (k : Nat) (x : List ℂ)
    (hx : x.length = 2 ^ k) :
    ∃ y, fft_recursive E x ((2 ^ k : Nat) : Int) = some y ∧ y.length = x.length ∧
      ∀ m : Nat, m < 2 ^ k → y[m]? = some (∑ j in range (2 ^ k),
        x.getD j 0 * Complex.exp (-2 * Real.pi * Complex.I * j * m / ((2 ^ k : Nat) : ℂ))) := by
  obtain ⟨y, hy, hlen, hval⟩ := fft_recursive_dftSum E _ (twiddleSpec_exact E hE) k x hx
  refine ⟨y, hy, by omega, fun m hm => ?_⟩
  apply getElem?_of_getD y m 0 _ (by omega)
  rw [hval m hm, dftSum_exact]
  simp only [exp_cast_pow]

theorem fft_recursive_is_dft_witness :
    ExactArith (CMath.mk Real.pi Real.cos Real.sin Complex.ofReal Complex.I
      (fun z => Complex.abs z)) ∧ ([3, 5] : List ℂ).length = 2 ^ 1 ∧
    ∃ y, fft_recursive (CMath.mk Real.pi Real.cos Real.sin Complex.ofReal Complex.I
        (fun z => Complex.abs z)) [3, 5] ((2 ^ 1 : Nat) : Int) = some y ∧
      y.length = ([3, 5] : List ℂ).length ∧
      ∀ m : Nat, m < 2 ^ 1 → y[m]? = some (∑ j in range (2 ^ 1),
        ([3, 5] : List ℂ).getD j 0 *
          Complex.exp (-2 * Real.pi * Complex.I * j * m / ((2 ^ 1 : Nat) : ℂ))) :=
  ⟨⟨rfl, rfl, rfl, rfl, rfl, rfl⟩, rfl,
    fft_recursive_is_dft _ ⟨rfl, rfl, rfl, rfl, rfl, rfl⟩ 1 [3, 5] rfl⟩

/-- C4 (counterexample): lengths that are not powers of two, or below 1, are not
rejected.  With `n = 0` both transforms return normally (with the sequence unchanged),
and with `n = 3` the recursive transform returns normally with `[3, -1, 3]` for the
input `[1, 2, 3]`. -/
theorem invalid_length_not_rejected :
    fft_cooley_tukey (CMath.mk Real.pi Real.cos Real.sin Complex.ofReal Complex.I
        (fun z => Complex.abs z)) ([] : List ℂ) 0 = some [] ∧
    fft_recursive (CMath.mk Real.pi Real.cos Real.sin Complex.ofReal Complex.I
        (fun z => Complex.abs z)) ([] : List ℂ) 0 = some [] ∧
    fft_recursive (CMath.mk Real.pi Real.cos Real.sin Complex.ofReal Complex.I
        (fun z => Complex.abs z)) ([1, 2, 3] : List ℂ) 3 = some [3, -1, 3] := by
  refine ⟨fft_cooley_tukey_of_lt_one _ _ 0 (by decide),
    fft_recursive_of_le_one _ _ 0 (by decide), ?_⟩
  have h3 : (3 : Int).toNat = 3 := rfl
  have e : (3 : Nat) / 2 = 1 := rfl
  unfold fft_recursive
  rw [h3, fft_recursive_nat, if_neg (by decide), e]
  simp only [forLoop, split_step, load, store, Option.some_bind, List.replicate,
    List.length_cons, List.length_nil, List.getElem?_cons_zero, List.getElem?_cons_succ,
    Nat.lt_one_iff, if_true, List.set_cons_zero, Nat.mul_zero, Nat.zero_add]
  rw [fft_recursive_nat, if_pos (by decide), fft_recursive_nat, if_pos (by decide)]
  simp only [combine_step, cis, load, store, Option.some_bind]
  norm_num

/-- C4 (amended): the transforms do not validate their length.  For every `n < 1` both
`fft_cooley_tukey` and `fft_recursive` return normally and leave the sequence
unchanged; for every `n ≥ 0`, power of two or not, `fft_recursive` on a sequence of `n`
elements returns normally with a sequence of `n` elements. -/
theorem lengths_not_validated {R C : Type} [Field R] [CommRing C] (E : CMath R C)
    (x : List C) (n : Int) :
    (n < 1 → fft_cooley_tukey E x n = some x ∧ fft_recursive E x n = some x) ∧
    (0 ≤ n → x.length = n.toNat →
      ∃ y, fft_recursive E x n = some y ∧ y.length = x.length) := by
  refine ⟨fun hn => ⟨fft_cooley_tukey_of_lt_one E x n hn,
    fft_recursive_of_le_one E x n (by omega)⟩, fun _ hx => ?_⟩
  obtain ⟨y, hy, hl⟩ := fft_recursive_nat_total E n.toNat x hx
  exact ⟨y, hy, by omega⟩

theorem lengths_not_validated_witness :
    ((0 : Int) < 1 ∧
      fft_cooley_tukey (CMath.mk Real.pi Real.cos Real.sin Complex.ofReal Complex.I
        (fun z => Complex.abs z)) ([5] : List ℂ) 0 = some [5] ∧
      fft_recursive (CMath.mk Real.pi Real.cos Real.sin Complex.ofReal Complex.I
        (fun z => Complex.abs z)) ([5] : List ℂ) 0 = some [5]) ∧
    ((0 : Int) ≤ 3 ∧ ([1, 2, 3] : List ℂ).length = (3 : Int).toNat ∧
      ∃ y, fft_recursive (CMath.mk Real.pi Real.cos Real.sin Complex.ofReal Complex.I
        (fun z => Complex.abs z)) ([1, 2, 3] : List ℂ) 3 = some y ∧
        y.length = ([1, 2, 3] : List ℂ).length) :=
  ⟨⟨by decide, (lengths_not_validated _ [5] 0).1 (by decide)⟩,
    ⟨by decide, rfl, (lengths_not_validated _ [1, 2, 3] 3).2 (by decide) rfl⟩⟩

/-- C5 (counterexample): the claim for every `k` fails at `k = 30` for the iterative
transform.  For `n = 2 ^ 30` its last `len <<= 1` leaves the 32-bit `int`; so it is not
the case that, for `S1 = S2 =` the all-zero sequence of length `2 ^ 30` and `a = b = 1`,
the iterative calls complete their `int` computations in range and satisfy linearity. -/
theorem fft_linear_fails_at_30 :
    ¬ (fft_cooley_tukey_int32 (2 ^ 30) = some 30 ∧
      ∃ y1 y2, fft_cooley_tukey (CMath.mk Real.pi Real.cos Real.sin Complex.ofReal
          Complex.I (fun z => Complex.abs z)) (List.replicate (2 ^ 30) (0 : ℂ))
          ((2 ^ 30 : Nat) : Int) = some y1 ∧
        fft_cooley_tukey (CMath.mk Real.pi Real.cos Real.sin Complex.ofReal
          Complex.I (fun z => Complex.abs z)) (List.replicate (2 ^ 30) (0 : ℂ))
          ((2 ^ 30 : Nat) : Int) = some y2 ∧
        fft_cooley_tukey (CMath.mk Real.pi Real.cos Real.sin Complex.ofReal
          Complex.I (fun z => Complex.abs z))
          (lincomb 1 1 (List.replicate (2 ^ 30) (0 : ℂ)) (List.replicate (2 ^ 30) (0 : ℂ)))
          ((2 ^ 30 : Nat) : Int) = some (lincomb 1 1 y1 y2)) :=
  fun h => fft_cooley_tukey_int32_ne_some 30 h.1

/-- C5 (amended): linearity over exact arithmetic.  For `n = 2 ^ k`, sequences `S1`, `S2`
of length `n` and complex scalars `a`, `b`: when `k ≤ 29`, no `int` computation of the
iterative transform leaves the 32-bit range and the iterative transform of the
element-wise combination `a·S1 + b·S2` is `a·fft(S1) + b·fft(S2)` element-wise; the same
holds for the recursive transform for every `k`. -/
theorem fft_linear (E : CMath ℝ ℂ) (hE : ExactArith E) (k : Nat) (a b : ℂ)
    (S1 S2 : List ℂ) (h1 : S1.length = 2 ^ k) (h2 : S2.length = 2 ^ k) :
    (k ≤ 29 → fft_cooley_tukey_int32 (2 ^ k) = some k ∧
      ∃ y1 y2, fft_cooley_tukey E S1 ((2 ^ k : Nat) : Int) = some y1 ∧
        fft_cooley_tukey E S2 ((2 ^ k : Nat) : Int) = some y2 ∧
        fft_cooley_tukey E (lincomb a b S1 S2) ((2 ^ k : Nat) : Int) =
          some (lincomb a b y1 y2)) ∧
    (∃ z1 z2, fft_recursive E S1 ((2 ^ k : Nat) : Int) = some z1 ∧
        fft_recursive E S2 ((2 ^ k : Nat) : Int) = some z2 ∧
        fft_recursive E (lincomb a b S1 S2) ((2 ^ k : Nat) : Int) =
          some (lincomb a b z1 z2)) := by
  have hW := twiddleSpec_exact E hE
  constructor
  · intro hk
    exact ⟨fft_cooley_tukey_int32_ok k hk,
      linear_of_dftSum (fun x => fft_cooley_tukey E x ((2 ^ k : Nat) : Int)) _ (2 ^ k)
        (fun x hx => fft_cooley_tukey_dftSum E _ hW k x hx) a b S1 S2 h1 h2⟩
  · exact linear_of_dftSum (fun x => fft_recursive E x ((2 ^ k : Nat) : Int)) _ (2 ^ k)
      (fun x hx => fft_recursive_dftSum E _ hW k x hx) a b S1 S2 h1 h2

theorem fft_linear_witness :
    ExactArith (CMath.mk Real.pi Real.cos Real.sin Complex.ofReal Complex.I
      (fun z => Complex.abs z)) ∧
    ([1, 2] : List ℂ).length = 2 ^ 1 ∧ ([3, 4] : List ℂ).length = 2 ^ 1 ∧ 1 ≤ 29 ∧
    (fft_cooley_tukey_int32 (2 ^ 1) = some 1 ∧
      ∃ y1 y2, fft_cooley_tukey (CMath.mk Real.pi Real.cos Real.sin Complex.ofReal
          Complex.I (fun z => Complex.abs z)) [1, 2] ((2 ^ 1 : Nat) : Int) = some y1 ∧
        fft_cooley_tukey (CMath.mk Real.pi Real.cos Real.sin Complex.ofReal
          Complex.I (fun z => Complex.abs z)) [3, 4] ((2 ^ 1 : Nat) : Int) = some y2 ∧
        fft_cooley_tukey (CMath.mk Real.pi Real.cos Real.sin Complex.ofReal
          Complex.I (fun z => Complex.abs z)) (lincomb 5 Complex.I [1, 2] [3, 4])
          ((2 ^ 1 : Nat) : Int) = some (lincomb 5 Complex.I y1 y2)) ∧
     (∃ z1 z2, fft_recursive (CMath.mk Real.pi Real.cos Real.sin Complex.ofReal
          Complex.I (fun z => Complex.abs z)) [1, 2] ((2 ^ 1 : Nat) : Int) = some z1 ∧
        fft_recursive (CMath.mk Real.pi Real.cos Real.sin Complex.ofReal
          Complex.I (fun z => Complex.abs z)) [3, 4] ((2 ^ 1 : Nat) : Int) = some z2 ∧
        fft_recursive (CMath.mk Real.pi Real.cos Real.sin Complex.ofReal
          Complex.I (fun z => Complex.abs z)) (lincomb 5 Complex.I [1, 2] [3, 4])
          ((2 ^ 1 : Nat) : Int) = some (lincomb 5 Complex.I z1 z2)) :=
  ⟨⟨rfl, rfl, rfl, rfl, rfl, rfl⟩, rfl, rfl, by decide,
    (fft_linear _ ⟨rfl, rfl, rfl, rfl, rfl, rfl⟩ 1 5 Complex.I [1, 2] [3, 4] rfl rfl).1
      (by decide),
    (fft_linear _ ⟨rfl, rfl, rfl, rfl, rfl, rfl⟩ 1 5 Complex.I [1, 2] [3, 4] rfl rfl).2⟩

/-- C6 (counterexample): the claim for every `k` fails at `k = 30`.  For `n = 2 ^ 30` the
last `len <<= 1` of `fft_cooley_tukey` leaves the 32-bit `int`; so it is not the case
that the call on the all-one sequence of length `2 ^ 30` completes its `int`
computations in range and returns an output with `n` times the input energy. -/
theorem fft_cooley_tukey_parseval_fails_at_30 :
    ¬ (fft_cooley_tukey_int32 (2 ^ 30) = some 30 ∧
      ∃ y, fft_cooley_tukey (CMath.mk Real.pi Real.cos Real.sin Complex.ofReal Complex.I
          (fun z => Complex.abs z)) (List.replicate (2 ^ 30) (1 : ℂ))
          ((2 ^ 30 : Nat) : Int) = some y ∧
        ∑ m in range (2 ^ 30), Complex.abs (y.getD m 0) ^ 2 =
          ((2 ^ 30 : Nat) : ℝ) * ∑ j in range (2 ^ 30),
            Complex.abs ((List.replicate (2 ^ 30) (1 : ℂ)).getD j 0) ^ 2) :=
  fun h => fft_cooley_tukey_int32_ne_some 30 h.1

/-- C6 (amended): Parseval over exact arithmetic.  For `n = 2 ^ k` with `0 ≤ k ≤ 29` and
a complex sequence `x` of length `n`, no `int` computation of the iterative transform
leaves the 32-bit range, and the sum of the squared magnitudes of the output of
`fft_cooley_tukey(x, n)` (as accumulated by the energy loop of `verify_fft`) equals `n`
times the sum of the squared magnitudes of `x`. -/
theorem fft_cooley_tukey_parseval (E : CMath ℝ ℂ) (hE : ExactArith E) (k : Nat)
    (hk : k ≤ 29) (x : List ℂ) (hx : x.length = 2 ^ k) :
    fft_cooley_tukey_int32 (2 ^ k) = some k ∧
    ∃ y, fft_cooley_tukey E x ((2 ^ k : Nat) : Int) = some y ∧
      total_energy_loop E y (2 ^ k) =
        some (∑ m in range (2 ^ k), Complex.abs (y.getD m 0) ^ 2) ∧
      ∑ m in range (2 ^ k), Complex.abs (y.getD m 0) ^ 2 =
        ((2 ^ k : Nat) : ℝ) * ∑ j in range (2 ^ k), Complex.abs (x.getD j 0) ^ 2 := by
  refine ⟨fft_cooley_tukey_int32_ok k hk, ?_⟩
  have hW := twiddleSpec_exact E hE
  have hcabs : E.cabs = fun z => Complex.abs z := hE.2.2.2.2.2
  obtain ⟨y, hy, hlen, hval⟩ := fft_cooley_tukey_dftSum E _ hW k x hx
  refine ⟨y, hy, ?_, ?_⟩
  · rw [total_energy_loop_spec E y (2 ^ k) (by omega), hcabs]
    simp only [pow_two]
  · have h := normSq_dftSum _ hW.sq hW.neg normSq_twiddle_exact k (fun t => x.getD t 0)
    simp only [Complex.normSq_eq_abs] at h
    have hy2 : ∑ m in range (2 ^ k), Complex.abs (y.getD m 0) ^ 2 =
        ∑ m in range (2 ^ k), Complex.abs
          (dftSum (Complex.exp (-2 * Real.pi * Complex.I / (2 : ℂ) ^ k)) (2 ^ k)
            (fun t => x.getD t 0) m) ^ 2 :=
      sum_congr rfl (fun m hm => by rw [hval m (mem_range.mp hm)])
    rw [hy2, h]
    push_cast
    rfl

theorem fft_cooley_tukey_parseval_witness :
    ExactArith (CMath.mk Real.pi Real.cos Real.sin Complex.ofReal Complex.I
      (fun z => Complex.abs z)) ∧ 1 ≤ 29 ∧ ([3, 5] : List ℂ).length = 2 ^ 1 ∧
    fft_cooley_tukey_int32 (2 ^ 1) = some 1 ∧
    ∃ y, fft_cooley_tukey (CMath.mk Real.pi Real.cos Real.sin Complex.ofReal Complex.I
        (fun z => Complex.abs z)) [3, 5] ((2 ^ 1 : Nat) : Int) = some y ∧
      total_energy_loop (CMath.mk Real.pi Real.cos Real.sin Complex.ofReal Complex.I
        (fun z => Complex.abs z)) y (2 ^ 1) =
        some (∑ m in range (2 ^ 1), Complex.abs (y.getD m 0) ^ 2) ∧
      ∑ m in range (2 ^ 1), Complex.abs (y.getD m 0) ^ 2 =
        ((2 ^ 1 : Nat) : ℝ) *
          ∑ j in range (2 ^ 1), Complex.abs (([3, 5] : List ℂ).getD j 0) ^ 2 :=
  ⟨⟨rfl, rfl, rfl, rfl, rfl, rfl⟩, by decide, rfl,
    fft_cooley_tukey_parseval _ ⟨rfl, rfl, rfl, rfl, rfl, rfl⟩ 1 (by decide) [3, 5] rfl⟩

/-- C7 (counterexample): the claim for every `k` fails at `k = 30` for the iterative
transform.  For `n = 2 ^ 30` its last `len <<= 1` leaves the 32-bit `int`; so it is not
the case that the call on the impulse of length `2 ^ 30` completes its `int`
computations in range and returns the all-one sequence. -/
theorem fft_impulse_fails_at_30 :
    ¬ (fft_cooley_tukey_int32 (2 ^ 30) = some 30 ∧
      ∃ sig, generate_test_signal (CMath.mk Real.pi Real.cos Real.sin Complex.ofReal
          Complex.I (fun z => Complex.abs z)) ((2 ^ 30 : Nat) : Int) 0 = some sig ∧
        fft_cooley_tukey (CMath.mk Real.pi Real.cos Real.sin Complex.ofReal Complex.I
          (fun z => Complex.abs z)) sig ((2 ^ 30 : Nat) : Int) =
          some (List.replicate (2 ^ 30) (1 : ℂ))) :=
  fun h => fft_cooley_tukey_int32_ne_some 30 h.1

/-- C7 (amended): impulse response over exact arithmetic.  For `n = 2 ^ k`, the impulse
built by `generate_test_signal(n, 0)` (1 at index 0, 0 elsewhere) is mapped by
`fft_recursive`, and when `k ≤ 29` (no `int` computation of the iterative transform
leaves the 32-bit range) also by `fft_cooley_tukey`, to the sequence whose `n` elements
are all exactly 1. -/
theorem fft_impulse (E : CMath ℝ ℂ) (hE : ExactArith E) (k : Nat) :
    ∃ sig, generate_test_signal E ((2 ^ k : Nat) : Int) 0 = some sig ∧
      sig.length = 2 ^ k ∧
      (∀ i : Nat, i < 2 ^ k → sig[i]? = some (if i = 0 then 1 else 0)) ∧
      (k ≤ 29 → fft_cooley_tukey_int32 (2 ^ k) = some k ∧
        fft_cooley_tukey E sig ((2 ^ k : Nat) : Int) = some (List.replicate (2 ^ k) 1)) ∧
      fft_recursive E sig ((2 ^ k : Nat) : Int) = some (List.replicate (2 ^ k) 1) := by
  have hW := twiddleSpec_exact E hE
  have hpos : 0 < 2 ^ k := Nat.two_pow_pos k
  obtain ⟨sig, hsig, hl, hv⟩ := generate_impulse E hE (2 ^ k)
  obtain ⟨y, hy, hyl, hyv⟩ := fft_cooley_tukey_dftSum E _ hW k sig hl
  obtain ⟨z, hz, hzl, hzv⟩ := fft_recursive_dftSum E _ hW k sig hl
  refine ⟨sig, hsig, hl, fun i hi => getElem?_of_getD sig i 0 _ (by omega) (hv i hi), ?_, ?_⟩
  · intro hk
    refine ⟨fft_cooley_tukey_int32_ok k hk, ?_⟩
    rw [hy]
    congr 1
    apply eq_replicate_of_getD y (2 ^ k) 0 1 hyl
    intro m hm
    rw [hyv m hm]
    exact dftSum_impulse _ _ hpos _ hv m
  · rw [hz]
    congr 1
    apply eq_replicate_of_getD z (2 ^ k) 0 1 hzl
    intro m hm
    rw [hzv m hm]
    exact dftSum_impulse _ _ hpos _ hv m

theorem fft_impulse_witness :
    ExactArith (CMath.mk Real.pi Real.cos Real.sin Complex.ofReal Complex.I
      (fun z => Complex.abs z)) ∧
    generate_test_signal (CMath.mk Real.pi Real.cos Real.sin Complex.ofReal Complex.I
      (fun z => Complex.abs z)) 4 0 = some [1, 0, 0, 0] ∧ 2 ≤ 29 ∧
    fft_cooley_tukey_int32 (2 ^ 2) = some 2 ∧
    fft_cooley_tukey (CMath.mk Real.pi Real.cos Real.sin Complex.ofReal Complex.I
      (fun z => Complex.abs z)) [1, 0, 0, 0] 4 = some [1, 1, 1, 1] ∧
    fft_recursive (CMath.mk Real.pi Real.cos Real.sin Complex.ofReal Complex.I
      (fun z => Complex.abs z)) [1, 0, 0, 0] 4 = some [1, 1, 1, 1] := by
  obtain ⟨sig, h1, h2, h3, h4, h5⟩ := fft_impulse
    (CMath.mk Real.pi Real.cos Real.sin Complex.ofReal Complex.I (fun z => Complex.abs z))
    ⟨rfl, rfl, rfl, rfl, rfl, rfl⟩ 2
  have hs : sig = [1, 0, 0, 0] := by
    apply List.ext_getElem?
    intro i
    by_cases hi : i < 2 ^ 2
    · rw [h3 i hi]
      have hi4 : i < 4 := by simpa using hi
      interval_cases i <;> simp
    · rw [List.getElem?_eq_none (by omega), List.getElem?_eq_none (by simp at hi ⊢; omega)]
  have h4a := (h4 (by decide)).2
  rw [hs] at h1 h4a h5
  exact ⟨⟨rfl, rfl, rfl, rfl, rfl, rfl⟩, h1, by decide, (h4 (by decide)).1, h4a, h5⟩

/-- C8: with `n = 4` and the input `[1, 1, 1, 1]`, over exact arithmetic
`fft_cooley_tukey` produces exactly `[4, 0, 0, 0]`, and so does `fft_recursive`. -/
theorem fft_ones_four (E : CMath ℝ ℂ) (hE : ExactArith E) :
    fft_cooley_tukey E [1, 1, 1, 1] 4 = some [4, 0, 0, 0] ∧
      fft_recursive E [1, 1, 1, 1] 4 = some [4, 0, 0, 0] := by
  have hW := twiddleSpec_exact E hE
  have hw := hW.neg 1
  have h4 : (4 : Int) = ((2 ^ 2 : Nat) : Int) := rfl
  obtain ⟨y, hy, hl, hv⟩ := fft_cooley_tukey_dftSum E _ hW 2 [1, 1, 1, 1] rfl
  obtain ⟨z, hz, hzl, hzv⟩ := fft_recursive_dftSum E _ hW 2 [1, 1, 1, 1] rfl
  rw [h4, hy, hz, transform_ones4 _ hw y hl hv, transform_ones4 _ hw z hzl hzv]
  exact ⟨rfl, rfl⟩

theorem fft_ones_four_witness :
    ExactArith (CMath.mk Real.pi Real.cos Real.sin Complex.ofReal Complex.I
      (fun z => Complex.abs z)) ∧
    fft_cooley_tukey (CMath.mk Real.pi Real.cos Real.sin Complex.ofReal Complex.I
      (fun z => Complex.abs z)) [1, 1, 1, 1] 4 = some [4, 0, 0, 0] ∧
    fft_recursive (CMath.mk Real.pi Real.cos Real.sin Complex.ofReal Complex.I
      (fun z => Complex.abs z)) [1, 1, 1, 1] 4 = some [4, 0, 0, 0] :=
  ⟨⟨rfl, rfl, rfl, rfl, rfl, rfl⟩, fft_ones_four _ ⟨rfl, rfl, rfl, rfl, rfl, rfl⟩⟩

/-- C9 (counterexample): the claim for every power of two `n ≥ 4` fails at
`n = 2 ^ 30`.  There the last `len <<= 1` of `fft_cooley_tukey`, called by `verify_fft`,
leaves the 32-bit `int`; so it is not the case that the run completes its `int`
computations in range and reports the magnitudes `n/2`, `n/2` and 100 percent. -/
theorem fft_sine_pure_tone_fails_at_30 :
    ¬ (fft_cooley_tukey_int32 (2 ^ 30) = some 30 ∧
      verify_fft (CMath.mk Real.pi Real.cos Real.sin Complex.ofReal Complex.I
        (fun z => Complex.abs z)) ((2 ^ 30 : Nat) : Int) =
        some (((2 ^ 30 : Nat) : ℝ) / 2, ((2 ^ 30 : Nat) : ℝ) / 2, 100)) :=
  fun h => fft_cooley_tukey_int32_ne_some 30 h.1

/-- C9 (amended): pure tone over exact arithmetic.  For a power of two `n = 2 ^ k` with
`2 ≤ k ≤ 29`, no `int` computation of the iterative transform leaves the 32-bit range,
and the transform by `fft_cooley_tukey` of the sine signal `x[i] = sin(2πi/n)` built by
`generate_test_signal(n, 1)` has magnitude `n/2` at bin 1 and at bin `n-1` and
magnitude 0 at every other bin, and `verify_fft(n)` reports the magnitudes `n/2`,
`n/2` and an energy concentration of 100 percent. -/
theorem fft_sine_pure_tone (E : CMath ℝ ℂ) (hE : ExactArith E) (k : Nat) (hk : 2 ≤ k)
    (hk2 : k ≤ 29) :
    fft_cooley_tukey_int32 (2 ^ k) = some k ∧
    ∃ sig y, generate_test_signal E ((2 ^ k : Nat) : Int) 1 = some sig ∧
      (∀ i : Nat, i < 2 ^ k →
        sig[i]? = some ((Real.sin (2 * Real.pi * (i : ℝ) / ((2 ^ k : Nat) : ℝ)) : ℝ) : ℂ)) ∧
      fft_cooley_tukey E sig ((2 ^ k : Nat) : Int) = some y ∧ y.length = 2 ^ k ∧
      Complex.abs (y.getD 1 0) = ((2 ^ k : Nat) : ℝ) / 2 ∧
      Complex.abs (y.getD (2 ^ k - 1) 0) = ((2 ^ k : Nat) : ℝ) / 2 ∧
      (∀ m : Nat, m < 2 ^ k → m ≠ 1 → m ≠ 2 ^ k - 1 → Complex.abs (y.getD m 0) = 0) ∧
      verify_fft E ((2 ^ k : Nat) : Int) =
        some (((2 ^ k : Nat) : ℝ) / 2, ((2 ^ k : Nat) : ℝ) / 2, 100) := by
  refine ⟨fft_cooley_tukey_int32_ok k hk2, ?_⟩
  have hW := twiddleSpec_exact E hE
  have hcabs : E.cabs = fun z => Complex.abs z := hE.2.2.2.2.2
  have hn4 : 4 ≤ 2 ^ k := by
    calc 4 = 2 ^ 2 := by norm_num
      _ ≤ 2 ^ k := Nat.pow_le_pow_right (by decide) hk
  obtain ⟨sig, hsig, hl, hv⟩ := generate_sine E hE (2 ^ k)
  obtain ⟨y, hy, hyl, hyv⟩ := fft_cooley_tukey_dftSum E _ hW k sig hl
  generalize hn : 2 ^ k = n at *
  have hn0 : n ≠ 0 := by omega
  have hcast : (2 : ℂ) ^ k = (n : ℂ) := by rw [← hn]; push_cast; rfl
  have hval : ∀ m, m < n → y.getD m 0 =
      Complex.I / 2 * ((if n ∣ m + 1 then (n : ℂ) else 0) -
        (if n ∣ m + (n - 1) then (n : ℂ) else 0)) := by
    intro m hm
    have := hyv m hm
    beta_reduce at this
    rw [this, hcast]
    exact dftSum_sine n hn0 _ hv m
  have h1 : y.getD 1 0 = Complex.I / 2 * (0 - (n : ℂ)) := by
    rw [hval 1 (by omega), if_neg (fun h => by have := Nat.le_of_dvd (by omega) h; omega),
      if_pos (by rw [Nat.add_sub_cancel' (by omega)])]
  have h2 : y.getD (n - 1) 0 = Complex.I / 2 * ((n : ℂ) - 0) := by
    rw [hval (n - 1) (by omega), if_pos (by rw [Nat.sub_add_cancel (by omega)]),
      if_neg (fun h => by
        rcases dvd_lt_two_mul n _ h (by omega) with h0 | h0 <;> omega)]
  have h3 : ∀ m : Nat, m < n → m ≠ 1 → m ≠ n - 1 → y.getD m 0 = 0 := by
    intro m hm hm1 hmn
    rw [hval m hm,
      if_neg (fun h => by rcases dvd_lt_two_mul n _ h (by omega) with h0 | h0 <;> omega),
      if_neg (fun h => by rcases dvd_lt_two_mul n _ h (by omega) with h0 | h0 <;> omega)]
    simp
  have a1 : Complex.abs (y.getD 1 0) = (n : ℝ) / 2 := by
    rw [h1]
    simp
    ring
  have a2 : Complex.abs (y.getD (n - 1) 0) = (n : ℝ) / 2 := by
    rw [h2]
    simp
    ring
  have htot : ∑ i in range n, Complex.abs (y.getD i 0) * Complex.abs (y.getD i 0) =
      (n : ℝ) / 2 * ((n : ℝ) / 2) + (n : ℝ) / 2 * ((n : ℝ) / 2) := by
    rw [sum_eq_add 1 (n - 1) (by omega)
      (fun m hm hne => by rw [h3 m (mem_range.mp hm) hne.1 hne.2]; simp)
      (fun h => absurd (mem_range.mpr (by omega)) h)
      (fun h => absurd (mem_range.mpr (by omega)) h), a1, a2]
  refine ⟨sig, y, hsig, fun i hi => getElem?_of_getD sig i 0 _ (by omega) (hv i hi), hy, hyl,
    a1, a2, fun m hm hm1 hmn => by rw [h3 m hm hm1 hmn]; simp, ?_⟩
  have hidx : ((n : Int) - 1).toNat = n - 1 := by omega
  unfold verify_fft
  rw [hsig, Option.some_bind, hy, Option.some_bind, load_getD y 1 0 (by omega),
    Option.some_bind]
  unfold loadInt
  rw [if_pos (by omega), hidx, load_getD y (n - 1) 0 (by omega), Option.some_bind,
    Int.toNat_ofNat, total_energy_loop_spec E y n (by omega), Option.some_bind, hcabs]
  beta_reduce
  rw [htot, a1, a2]
  have hpos : (n : ℝ) / 2 * ((n : ℝ) / 2) + (n : ℝ) / 2 * ((n : ℝ) / 2) ≠ 0 := by
    have : (4 : ℝ) ≤ (n : ℝ) := by exact_mod_cast hn4
    positivity
  rw [div_self hpos, one_mul]

theorem fft_sine_pure_tone_witness :
    ExactArith (CMath.mk Real.pi Real.cos Real.sin Complex.ofReal Complex.I
      (fun z => Complex.abs z)) ∧ 2 ≤ 3 ∧ 3 ≤ 29 ∧
    fft_cooley_tukey_int32 (2 ^ 3) = some 3 ∧
    ∃ sig y, generate_test_signal (CMath.mk Real.pi Real.cos Real.sin Complex.ofReal
        Complex.I (fun z => Complex.abs z)) ((2 ^ 3 : Nat) : Int) 1 = some sig ∧
      (∀ i : Nat, i < 2 ^ 3 →
        sig[i]? = some ((Real.sin (2 * Real.pi * (i : ℝ) / ((2 ^ 3 : Nat) : ℝ)) : ℝ) : ℂ)) ∧
      fft_cooley_tukey (CMath.mk Real.pi Real.cos Real.sin Complex.ofReal
        Complex.I (fun z => Complex.abs z)) sig ((2 ^ 3 : Nat) : Int) = some y ∧
      y.length = 2 ^ 3 ∧
      Complex.abs (y.getD 1 0) = ((2 ^ 3 : Nat) : ℝ) / 2 ∧
      Complex.abs (y.getD (2 ^ 3 - 1) 0) = ((2 ^ 3 : Nat) : ℝ) / 2 ∧
      (∀ m : Nat, m < 2 ^ 3 → m ≠ 1 → m ≠ 2 ^ 3 - 1 → Complex.abs (y.getD m 0) = 0) ∧
      verify_fft (CMath.mk Real.pi Real.cos Real.sin Complex.ofReal
        Complex.I (fun z => Complex.abs z)) ((2 ^ 3 : Nat) : Int) =
        some (((2 ^ 3 : Nat) : ℝ) / 2, ((2 ^ 3 : Nat) : ℝ) / 2, 100) :=
  ⟨⟨rfl, rfl, rfl, rfl, rfl, rfl⟩, by decide, by decide,
    fft_sine_pure_tone _ ⟨rfl, rfl, rfl, rfl, rfl, rfl⟩ 3 (by decide) (by decide)⟩

/-- C10: bit reversal is self-inverse.  For `n = 2 ^ k` and any sequence `x` of length
`n`, `bit_reverse(x, n)` followed by `bit_reverse` again returns normally with `x`
unchanged in every position. -/
theorem bit_reverse_self_inverse {C : Type} (k : Nat) (x : List C) (hx : x.length = 2 ^ k) :
    (bit_reverse x ((2 ^ k : Nat) : Int)).bind (fun y => bit_reverse y ((2 ^ k : Nat) : Int))
      = some x := by
  obtain ⟨y, hy, hylen, hyval⟩ := bit_reverse_spec k x hx
  obtain ⟨z, hz, hzlen, hzval⟩ := bit_reverse_spec k y hylen
  rw [hy, Option.some_bind, hz]
  congr 1
  apply List.ext_getElem?
  intro p
  by_cases hp : p < 2 ^ k
  · rw [hzval p hp, hyval _ (revBits_lt k p), revBits_revBits k p hp]
  · rw [List.getElem?_eq_none (by omega), List.getElem?_eq_none (by omega)]

theorem bit_reverse_self_inverse_witness :
    ([10, 11, 12, 13, 14, 15, 16, 17] : List Nat).length = 2 ^ 3 ∧
    (bit_reverse ([10, 11, 12, 13, 14, 15, 16, 17] : List Nat) ((2 ^ 3 : Nat) : Int)).bind
      (fun y => bit_reverse y ((2 ^ 3 : Nat) : Int)) = some [10, 11, 12, 13, 14, 15, 16, 17] :=
  ⟨rfl, bit_reverse_self_inverse 3 _ rfl⟩

/-- C11 (counterexample): the claim for every `log2n ≥ 0` fails at `i = 1`,
`log2n = 32`.  The integer whose 32-bit representation is that of `1` reversed is
`2 ^ 31`, which is no 32-bit `int`: the last `result << 1` of `reverse_bits(1, 32)`
leaves the range. -/
theorem reverse_bits_overflows_at_32 :
    (1 : Nat) < 2 ^ 32 ∧ reverse_bits 1 32 = 2 ^ 31 ∧ INT_MAX < 2 ^ 31 ∧
      reverse_bits_int32 32 0 1 = none :=
  ⟨by decide, by decide, by decide, reverse_bits_int32_one_32⟩

/-- C11 (amended): for every `log2n` with `0 ≤ log2n ≤ 31` and every index
`i < 2 ^ log2n`, no `result << 1` of `reverse_bits(i, log2n)` leaves the 32-bit range and
the call returns the integer whose `log2n`-bit representation is that of `i` read in
reverse order: bit `b` of the result is bit `log2n - 1 - b` of `i` for every
`b < log2n`, and every higher bit of the result is 0. -/
theorem reverse_bits_reverses_bits (i log2n : Nat) (hl : log2n ≤ 31)
    (hi : i < 2 ^ log2n) :
    reverse_bits_int32 log2n 0 i = some (reverse_bits i log2n) ∧
    (∀ b : Nat, b < log2n → (reverse_bits i log2n).testBit b = i.testBit (log2n - 1 - b)) ∧
      (∀ b : Nat, log2n ≤ b → (reverse_bits i log2n).testBit b = false) := by
  have _ := hi
  refine ⟨reverse_bits_int32_of_le i log2n hl, ?_⟩
  rw [reverse_bits_eq]
  constructor
  · intro b hb
    rw [revBits_testBit]
    simp [hb]
  · intro b hb
    rw [revBits_testBit]
    have : ¬ b < log2n := by omega
    simp [this]

theorem reverse_bits_reverses_bits_witness :
    3 ≤ 31 ∧ 6 < 2 ^ 3 ∧ reverse_bits 6 3 = 3 ∧
    reverse_bits_int32 3 0 6 = some (reverse_bits 6 3) ∧
    (∀ b : Nat, b < 3 → (reverse_bits 6 3).testBit b = (6 : Nat).testBit (3 - 1 - b)) ∧
      (∀ b : Nat, 3 ≤ b → (reverse_bits 6 3).testBit b = false) :=
  ⟨by decide, by decide, by decide, reverse_bits_reverses_bits 6 3 (by decide) (by decide)⟩

/-- C12: for `n = 2 ^ k` and a sequence `x` of length `n`, `bit_reverse(x, n)` produces
the bit-reversal permutation: afterwards position `i` holds the original
`x[reverse_bits(i, k)]` for every `i < n`.  An iteration exchanges `x[i]` and `x[j]`,
`j = reverse_bits(i, k)`, when `i < j` and does nothing otherwise, so each pair
`{i, reverse(i)}` with `i ≠ reverse(i)` is exchanged by exactly one iteration, and a
palindromic index keeps its original element. -/
theorem bit_reverse_permutation {C : Type} (k : Nat) (x : List C) (hx : x.length = 2 ^ k) :
    ∃ y, bit_reverse x ((2 ^ k : Nat) : Int) = some y ∧ y.length = 2 ^ k ∧
      (∀ i : Nat, i < 2 ^ k → y[i]? = x[reverse_bits i k]?) ∧
      (∀ i : Nat, i < 2 ^ k → reverse_bits i k = i → y[i]? = x[i]?) ∧
      (∀ (i : Nat) (a : List C), ¬ i < reverse_bits i k → bit_reverse_step k i a = some a) ∧
      (∀ (i : Nat) (a : List C), i < reverse_bits i k → reverse_bits i k < a.length →
        ∃ u v, a[i]? = some u ∧ a[reverse_bits i k]? = some v ∧
          bit_reverse_step k i a = some ((a.set i v).set (reverse_bits i k) u)) ∧
      (∀ i : Nat, i < 2 ^ k → reverse_bits i k ≠ i →
        ((range (2 ^ k)).filter
          (fun p => p < reverse_bits p k ∧ (p = i ∨ p = reverse_bits i k))).card = 1) := by
  obtain ⟨y, hy, hlen, hval⟩ := bit_reverse_spec k x hx
  refine ⟨y, hy, hlen, fun i hi => ?_, fun i hi hpal => ?_,
    fun i a h => bit_reverse_step_of_not_lt k i a h,
    fun i a h hj => bit_reverse_step_of_lt k i a h hj,
    fun i hi hne => swap_once k i hi hne⟩
  · rw [hval i hi, reverse_bits_eq]
  · rw [hval i hi, ← reverse_bits_eq, hpal]

theorem bit_reverse_permutation_witness :
    ([10, 11, 12, 13, 14, 15, 16, 17] : List Nat).length = 2 ^ 3 ∧
    ∃ y, bit_reverse ([10, 11, 12, 13, 14, 15, 16, 17] : List Nat) ((2 ^ 3 : Nat) : Int)
        = some y ∧ y.length = 2 ^ 3 ∧
      (∀ i : Nat, i < 2 ^ 3 →
        y[i]? = ([10, 11, 12, 13, 14, 15, 16, 17] : List Nat)[reverse_bits i 3]?) ∧
      (∀ i : Nat, i < 2 ^ 3 → reverse_bits i 3 = i →
        y[i]? = ([10, 11, 12, 13, 14, 15, 16, 17] : List Nat)[i]?) ∧
      (∀ (i : Nat) (a : List Nat), ¬ i < reverse_bits i 3 →
        bit_reverse_step 3 i a = some a) ∧
      (∀ (i : Nat) (a : List Nat), i < reverse_bits i 3 → reverse_bits i 3 < a.length →
        ∃ u v, a[i]? = some u ∧ a[reverse_bits i 3]? = some v ∧
          bit_reverse_step 3 i a = some ((a.set i v).set (reverse_bits i 3) u)) ∧
      (∀ i : Nat, i < 2 ^ 3 → reverse_bits i 3 ≠ i →
        ((range (2 ^ 3)).filter
          (fun p => p < reverse_bits p 3 ∧ (p = i ∨ p = reverse_bits i 3))).card = 1) :=
  ⟨rfl, bit_reverse_permutation 3 _ rfl⟩

/-- C13 (counterexample): the claim for every `k` fails at `k = 30`.  For `n = 2 ^ 30`
the last `len <<= 1` of `fft_cooley_tukey` leaves the 32-bit `int`; so it is not the
case that the call on the all-one (real) sequence of length `2 ^ 30` completes its `int`
computations in range and returns an output with a real `X[0]`. -/
theorem fft_conjugate_symmetry_fails_at_30 :
    ¬ (fft_cooley_tukey_int32 (2 ^ 30) = some 30 ∧
      ∃ y, fft_cooley_tukey (CMath.mk Real.pi Real.cos Real.sin Complex.ofReal Complex.I
          (fun z => Complex.abs z)) (List.replicate (2 ^ 30) (1 : ℂ))
          ((2 ^ 30 : Nat) : Int) = some y ∧ (y.getD 0 0).im = 0) :=
  fun h => fft_cooley_tukey_int32_ne_some 30 h.1

/-- C13 (amended): conjugate symmetry over exact arithmetic.  For `n = 2 ^ k` with
`0 ≤ k ≤ 29` and a sequence `x` of length `n` whose elements all have zero imaginary
part, no `int` computation of the iterative transform leaves the 32-bit range, and the
output `X` of
`fft_cooley_tukey(x, n)` satisfies `X[n-m] = conj X[m]` for every `m` in `[1, n-1]`, and
`X[0]` is real. -/
theorem fft_conjugate_symmetry (E : CMath ℝ ℂ) (hE : ExactArith E) (k : Nat)
    (hk : k ≤ 29) (x : List ℂ) (hx : x.length = 2 ^ k) (hreal : ∀ z ∈ x, z.im = 0) :
    fft_cooley_tukey_int32 (2 ^ k) = some k ∧
    ∃ y, fft_cooley_tukey E x ((2 ^ k : Nat) : Int) = some y ∧ y.length = 2 ^ k ∧
      (∀ m : Nat, 1 ≤ m → m ≤ 2 ^ k - 1 →
        y.getD (2 ^ k - m) 0 = (starRingEnd ℂ) (y.getD m 0)) ∧
      (y.getD 0 0).im = 0 := by
  refine ⟨fft_cooley_tukey_int32_ok k hk, ?_⟩
  have hW := twiddleSpec_exact E hE
  have hpos : 0 < 2 ^ k := Nat.two_pow_pos k
  obtain ⟨y, hy, hlen, hval⟩ := fft_cooley_tukey_dftSum E _ hW k x hx
  refine ⟨y, hy, hlen, fun m hm1 hm2 => ?_, ?_⟩
  · rw [hval (2 ^ k - m) (by omega), hval m (by omega)]
    exact dftSum_conj _ (2 ^ k) (twiddle_pow_two_pow k) (normSq_twiddle_exact k) _
      (getD_im_zero x hreal) m (by omega)
  · rw [hval 0 hpos]
    unfold dftSum
    rw [Complex.im_sum]
    apply sum_eq_zero
    intro t _
    rw [mul_zero, pow_zero, mul_one]
    exact getD_im_zero x hreal t

theorem fft_conjugate_symmetry_witness :
    ExactArith (CMath.mk Real.pi Real.cos Real.sin Complex.ofReal Complex.I
      (fun z => Complex.abs z)) ∧ 2 ≤ 29 ∧ ([3, 5, 7, 11] : List ℂ).length = 2 ^ 2 ∧
    (∀ z ∈ ([3, 5, 7, 11] : List ℂ), z.im = 0) ∧
    fft_cooley_tukey_int32 (2 ^ 2) = some 2 ∧
    ∃ y, fft_cooley_tukey (CMath.mk Real.pi Real.cos Real.sin Complex.ofReal Complex.I
        (fun z => Complex.abs z)) [3, 5, 7, 11] ((2 ^ 2 : Nat) : Int) = some y ∧
      y.length = 2 ^ 2 ∧
      (∀ m : Nat, 1 ≤ m → m ≤ 2 ^ 2 - 1 →
        y.getD (2 ^ 2 - m) 0 = (starRingEnd ℂ) (y.getD m 0)) ∧
      (y.getD 0 0).im = 0 :=
  ⟨⟨rfl, rfl, rfl, rfl, rfl, rfl⟩, by decide, rfl, by simp,
    fft_conjugate_symmetry _ ⟨rfl, rfl, rfl, rfl, rfl, rfl⟩ 2 (by decide) [3, 5, 7, 11] rfl
      (by simp)⟩

/-- C14: length-one identity.  For a one-element sequence `x`, `bit_reverse(x, 1)`,
`fft_cooley_tukey(x, 1)` and `fft_recursive(x, 1)` each return `x` unchanged
(`log2n = 0`, the swap loop does not swap, and the exit test of the pass loop fails at
once); `fft_recursive` also returns its sequence unchanged for every `n ≤ 1`. -/
theorem length_one_identity {R C : Type} [Field R] [CommRing C] (E : CMath R C)
    (x : List C) (hx : x.length = 1) :
    log2_loop 1 0 = 0 ∧ bit_reverse x 1 = some x ∧
      pass_loop E 1 2 (by decide) x = some x ∧
      fft_cooley_tukey E x 1 = some x ∧ fft_recursive E x 1 = some x ∧
      ∀ (z : List C) (n : Int), n ≤ 1 → fft_recursive E z n = some z := by
  have _ := hx
  have hp : pass_loop E 1 2 (by decide) x = some x := by
    rw [pass_loop, if_neg (by decide)]
  refine ⟨log2_loop_one, bit_reverse_one x, hp, ?_,
    fft_recursive_of_le_one E x 1 (by decide),
    fun z n hn => fft_recursive_of_le_one E z n hn⟩
  have h1 : (1 : Int).toNat = 1 := rfl
  unfold fft_cooley_tukey
  rw [bit_reverse_one x]
  simp only [h1]
  exact hp

theorem length_one_identity_witness :
    ([7] : List ℂ).length = 1 ∧
    log2_loop 1 0 = 0 ∧ bit_reverse ([7] : List ℂ) 1 = some [7] ∧
      pass_loop (CMath.mk Real.pi Real.cos Real.sin Complex.ofReal Complex.I
        (fun z => Complex.abs z)) 1 2 (by decide) ([7] : List ℂ) = some [7] ∧
      fft_cooley_tukey (CMath.mk Real.pi Real.cos Real.sin Complex.ofReal Complex.I
        (fun z => Complex.abs z)) ([7] : List ℂ) 1 = some [7] ∧
      fft_recursive (CMath.mk Real.pi Real.cos Real.sin Complex.ofReal Complex.I
        (fun z => Complex.abs z)) ([7] : List ℂ) 1 = some [7] ∧
      ∀ (z : List ℂ) (n : Int), n ≤ 1 →
        fft_recursive (CMath.mk Real.pi Real.cos Real.sin Complex.ofReal Complex.I
          (fun z => Complex.abs z)) z n = some z :=
  ⟨rfl, length_one_identity _ [7] rfl⟩

/-- C15 (counterexample): the claim for every `k` fails at `k = 30`.  For `n = 2 ^ 30`
the last `len <<= 1` of `fft_cooley_tukey` leaves the 32-bit `int` (undefined behaviour);
so it is not the case that the call on an array of `2 ^ 30` cells completes its `int`
computations in range and returns normally with every access inside the array. -/
theorem fft_cooley_tukey_index_safe_fails_at_30 :
    ¬ (fft_cooley_tukey_int32 (2 ^ 30) = some 30 ∧
      ∃ y, fft_cooley_tukey (CMath.mk Real.pi Real.cos Real.sin Complex.ofReal Complex.I
          (fun z => Complex.abs z)) (List.replicate (2 ^ 30) (0 : ℂ))
          ((2 ^ 30 : Nat) : Int) = some y ∧ y.length = 2 ^ 30) :=
  fun h => fft_cooley_tukey_int32_ne_some 30 h.1

/-- C15 (amended): index safety of the iterative transform under its precondition.  For
`n = 2 ^ k` with `0 ≤ k ≤ 29` and an array of `n` cells, no `int` computation of
`fft_cooley_tukey` leaves the 32-bit range and the call (for any numeric environment)
returns normally, so no `load` or `store` took the out-of-bounds branch; and for every
`k` the swap target `j = reverse_bits(i, log2n)` is below `n` for every `i < n`, and the
butterfly indices `i + j` and `i + j + len/2` are below `n` for every pass
`len = 2 ^ s ≤ n`, block offset `i = len·b < n` and `j < len/2`. -/
theorem fft_cooley_tukey_index_safe {R C : Type} [Field R] [CommRing C] (E : CMath R C)
    (k : Nat) (x : List C) (hx : x.length = 2 ^ k) :
    (k ≤ 29 → fft_cooley_tukey_int32 (2 ^ k) = some k ∧
        ∃ y, fft_cooley_tukey E x ((2 ^ k : Nat) : Int) = some y ∧ y.length = 2 ^ k) ∧
      (∀ i : Nat, i < 2 ^ k → reverse_bits i (log2_loop (2 ^ k) 0) < 2 ^ k) ∧
      (∀ s b j : Nat, 1 ≤ s → s ≤ k → 2 ^ s * b < 2 ^ k → j < 2 ^ s / 2 →
        2 ^ s * b + j < 2 ^ k ∧ 2 ^ s * b + j + 2 ^ s / 2 < 2 ^ k) := by
  refine ⟨fun hk => ⟨fft_cooley_tukey_int32_ok k hk, ?_⟩, fun i _ => ?_,
    fun s b j _ hs hb hj => ?_⟩
  · obtain ⟨y0, hy0, hl0⟩ := bit_reverse_total (2 ^ k) x hx
    obtain ⟨y, hy, hl⟩ := pass_loop_length E k 0 y0 (by simpa using hl0)
    refine ⟨y, ?_, by simpa using hl⟩
    unfold fft_cooley_tukey
    rw [hy0]
    simp only [Int.toNat_ofNat]
    rw [← hy]
    exact pass_loop_congr E _ _ _ _ _ _ (by simp) (by simp) _
  · rw [log2_loop_pow, Nat.zero_add]
    exact reverse_bits_lt i k
  · have h := butterfly_index_lt k s b j hs hb hj
    exact ⟨by omega, h⟩

theorem fft_cooley_tukey_index_safe_witness :
    ([3, 5, 7, 11] : List ℂ).length = 2 ^ 2 ∧ 2 ≤ 29 ∧
    ((fft_cooley_tukey_int32 (2 ^ 2) = some 2 ∧
      ∃ y, fft_cooley_tukey (CMath.mk Real.pi Real.cos Real.sin Complex.ofReal Complex.I
        (fun z => Complex.abs z)) ([3, 5, 7, 11] : List ℂ) ((2 ^ 2 : Nat) : Int) = some y ∧
        y.length = 2 ^ 2) ∧
      (∀ i : Nat, i < 2 ^ 2 → reverse_bits i (log2_loop (2 ^ 2) 0) < 2 ^ 2) ∧
      (∀ s b j : Nat, 1 ≤ s → s ≤ 2 → 2 ^ s * b < 2 ^ 2 → j < 2 ^ s / 2 →
        2 ^ s * b + j < 2 ^ 2 ∧ 2 ^ s * b + j + 2 ^ s / 2 < 2 ^ 2)) :=
  ⟨rfl, by decide,
    (fft_cooley_tukey_index_safe (CMath.mk Real.pi Real.cos Real.sin Complex.ofReal
      Complex.I (fun z => Complex.abs z)) 2 ([3, 5, 7, 11] : List ℂ) rfl).1 (by decide),
    (fft_cooley_tukey_index_safe (CMath.mk Real.pi Real.cos Real.sin Complex.ofReal
      Complex.I (fun z => Complex.abs z)) 2 ([3, 5, 7, 11] : List ℂ) rfl).2⟩

/-- C16: out-of-bounds access on an invalid length.  For every `n ≥ 3` that is not a
power of two and an array of `n` cells, `fft_cooley_tukey(x, n)` is not rejected: the
swap loop completes, and then a butterfly accesses an index `i + j + len/2 ≥ n` (the run
takes the out-of-bounds branch), for a pass `len = 2 ^ s ≤ n`, a block offset `i < n`
that is a multiple of `len` and some `j < len/2`. -/
theorem fft_cooley_tukey_leaves_array {R C : Type} [Field R] [CommRing C] (E : CMath R C)
    (n : Nat) (hn : 3 ≤ n) (hnp : ∀ k : Nat, n ≠ 2 ^ k) (x : List C) (hx : x.length = n) :
    (∃ y0, bit_reverse x (n : Int) = some y0 ∧ y0.length = n) ∧
      fft_cooley_tukey E x (n : Int) = none ∧
      ∃ s i j : Nat, 1 ≤ s ∧ 2 ^ s ≤ n ∧ i < n ∧ 2 ^ s ∣ i ∧ j < 2 ^ s / 2 ∧
        n ≤ i + j + 2 ^ s / 2 := by
  obtain ⟨a, q, hq, hodd, rfl⟩ := two_pow_mul_odd n hn hnp
  obtain ⟨y0, hy0, hl0⟩ := bit_reverse_total (2 ^ a * q) x hx
  have hpos : 0 < 2 ^ a := Nat.two_pow_pos _
  have hps : 2 ^ (a + 1) = 2 * 2 ^ a := by rw [pow_succ]; ring
  have hq2 : q = 2 * (q / 2) + 1 := by omega
  have hsplit : 2 ^ a * q = 2 ^ (a + 1) * (q / 2) + 2 ^ a := by
    calc 2 ^ a * q = 2 ^ a * (2 * (q / 2) + 1) := by rw [← hq2]
      _ = 2 ^ (a + 1) * (q / 2) + 2 ^ a := by rw [hps]; ring
  refine ⟨⟨y0, hy0, hl0⟩, ?_, a + 1, 2 ^ (a + 1) * (q / 2), 0, by omega, ?_, by omega,
    Dvd.intro _ rfl, by omega, ?_⟩
  · unfold fft_cooley_tukey
    rw [hy0]
    simp only [Int.toNat_ofNat]
    have h := pass_loop_fail E a q hq hodd a 0 y0 (by omega) hl0
    rw [← h]
    exact pass_loop_congr E _ _ _ _ _ _ rfl (by simp) _
  · rw [hps, Nat.mul_comm 2]
    exact Nat.mul_le_mul_left _ (by omega)
  · have : 2 ^ (a + 1) / 2 = 2 ^ a := by omega
    omega

theorem fft_cooley_tukey_leaves_array_witness :
    3 ≤ 3 ∧ (∀ k : Nat, 3 ≠ 2 ^ k) ∧ ([1, 2, 3] : List ℂ).length = 3 ∧
    ((∃ y0, bit_reverse ([1, 2, 3] : List ℂ) ((3 : Nat) : Int) = some y0 ∧ y0.length = 3) ∧
      fft_cooley_tukey (CMath.mk Real.pi Real.cos Real.sin Complex.ofReal Complex.I
        (fun z => Complex.abs z)) ([1, 2, 3] : List ℂ) ((3 : Nat) : Int) = none ∧
      ∃ s i j : Nat, 1 ≤ s ∧ 2 ^ s ≤ 3 ∧ i < 3 ∧ 2 ^ s ∣ i ∧ j < 2 ^ s / 2 ∧
        3 ≤ i + j + 2 ^ s / 2) := by
  have hnp : ∀ k : Nat, 3 ≠ 2 ^ k := by
    intro k hk
    cases k with
    | zero => simp at hk
    | succ k => rw [pow_succ] at hk; omega
  exact ⟨le_refl 3, hnp, rfl, fft_cooley_tukey_leaves_array _ 3 (le_refl 3) hnp [1, 2, 3] rfl⟩

/-- C17: stage invariant of the iterative transform over exact arithmetic.  For
`n = 2 ^ k`, an input `x` of length `n` and `0 ≤ s ≤ k`, let `a` be the array after
`bit_reverse` and the first `s` passes (`len = 2, 4, …, 2 ^ s`).  Then every block
`b < n / 2 ^ s` of `a` holds the `2 ^ s`-point DFT of a decimated subsequence of `x`:
`a[b·2^s + m] = ∑ t < 2^s, x[r + t·2^(k-s)] · e^(-2πi·t·m/2^s)` for `m < 2 ^ s`, where
`r = reverse_bits(b, k - s)`.  When `k ≤ 29` (no `int` computation leaves the 32-bit
range) the transform is the pass loop resumed on `a` at `len = 2 ^ (s+1)`. -/
theorem fft_cooley_tukey_stage_invariant (E : CMath ℝ ℂ) (hE : ExactArith E) (k s : Nat)
    (hs : s ≤ k) (x : List ℂ) (hx : x.length = 2 ^ k) :
    ∃ y0 a, bit_reverse x ((2 ^ k : Nat) : Int) = some y0 ∧
      pass_loop_first E (2 ^ k) s 2 (by decide) y0 = some a ∧ a.length = 2 ^ k ∧
      (∀ b m : Nat, b < 2 ^ (k - s) → m < 2 ^ s →
        a[b * 2 ^ s + m]? = some (∑ t in range (2 ^ s),
          x.getD (reverse_bits b (k - s) + t * 2 ^ (k - s)) 0 *
            Complex.exp (-2 * Real.pi * Complex.I * t * m / ((2 ^ s : Nat) : ℂ)))) ∧
      (k ≤ 29 → fft_cooley_tukey_int32 (2 ^ k) = some k ∧
        fft_cooley_tukey E x ((2 ^ k : Nat) : Int) =
          pass_loop E (2 ^ k) (2 ^ (s + 1)) (Nat.two_pow_pos _) a) := by
  have hW := twiddleSpec_exact E hE
  obtain ⟨j, rfl⟩ : ∃ j, k = j + s := ⟨k - s, by omega⟩
  obtain ⟨y0, hy0, hlen0, hval0⟩ := bit_reverse_spec (j + s) x hx
  have h0 : StageInv (fun s => Complex.exp (-2 * Real.pi * Complex.I / (2 : ℂ) ^ s)) x
      (j + s) 0 y0 := by
    refine ⟨by simpa using hlen0, fun b m hb hm => ?_⟩
    have hm0 : m = 0 := by simpa using hm
    subst hm0
    have e : y0.getD b 0 = x.getD (revBits (j + s) b) 0 := by
      simp only [List.getD_eq_getElem?_getD, hval0 b hb]
    simp only [dftSum, pow_zero, one_mul, zero_add, range_one, sum_singleton, mul_zero,
      add_zero, mul_one, e]
  obtain ⟨a, ha, hlen, hval⟩ := pass_loop_first_stage E _ hW x j s 0 y0 h0
  have hn : 2 ^ (0 + (j + s)) = 2 ^ (j + s) := by rw [Nat.zero_add]
  have ha2 : pass_loop_first E (2 ^ (j + s)) s 2 (by decide) y0 = some a := by
    rw [← ha]
    exact pass_loop_first_congr E _ _ _ _ _ _ _ hn.symm (by simp) _
  have hlen2 : a.length = 2 ^ (j + s) := by rw [hlen]; congr 1; omega
  have hjs : j + s - s = j := by omega
  refine ⟨y0, a, hy0, ha2, hlen2, fun b m hb hm => ?_,
    fun hk => ⟨fft_cooley_tukey_int32_ok _ hk, ?_⟩⟩
  · rw [hjs] at hb ⊢
    have hlt : b * 2 ^ s + m < a.length := by
      rw [hlen2, pow_add]
      calc b * 2 ^ s + m < b * 2 ^ s + 2 ^ s := by omega
        _ = (b + 1) * 2 ^ s := by ring
        _ ≤ 2 ^ j * 2 ^ s := Nat.mul_le_mul_right _ (by omega)
    apply getElem?_of_getD a _ 0 _ hlt
    have h := hval b m hb (by simpa using hm)
    rw [Nat.zero_add] at h
    rw [Nat.mul_comm b, h, dftSum_exact, reverse_bits_eq]
    apply sum_congr rfl
    intro t _
    rw [exp_cast_pow, Nat.mul_comm t]
  · unfold fft_cooley_tukey
    rw [hy0]
    simp only [Int.toNat_ofNat]
    rw [pass_loop_split E (2 ^ (j + s)) s 2 (by decide) y0, ha2, Option.some_bind]
    exact pass_loop_congr E _ _ _ _ _ _ rfl (by rw [Nat.shiftLeft_eq, pow_succ]; ring) _

theorem fft_cooley_tukey_stage_invariant_witness :
    ExactArith (CMath.mk Real.pi Real.cos Real.sin Complex.ofReal Complex.I
      (fun z => Complex.abs z)) ∧ 1 ≤ 2 ∧ ([3, 5, 7, 11] : List ℂ).length = 2 ^ 2 ∧
    2 ≤ 29 ∧
    ∃ y0 a, bit_reverse ([3, 5, 7, 11] : List ℂ) ((2 ^ 2 : Nat) : Int) = some y0 ∧
      pass_loop_first (CMath.mk Real.pi Real.cos Real.sin Complex.ofReal Complex.I
        (fun z => Complex.abs z)) (2 ^ 2) 1 2 (by decide) y0 = some a ∧ a.length = 2 ^ 2 ∧
      (∀ b m : Nat, b < 2 ^ (2 - 1) → m < 2 ^ 1 →
        a[b * 2 ^ 1 + m]? = some (∑ t in range (2 ^ 1),
          ([3, 5, 7, 11] : List ℂ).getD (reverse_bits b (2 - 1) + t * 2 ^ (2 - 1)) 0 *
            Complex.exp (-2 * Real.pi * Complex.I * t * m / ((2 ^ 1 : Nat) : ℂ)))) ∧
      (fft_cooley_tukey_int32 (2 ^ 2) = some 2 ∧
        fft_cooley_tukey (CMath.mk Real.pi Real.cos Real.sin Complex.ofReal Complex.I
          (fun z => Complex.abs z)) ([3, 5, 7, 11] : List ℂ) ((2 ^ 2 : Nat) : Int) =
          pass_loop (CMath.mk Real.pi Real.cos Real.sin Complex.ofReal Complex.I
            (fun z => Complex.abs z)) (2 ^ 2) (2 ^ (1 + 1)) (Nat.two_pow_pos _) a) := by
  obtain ⟨y0, a, h1, h2, h3, h4, h5⟩ := fft_cooley_tukey_stage_invariant
    (CMath.mk Real.pi Real.cos Real.sin Complex.ofReal Complex.I (fun z => Complex.abs z))
    ⟨rfl, rfl, rfl, rfl, rfl, rfl⟩ 2 1 (by decide) [3, 5, 7, 11] rfl
  exact ⟨⟨rfl, rfl, rfl, rfl, rfl, rfl⟩, by decide, rfl, by decide, y0, a, h1, h2, h3, h4,
    h5 (by decide)⟩

/-- C18: for every `n ≥ 0`, power of two or not, `fft_recursive(x, n)` terminates and
returns normally as soon as `x` has `2·⌊n/2⌋` cells: every index of `x` it reads or
writes is below `2·⌊n/2⌋ ≤ n` and the `even`/`odd` buffers of `⌊n/2⌋` cells are never
left.  The cells of `x` from `2·⌊n/2⌋` on are unchanged and the other outputs do not
depend on them; in particular for odd `n` the last element `x[n-1]` is left unchanged. -/
theorem fft_recursive_any_length {R C : Type} [Field R] [CommRing C] (E : CMath R C)
    (n : Nat) (x : List C) (hx : 2 * (n / 2) ≤ x.length) :
    ∃ y, fft_recursive E x (n : Int) = some y ∧ y.length = x.length ∧
      (∀ q : Nat, 2 * (n / 2) ≤ q → y[q]? = x[q]?) ∧
      (n % 2 = 1 → y[n - 1]? = x[n - 1]?) ∧
      (∀ x1 : List C, 2 * (n / 2) ≤ x1.length →
        (∀ p : Nat, p < 2 * (n / 2) → x1[p]? = x[p]?) →
        ∃ y1, fft_recursive E x1 (n : Int) = some y1 ∧
          ∀ p : Nat, p < 2 * (n / 2) → y1[p]? = y[p]?) := by
  unfold fft_recursive
  simp only [Int.toNat_ofNat]
  by_cases h1 : n ≤ 1
  · have h0 : 2 * (n / 2) = 0 := by omega
    refine ⟨x, by rw [fft_recursive_nat, if_pos h1], rfl, fun q _ => rfl, fun _ => rfl,
      fun x1 _ _ => ⟨x1, by rw [fft_recursive_nat, if_pos h1], fun p hp => ?_⟩⟩
    omega
  · obtain ⟨s, ev, od, y, hl1, hl2, hsv, hev, hod, hy, hyl, hyv, htail⟩ :=
      fft_recursive_nat_unfold E n (by omega) x hx
    have htail2 : ∀ q : Nat, 2 * (n / 2) ≤ q → y[q]? = x[q]? := by
      intro q hq
      by_cases hq2 : q < x.length
      · exact getElem?_eq_of_getD y x q 0 (by omega) hq2 (htail q hq)
      · rw [List.getElem?_eq_none (by omega), List.getElem?_eq_none (by omega)]
    refine ⟨y, hy, hyl, htail2, fun _ => htail2 (n - 1) (by omega), ?_⟩
    intro x1 hx1 hagree
    obtain ⟨s1, ev1, od1, y1, hl11, hl12, hsv1, hev1, hod1, hy1, hyl1, hyv1, _⟩ :=
      fft_recursive_nat_unfold E n (by omega) x1 hx1
    have hs1 : s1.1 = s.1 := by
      apply list_eq_of_getD _ _ 0 (by omega)
      intro i hi
      rw [(hsv1 i (by omega)).1, (hsv i (by omega)).1]
      exact getD_of_getElem? _ _ _ _ 0 (hagree (2 * i) (by omega))
    have hs2 : s1.2 = s.2 := by
      apply list_eq_of_getD _ _ 0 (by omega)
      intro i hi
      rw [(hsv1 i (by omega)).2, (hsv i (by omega)).2]
      exact getD_of_getElem? _ _ _ _ 0 (hagree (2 * i + 1) (by omega))
    have hev2 : ev1 = ev := by
      rw [hs1, hev] at hev1
      exact (Option.some.inj hev1).symm
    have hod2 : od1 = od := by
      rw [hs2, hod] at hod1
      exact (Option.some.inj hod1).symm
    refine ⟨y1, hy1, fun p hp => ?_⟩
    apply getElem?_eq_of_getD y1 y p 0 (by omega) (by omega)
    by_cases hlow : p < n / 2
    · rw [(hyv1 p hlow).1, (hyv p hlow).1, hev2, hod2]
    · obtain ⟨p1, rfl⟩ : ∃ p1, p = p1 + n / 2 := ⟨p - n / 2, by omega⟩
      rw [(hyv1 p1 (by omega)).2, (hyv p1 (by omega)).2, hev2, hod2]

theorem fft_recursive_any_length_witness :
    2 * (3 / 2) ≤ ([1, 2, 3] : List ℂ).length ∧
    ∃ y, fft_recursive (CMath.mk Real.pi Real.cos Real.sin Complex.ofReal Complex.I
        (fun z => Complex.abs z)) ([1, 2, 3] : List ℂ) ((3 : Nat) : Int) = some y ∧
      y.length = ([1, 2, 3] : List ℂ).length ∧
      (∀ q : Nat, 2 * (3 / 2) ≤ q → y[q]? = ([1, 2, 3] : List ℂ)[q]?) ∧
      (3 % 2 = 1 → y[3 - 1]? = ([1, 2, 3] : List ℂ)[3 - 1]?) ∧
      (∀ x1 : List ℂ, 2 * (3 / 2) ≤ x1.length →
        (∀ p : Nat, p < 2 * (3 / 2) → x1[p]? = ([1, 2, 3] : List ℂ)[p]?) →
        ∃ y1, fft_recursive (CMath.mk Real.pi Real.cos Real.sin Complex.ofReal Complex.I
            (fun z => Complex.abs z)) x1 ((3 : Nat) : Int) = some y1 ∧
          ∀ p : Nat, p < 2 * (3 / 2) → y1[p]? = y[p]?) :=
  ⟨by decide, fft_recursive_any_length _ 3 [1, 2, 3] (by decide)⟩

/-- C19: for `n = 2 ^ k` with `0 ≤ k ≤ 29`, no `int` computation of `fft_cooley_tukey`
and `bit_reverse` (`result << 1`, `i + j`, `i + j + len/2`, `i += len`, `len <<= 1`)
leaves the signed 32-bit range, and the outer loop exits after exactly `k` passes.  The
bound is tight: for `n = 2 ^ 30` the swap loop and all 30 passes stay in range, and the
final `len <<= 1` produces `2 ^ 31`, which does not fit. -/
theorem int32_range (k : Nat) (hk : k ≤ 29) :
    fft_cooley_tukey_int32 (2 ^ k) = some k ∧
      (bit_reverse_int32 (2 ^ 30) = some () ∧
        (∀ s : Nat, s + 1 ≤ 30 →
          block_loop_int32 (2 ^ 30) (2 ^ (s + 1)) (Nat.two_pow_pos _) 0 = some ()) ∧
        2 ^ 30 <<< 1 = 2 ^ 31 ∧ int32 (2 ^ 30 <<< 1) = none ∧
        fft_cooley_tukey_int32 (2 ^ 30) = none) := by
  have hov : int32 (2 ^ 30 <<< 1) = none := by
    unfold int32 INT_MAX
    rw [if_neg]
    rw [Nat.shiftLeft_eq]
    norm_num
  refine ⟨?_, bit_reverse_int32_ok 30 (by decide),
    fun s hs => block_pass_int32_ok 30 s (by decide) hs,
    by rw [Nat.shiftLeft_eq]; norm_num, hov, ?_⟩
  · unfold fft_cooley_tukey_int32
    rw [bit_reverse_int32_ok k (by omega), Option.some_bind]
    have h := pass_loop_int32_count k hk k 0 0 (by omega)
    rw [Nat.zero_add k] at h
    rw [← h]
    exact pass_loop_int32_congr _ _ _ _ _ (by simp) _
  · unfold fft_cooley_tukey_int32
    rw [bit_reverse_int32_ok 30 (by decide), Option.some_bind]
    have h := pass_loop_int32_overflow 29 0 0 (by decide)
    rw [← h]
    exact pass_loop_int32_congr _ _ _ _ _ (by simp) _

theorem int32_range_witness :
    3 ≤ 29 ∧ fft_cooley_tukey_int32 (2 ^ 3) = some 3 ∧
      (bit_reverse_int32 (2 ^ 30) = some () ∧
        (∀ s : Nat, s + 1 ≤ 30 →
          block_loop_int32 (2 ^ 30) (2 ^ (s + 1)) (Nat.two_pow_pos _) 0 = some ()) ∧
        2 ^ 30 <<< 1 = 2 ^ 31 ∧ int32 (2 ^ 30 <<< 1) = none ∧
        fft_cooley_tukey_int32 (2 ^ 30) = none) :=
  ⟨by decide, int32_range 3 (by decide)⟩

/-- C20 (counterexample): the claim for every `k ≥ 0` fails at `k = 32`, `i = 5`.  The
loop of `reverse_bits(5, 32)` leaves the 32-bit `int` range in a `result << 1`, and the
value `2684354560` of the unbounded loop is no `int`, so the call does not return a
value in `[0, 2 ^ 32)` whose reversal is `5`. -/
theorem reverse_bits_involution_fails_at_32 :
    (5 : Nat) < 2 ^ 32 ∧ reverse_bits_int32 32 0 5 = none ∧
      reverse_bits 5 32 = 2684354560 ∧ INT_MAX < 2684354560 :=
  ⟨by decide, reverse_bits_int32_five_32, by decide, by decide⟩

/-- C20 (amended): for every `k` with `0 ≤ k ≤ 31` and every `i < 2 ^ k`, no
`result << 1` of `reverse_bits(i, k)` leaves the 32-bit range, `reverse_bits(i, k)` is
again below `2 ^ k` and `reverse_bits(reverse_bits(i, k), k) = i`; hence
`reverse_bits(., k)` is a bijection (an involution) of `[0, 2 ^ k)`. -/
theorem reverse_bits_involution (k : Nat) (hk : k ≤ 31) :
    (∀ i : Nat, i < 2 ^ k →
      reverse_bits_int32 k 0 i = some (reverse_bits i k) ∧
      reverse_bits i k < 2 ^ k ∧ reverse_bits (reverse_bits i k) k = i) ∧
    Set.BijOn (fun i => reverse_bits i k) {i | i < 2 ^ k} {i | i < 2 ^ k} := by
  have hlt : ∀ i : Nat, reverse_bits i k < 2 ^ k := fun i => by
    rw [reverse_bits_eq]; exact revBits_lt k i
  have hinv : ∀ i : Nat, i < 2 ^ k → reverse_bits (reverse_bits i k) k = i := fun i hi => by
    rw [reverse_bits_eq, reverse_bits_eq]; exact revBits_revBits k i hi
  refine ⟨fun i hi => ⟨reverse_bits_int32_of_le i k hk, hlt i, hinv i hi⟩,
    fun i _ => hlt i, ?_, ?_⟩
  · intro a ha b hb hab
    have h := congrArg (fun t => reverse_bits t k) hab
    beta_reduce at h
    rwa [hinv a ha, hinv b hb] at h
  · intro b hb
    exact ⟨reverse_bits b k, hlt b, hinv b hb⟩

theorem reverse_bits_involution_witness :
    4 ≤ 31 ∧ (5 : Nat) < 2 ^ 4 ∧ reverse_bits 5 4 = 10 ∧
      reverse_bits_int32 4 0 5 = some (reverse_bits 5 4) ∧
      reverse_bits 5 4 < 2 ^ 4 ∧ reverse_bits (reverse_bits 5 4) 4 = 5 :=
  ⟨by decide, by decide, by decide, (reverse_bits_involution 4 (by decide)).1 5 (by decide)⟩

end FFT
